import Mathlib

/-!
ILU(0) relaxation (`amgcl/relaxation/ilu0.hpp`).

A shallow embedding of the `ilu0` constructor (sparsity pre-pass, scatter /
eliminate / clear row loop over a pointer work table) and of the smoother
entry points `apply_pre`, `apply_post`, `apply`, followed by theorems about
them.  Scalars range over a field `K` with decidable equality; the scalar
operations of `amgcl/value_type/interface.hpp` are read as in §3 of the
specification: `math::is_zero x` is `x = 0` and `math::inverse x` is `x⁻¹`.
-/

namespace amgcl

/-! ## Data model -/

/-- Compressed-row matrix as the constructor sees it: `backend::rows(A)`,
`A.ptr`, `A.col`, `A.val`. -/
structure CSR (K : Type) where
  nrows : Nat
  ptr : List Nat
  col : List Nat
  val : List K
  deriving DecidableEq, Repr

/-- The ways the constructor can stop without producing factors.
`noDiagonal` is `precondition(c == i, "No diagonal value in system matrix")`,
`zeroPivot` is `precondition(!math::is_zero(D[i]), "Zero pivot in ILU")`; both
carry only their message.  `undefined` stands for behaviour the C++ leaves
undefined: an access outside the initialised extent of an array, or a
dereference of a `NULL` work entry. -/
inductive Failure where
  | noDiagonal
  | zeroPivot
  | undefined
  deriving DecidableEq, Repr

/-- A non-null `value_type*` held in `work`: `L->val + k`, `&D[k]` or
`U->val + k`. -/
inductive Slot where
  | inL (k : Nat)
  | inD (k : Nat)
  | inU (k : Nat)
  deriving DecidableEq, Repr

/-- The constructor's local state inside the row loop.  `L->col`, `L->val`,
`U->col`, `U->val` are allocated with `Lnz` / `Unz` uninitialised cells and
filled front to back; the lists hold the initialised prefix, so `Lhead` and
`Uhead` are their lengths.  Likewise `Lptr` / `Uptr` hold the initialised
prefix of `L->ptr` / `U->ptr`, and `D` is the `std::vector` grown by
`push_back`.  `work` is the table of `n` pointers. -/
structure Build (K : Type) where
  Lnz : Nat
  Unz : Nat
  Lcol : List Nat
  Lval : List K
  Lptr : List Nat
  Ucol : List Nat
  Uval : List K
  Uptr : List Nat
  D : List K
  work : List (Option Slot)
  deriving DecidableEq, Repr

/-- What the constructor hands over: `this->L`, `this->U`, `this->D`. -/
structure Factors (K : Type) where
  L : CSR K
  U : CSR K
  D : List K
  deriving DecidableEq, Repr

/-- Checked read `xs[k]`. -/
def rd {α : Type} (xs : List α) (k : Nat) : Except Failure α :=
  match xs[k]? with
  | some x => .ok x
  | none => .error .undefined

/-- Checked write `xs[k] = x`. -/
def wr {α : Type} (xs : List α) (k : Nat) (x : α) : Except Failure (List α) :=
  if k < xs.length then .ok (xs.set k x) else .error .undefined

/-- Modelled from the spec: the helper `precondition(cond, message)` of
`amgcl/util.hpp`, which is not among the sources; when `cond` is false the
error is signalled to the caller and the construction stops (§4.1, §7). -/
def precondition (cond : Bool) (msg : Failure) : Except Failure Unit :=
  if cond then .ok () else .error msg

/-- Read through a work pointer, `*p`. -/
def Build.load {K : Type} (s : Build K) : Slot → Except Failure K
  | .inL k => rd s.Lval k
  | .inD k => rd s.D k
  | .inU k => rd s.Uval k

/-- Write through a work pointer, `*p = x`. -/
def Build.store {K : Type} (s : Build K) (p : Slot) (x : K) : Except Failure (Build K) :=
  match p with
  | .inL k => (wr s.Lval k x).map fun v => { s with Lval := v }
  | .inD k => (wr s.D k x).map fun v => { s with D := v }
  | .inU k => (wr s.Uval k x).map fun v => { s with Uval := v }

/-! ## The constructor -/

section Constructor

variable {K : Type} [Field K] [DecidableEq K]

/-- Inner loop of the sparsity pre-pass (lines 97-103): `j` runs over `cnt`
consecutive positions, the pair is `(Lnz, Unz)`. -/
def countRow (A : CSR K) (i : Nat) : Nat → Nat → Nat × Nat → Except Failure (Nat × Nat)
  | _, 0, acc => .ok acc
  | j, cnt + 1, acc => do
    let c ← rd A.col j
    if c < i then countRow A i (j + 1) cnt (acc.1 + 1, acc.2)
    else if c > i then countRow A i (j + 1) cnt (acc.1, acc.2 + 1)
    else countRow A i (j + 1) cnt acc

/-- Outer loop of the sparsity pre-pass (lines 93-104), from row `i` for `m`
rows. -/
def countRows (A : CSR K) : Nat → Nat → Nat × Nat → Except Failure (Nat × Nat)
  | _, 0, acc => .ok acc
  | i, m + 1, acc => do
    let row_beg ← rd A.ptr i
    let row_end ← rd A.ptr (i + 1)
    let acc1 ← countRow A i row_beg (row_end - row_beg) acc
    countRows A (i + 1) m acc1

/-- Scatter pass over row `i` (lines 124-142). -/
def scatter (A : CSR K) (i : Nat) : Nat → Nat → Build K → Except Failure (Build K)
  | _, 0, s => .ok s
  | j, cnt + 1, s => do
    let c ← rd A.col j
    let v ← rd A.val j
    if c < i then
      if s.Lcol.length < s.Lnz then do
        let w ← wr s.work c (some (.inL s.Lcol.length))
        scatter A i (j + 1) cnt { s with Lcol := s.Lcol ++ [c], Lval := s.Lval ++ [v], work := w }
      else .error .undefined
    else if c = i then do
      let w ← wr s.work c (some (.inD s.D.length))
      scatter A i (j + 1) cnt { s with D := s.D ++ [v], work := w }
    else
      if s.Ucol.length < s.Unz then do
        let w ← wr s.work c (some (.inU s.Ucol.length))
        scatter A i (j + 1) cnt { s with Ucol := s.Ucol ++ [c], Uval := s.Uval ++ [v], work := w }
      else .error .undefined

/-- Linear combination (lines 164-167): subtract `tl` times row `c` of `U`
from the scattered row, skipping columns whose work entry is `NULL`. -/
def combine (tl : K) : Nat → Nat → Build K → Except Failure (Build K)
  | _, 0, s => .ok s
  | k, cnt + 1, s => do
    let uc ← rd s.Ucol k
    let w ← rd s.work uc
    match w with
    | none => combine tl (k + 1) cnt s
    | some p => do
      let x ← s.load p
      let u ← rd s.Uval k
      let s1 ← s.store p (x - tl * u)
      combine tl (k + 1) cnt s1

/-- The block entered when the diagonal is reached (lines 151-157), for the
entry with column `c ≥ i`. -/
def diagBlock (i c : Nat) (s : Build K) : Except Failure (Build K) := do
  precondition (c = i) .noDiagonal
  let d ← rd s.D i
  precondition (d ≠ 0) .zeroPivot
  let D1 ← wr s.D i d⁻¹
  pure { s with D := D1 }

/-- One iteration of the elimination pass for an entry with column `c < i`
(lines 159-167). -/
def elimEntry (c : Nat) (s : Build K) : Except Failure (Build K) := do
  let w ← rd s.work c
  match w with
  | none => .error .undefined
  | some p => do
    let x ← s.load p
    let dc ← rd s.D c
    let tl := x * dc
    let s1 ← s.store p tl
    let k0 ← rd s1.Uptr c
    let k1 ← rd s1.Uptr (c + 1)
    combine tl k0 (k1 - k0) s1

/-- Elimination pass over row `i` (lines 147-168); the `break` is the branch
that does not recurse. -/
def eliminate (A : CSR K) (i : Nat) : Nat → Nat → Build K → Except Failure (Build K)
  | _, 0, s => .ok s
  | j, cnt + 1, s => do
    let c ← rd A.col j
    if c ≥ i then diagBlock i c s
    else do
      let s1 ← elimEntry c s
      eliminate A i (j + 1) cnt s1

/-- Refresh of the work table (lines 171-172). -/
def clear (A : CSR K) : Nat → Nat → Build K → Except Failure (Build K)
  | _, 0, s => .ok s
  | j, cnt + 1, s => do
    let c ← rd A.col j
    let w ← wr s.work c none
    clear A (j + 1) cnt { s with work := w }

/-- Body of the row loop for row `i` (lines 121-172). -/
def processRow (A : CSR K) (i : Nat) (s : Build K) : Except Failure (Build K) := do
  let row_beg ← rd A.ptr i
  let row_end ← rd A.ptr (i + 1)
  let s1 ← scatter A i row_beg (row_end - row_beg) s
  let s2 : Build K :=
    { s1 with Lptr := s1.Lptr ++ [s1.Lcol.length], Uptr := s1.Uptr ++ [s1.Ucol.length] }
  let s3 ← eliminate A i row_beg (row_end - row_beg) s2
  clear A row_beg (row_end - row_beg) s3

/-- The row loop (line 120), from row `i` for `m` rows. -/
def rowLoop (A : CSR K) : Nat → Nat → Build K → Except Failure (Build K)
  | _, 0, s => .ok s
  | i, m + 1, s => do
    let s1 ← processRow A i s
    rowLoop A (i + 1) m s1

/-- State at line 118, before the row loop. -/
def Build.init (n Lnz Unz : Nat) : Build K :=
  { Lnz := Lnz, Unz := Unz, Lcol := [], Lval := [], Lptr := [0],
    Ucol := [], Uval := [], Uptr := [0], D := [], work := List.replicate n none }

/-- The factors read off a state: `L` and `U` are `n × n`. -/
def Build.factors (n : Nat) (s : Build K) : Factors K :=
  { L := { nrows := n, ptr := s.Lptr, col := s.Lcol, val := s.Lval },
    U := { nrows := n, ptr := s.Uptr, col := s.Ucol, val := s.Uval },
    D := s.D }

/-- The constructor `ilu0::ilu0(A, prm, bprm)` up to the hand-over of the
factors (the matrix-market dumps are not modelled). -/
def ilu0 (A : CSR K) : Except Failure (Factors K) := do
  let n := A.nrows
  let nz ← countRows A 0 n (0, 0)
  let s ← rowLoop A 0 n (Build.init n nz.1 nz.2)
  pure (s.factors n)

end Constructor

/-! ## Reading a CSR matrix -/

section Views

variable {K : Type}

/-- The `cnt` stored entries `(col[j'], val[j'])` at positions `j ≤ j' < j + cnt`. -/
def CSR.seg (A : CSR K) (j cnt : Nat) : List (Nat × K) :=
  ((A.col.zip A.val).drop j).take cnt

/-- Stored entries of row `i`, in storage order: positions `ptr[i] ≤ j < ptr[i+1]`. -/
def CSR.row (A : CSR K) (i : Nat) : List (Nat × K) :=
  A.seg (A.ptr.getD i 0) (A.ptr.getD (i + 1) 0 - A.ptr.getD i 0)

/-- Column indices stored in row `i`. -/
def CSR.cols (A : CSR K) (i : Nat) : List Nat :=
  (A.row i).map Prod.fst

/-- Position `(i, j)` is stored in `A`. -/
def CSR.Stored (A : CSR K) (i j : Nat) : Prop :=
  j ∈ A.cols i

/-- Sum of the values a list of entries stores at column `x`. -/
def valOf [AddCommMonoid K] (row : List (Nat × K)) (x : Nat) : K :=
  ((row.filter fun e => e.1 = x).map Prod.snd).sum

/-- Value of the matrix at `(i, j)`: the stored value, zero when nothing is
stored there (values stored twice at one position add up). -/
def CSR.entry [AddCommMonoid K] (A : CSR K) (i j : Nat) : K :=
  valOf (A.row i) j

/-- The `n × n` matrix a CSR structure denotes. -/
def CSR.toMatrix [AddCommMonoid K] (A : CSR K) (n : Nat) : Matrix (Fin n) (Fin n) K :=
  fun i j => A.entry i j

/-- CSR layout of §3: `ptr` has `n + 1` non-decreasing offsets from `0` to
`nnz`, and `col`, `val` are parallel arrays of `nnz` cells. -/
def CSR.WellFormed (A : CSR K) : Prop :=
  A.ptr.length = A.nrows + 1 ∧ A.val.length = A.col.length ∧
  A.ptr.getD 0 0 = 0 ∧ A.ptr.getD A.nrows 0 = A.col.length ∧
  ∀ i < A.nrows, A.ptr.getD i 0 ≤ A.ptr.getD (i + 1) 0

/-- Every stored column index lies in `[0, n)`. -/
def CSR.InRange (A : CSR K) : Prop :=
  ∀ i < A.nrows, ∀ c ∈ A.cols i, c < A.nrows

/-- Column indices are strictly ascending within each row. -/
def CSR.Ascending (A : CSR K) : Prop :=
  ∀ i < A.nrows, (A.cols i).Pairwise (· < ·)

/-- Every row `i` stores an entry at column `i`. -/
def CSR.HasDiag (A : CSR K) : Prop :=
  ∀ i < A.nrows, i ∈ A.cols i

/-- The input constraints of the factorizer (§4.1). -/
def CSR.Valid (A : CSR K) : Prop :=
  A.WellFormed ∧ A.InRange ∧ A.Ascending ∧ A.HasDiag

instance (A : CSR K) : Decidable A.WellFormed := by
  unfold CSR.WellFormed; infer_instance

instance (A : CSR K) : Decidable A.InRange := by
  unfold CSR.InRange; infer_instance

instance (A : CSR K) : Decidable A.Ascending := by
  unfold CSR.Ascending; infer_instance

instance (A : CSR K) : Decidable A.HasDiag := by
  unfold CSR.HasDiag; infer_instance

instance (A : CSR K) : Decidable A.Valid := by
  unfold CSR.Valid; infer_instance

instance (A : CSR K) (i j : Nat) : Decidable (A.Stored i j) := by
  unfold CSR.Stored; infer_instance

end Views


/-! ## Layout of the factors -/

section Layout

variable {K : Type}

/-- Columns of a row that go to `L` when the row is row `i`. -/
def lowerOf (i : Nat) (cs : List Nat) : List Nat :=
  cs.filter (· < i)

/-- Columns of a row that go to `U` when the row is row `i`. -/
def upperOf (i : Nat) (cs : List Nat) : List Nat :=
  cs.filter (i < ·)

/-- Concatenation of the per-row lists `f 0, …, f (i - 1)`. -/
def flatUpto {α : Type} (f : Nat → List α) : Nat → List α
  | 0 => []
  | i + 1 => flatUpto f i ++ f i

/-- Row offsets of the concatenation: `[0, |f 0|, |f 0| + |f 1|, …]`, `i + 1` of them. -/
def ptrUpto {α : Type} (f : Nat → List α) : Nat → List Nat
  | 0 => [0]
  | i + 1 => ptrUpto f i ++ [(flatUpto f (i + 1)).length]

/-- Number of stored entries of `A` below the diagonal. -/
def CSR.lowerCount (A : CSR K) : Nat :=
  (flatUpto (fun r => lowerOf r (A.cols r)) A.nrows).length

/-- Number of stored entries of `A` above the diagonal. -/
def CSR.upperCount (A : CSR K) : Nat :=
  (flatUpto (fun r => upperOf r (A.cols r)) A.nrows).length

end Layout

/-! ## Observing the pivot -/

section Pivot

variable {K : Type} [Field K] [DecidableEq K]

/-- The elimination pass of row `i` up to, and not including, the diagonal
block: the same loop as `eliminate`, returning the state in which the block
would be entered together with the column found there (`none` when the row
is exhausted first). -/
def elimUntilDiag (A : CSR K) (i : Nat) :
    Nat → Nat → Build K → Except Failure (Build K × Option Nat)
  | _, 0, s => .ok (s, none)
  | j, cnt + 1, s => do
    let c ← rd A.col j
    if c ≥ i then .ok (s, some c)
    else do
      let s1 ← elimEntry c s
      elimUntilDiag A i (j + 1) cnt s1

/-- Row `i` processed from the state `s` as in `processRow`, stopped where the
diagonal block would be entered: the content of the diagonal cell `D[i]`
at that moment. -/
def pivotFrom (A : CSR K) (i : Nat) (s : Build K) : Except Failure K := do
  let row_beg ← rd A.ptr i
  let row_end ← rd A.ptr (i + 1)
  let s1 ← scatter A i row_beg (row_end - row_beg) s
  let s2 : Build K :=
    { s1 with Lptr := s1.Lptr ++ [s1.Lcol.length], Uptr := s1.Uptr ++ [s1.Ucol.length] }
  let r ← elimUntilDiag A i row_beg (row_end - row_beg) s2
  rd r.1.D i

/-- The value in the diagonal cell `D[i]` of row `i` after rows `0 … i - 1`
were processed and row `i` was scattered and eliminated against them,
immediately before the checks and `math::inverse` of the diagonal block. -/
def pivotAt (A : CSR K) (i : Nat) : Except Failure K := do
  let nz ← countRows A 0 A.nrows (0, 0)
  let s ← rowLoop A 0 i (Build.init A.nrows nz.1 nz.2)
  pivotFrom A i s

end Pivot

/-! ## The scattered row -/

section RowState

variable {K : Type}

/-- The work entry for column `x` while a row with columns `cs` is scattered
as row `i`, when `L`, `D`, `U` held `L0`, `D0`, `U0` cells before the row. -/
def slotOf (i L0 D0 U0 : Nat) (cs : List Nat) (x : Nat) : Option Slot :=
  if x ∈ cs then
    if x < i then some (.inL (L0 + (lowerOf i cs).indexOf x))
    else if x = i then some (.inD D0)
    else some (.inU (U0 + (upperOf i cs).indexOf x))
  else none

/-- State `s` holds row `i` with columns `cs` scattered on top of `s0`, the
current value of column `x` being `cur x`. -/
structure RowSt (s0 : Build K) (i : Nat) (cs : List Nat) (cur : Nat → K) (s : Build K) :
    Prop where
  Lnz : s.Lnz = s0.Lnz
  Unz : s.Unz = s0.Unz
  Lcol : s.Lcol = s0.Lcol ++ lowerOf i cs
  Lval : s.Lval = s0.Lval ++ (lowerOf i cs).map cur
  Lptr : s.Lptr = s0.Lptr ++ [s.Lcol.length]
  Ucol : s.Ucol = s0.Ucol ++ upperOf i cs
  Uval : s.Uval = s0.Uval ++ (upperOf i cs).map cur
  Uptr : s.Uptr = s0.Uptr ++ [s.Ucol.length]
  D : s.D = s0.D ++ [cur i]
  work_length : s.work.length = s0.work.length
  work : ∀ x < s.work.length,
    s.work[x]? = some (slotOf i s0.Lcol.length s0.D.length s0.Ucol.length cs x)

end RowState

section Parts

variable {K : Type}

/-- The `U` matrix as held in a state. -/
def Build.Umat (s : Build K) : CSR K :=
  { nrows := s.work.length, ptr := s.Uptr, col := s.Ucol, val := s.Uval }

end Parts

/-! ## Invariants of the elimination pass -/

section Invariants

variable {K : Type}

/-- What the elimination of row `i` relies on in the state `s0` reached
before the row: `D` holds `d c` for the rows `c < i`, and row `c < i` of `U`
is in place, denoting `uent c` and strictly upper. -/
structure Before [AddCommMonoid K] (s0 : Build K) (i : Nat) (d : Nat → K)
    (uent : Nat → Nat → K) : Prop where
  Lval_length : s0.Lval.length = s0.Lcol.length
  Uval_length : s0.Uval.length = s0.Ucol.length
  D_length : s0.D.length = i
  D_get : ∀ c < i, s0.D[c]? = some (d c)
  Uptr_length : s0.Uptr.length = i + 1
  Urow_le : ∀ c < i,
    s0.Uptr.getD c 0 + (s0.Uptr.getD (c + 1) 0 - s0.Uptr.getD c 0) ≤ s0.Ucol.length
  Urow_in : ∀ c < i, ∀ e ∈ s0.Umat.row c, e.1 < s0.work.length
  Urow_val : ∀ c < i, ∀ x, valOf (s0.Umat.row c) x = uent c x
  Urow_upper : ∀ c < i, ∀ x, x ≤ c → uent c x = 0

/-- The part of the update sum contributed by the columns `pre` already
eliminated: `Σ_{c ∈ pre} cur c · U[c, x]`. -/
def partialSum [Semiring K] (uent : Nat → Nat → K) (pre : List Nat) (cur : Nat → K)
    (x : Nat) : K :=
  (pre.map fun c => cur c * uent c x).sum

/-- Loop invariant of the elimination pass: `a` is the scattered row, `pre`
the columns eliminated so far, `cur` the current values. -/
def ElimInv [Ring K] (a d : Nat → K) (uent : Nat → Nat → K) (cs pre : List Nat)
    (cur : Nat → K) : Prop :=
  (∀ x ∈ cs, cur x =
    if x ∈ pre then (a x - partialSum uent pre cur x) * d x
    else a x - partialSum uent pre cur x) ∧
  ((∀ x ∈ cs, a x = 0) → ∀ x ∈ cs, cur x = 0)

end Invariants

/-! ## The state between rows -/

section Between

variable {K : Type} [Field K]

/-- The state before row `i` when the rows `r < i` were processed and left the
values `vals r x` at the columns `x` of row `r` (multipliers below the
diagonal, the pivot on it, the `U` values above it). -/
def flatBuild (A : CSR K) (vals : Nat → Nat → K) (i : Nat) : Build K :=
  { Lnz := A.lowerCount
    Unz := A.upperCount
    Lcol := flatUpto (fun r => lowerOf r (A.cols r)) i
    Lval := flatUpto (fun r => (lowerOf r (A.cols r)).map (vals r)) i
    Lptr := ptrUpto (fun r => lowerOf r (A.cols r)) i
    Ucol := flatUpto (fun r => upperOf r (A.cols r)) i
    Uval := flatUpto (fun r => (upperOf r (A.cols r)).map (vals r)) i
    Uptr := ptrUpto (fun r => upperOf r (A.cols r)) i
    D := (List.range i).map fun r => (vals r r)⁻¹
    work := List.replicate A.nrows none }

/-- Entry `(c, x)` of `U` in terms of the row values: present exactly on the
stored columns above the diagonal. -/
def uentOf (A : CSR K) (vals : Nat → Nat → K) (c x : Nat) : K :=
  if x ∈ upperOf c (A.cols c) then vals c x else 0

/-- Entry `(r, x)` of `L` in terms of the row values. -/
def lentOf (A : CSR K) (vals : Nat → Nat → K) (r x : Nat) : K :=
  if x ∈ lowerOf r (A.cols r) then vals r x else 0

/-- The defining equations of the values of row `r`: each stored column `x`
holds the entry of `A` minus the updates from the columns below the diagonal,
divided by the pivot of row `x` when `x < r`. -/
def RowEq (A : CSR K) (vals : Nat → Nat → K) (r : Nat) : Prop :=
  ElimInv (fun x => valOf (A.row r) x) (fun c => (vals c c)⁻¹) (uentOf A vals) (A.cols r)
    (lowerOf r (A.cols r)) (vals r)

end Between

section Trajectory

variable {K : Type} [Field K]

/-- The rows `r < i` satisfy their defining equations and have nonzero pivots. -/
def Good (A : CSR K) (vals : Nat → Nat → K) (i : Nat) : Prop :=
  ∀ r < i, RowEq A vals r ∧ vals r r ≠ 0

end Trajectory

/-! ## Concrete matrices of the scenarios -/

section Scenarios

/-- Scenario 3: `tridiag(-1, 2, -1)` of size `3 × 3`, all three diagonals stored. -/
def tridiag3 : CSR ℚ :=
  { nrows := 3, ptr := [0, 2, 5, 7], col := [0, 1, 0, 1, 2, 1, 2],
    val := [2, -1, -1, 2, -1, -1, 2] }

/-- The factors of `tridiag3`. -/
def tridiag3Factors : Factors ℚ :=
  { L := { nrows := 3, ptr := [0, 0, 1, 2], col := [0, 1], val := [-1 / 2, -2 / 3] }
    U := { nrows := 3, ptr := [0, 1, 2, 2], col := [1, 2], val := [-1, -1] }
    D := [1 / 2, 2 / 3, 3 / 4] }

/-- Scenario 2: the lower-triangular `[[2, 0], [4, 3]]` with stored entries
`(0,0) = 2`, `(1,0) = 4`, `(1,1) = 3`. -/
def lower2 : CSR ℚ :=
  { nrows := 2, ptr := [0, 1, 3], col := [0, 0, 1], val := [2, 4, 3] }

/-- The factors of `lower2`. -/
def lower2Factors : Factors ℚ :=
  { L := { nrows := 2, ptr := [0, 0, 1], col := [0], val := [2] }
    U := { nrows := 2, ptr := [0, 0, 0], col := [], val := [] }
    D := [1 / 2, 1 / 3] }

/-- Scenario 4: `[[0, 1], [1, 0]]` with the zero diagonal entries stored. -/
def swap2 (K : Type) [Field K] : CSR K :=
  { nrows := 2, ptr := [0, 2, 4], col := [0, 1, 0, 1], val := [0, 1, 1, 0] }

/-- Scenario 5: a `2 × 2` matrix whose row 0 is `[1]` at column 0 and whose
row 1 stores only column 0. -/
def noDiag2 : CSR ℚ :=
  { nrows := 2, ptr := [0, 1, 2], col := [0, 0], val := [1, 1] }

end Scenarios

section Shape

variable {K : Type}

/-- The part of a state the elimination and clear passes never write: the
column and offset arrays and the number of initialised value cells. -/
def Build.shape (s : Build K) : List Nat × List Nat × List Nat × List Nat × Nat × Nat :=
  (s.Lcol, s.Ucol, s.Lptr, s.Uptr, s.Lval.length, s.Uval.length)

end Shape

/-! ## The smoother -/

section Smoother

variable {K : Type} [Field K]

/-- Relaxation parameters `ilu0::params`: `damping` (default `1`) and
`jacobi_iters` (default `2`). -/
structure params (K : Type) [Field K] where
  damping : K := 1
  jacobi_iters : Nat := 2

/-- The members of an `ilu0` object that the smoother reads: the factors and
the value of `serial_backend`. -/
structure Instance (K : Type) where
  fac : Factors K
  serial : Bool

/-- The sum `Σ_{j in row i of M} M[i,j] · x[j]` over the stored entries of row `i`. -/
def rowDot (M : CSR K) (i : Nat) (x : List K) : K :=
  ((M.row i).map fun e => e.2 * x.getD e.1 0).sum

/-- Modelled from the spec: the forward pass of the serial triangular solve
(§4.2.1, step 1), `y'[i] = r[i] − Σ_{j in row i of L} L[i,j]·y'[j]` for the
rows `i, i + 1, …` (`m` of them), in place.  The function
`relaxation::detail::serial_ilu_solve` of `amgcl/relaxation/detail/ilu_solve.hpp`
is not among the sources. -/
def forwardPass (L : CSR K) : Nat → Nat → List K → List K
  | _, 0, x => x
  | i, m + 1, x => forwardPass L (i + 1) m (x.set i (x.getD i 0 - rowDot L i x))

/-- Modelled from the spec: the backward pass of the serial triangular solve
(§4.2.1, step 2), `y[i] = D[i]·(y'[i] − Σ_{j in row i of U} U[i,j]·y[j])` for
the rows `i − 1, …, 0`, in place. -/
def backwardPass (U : CSR K) (D : List K) : Nat → List K → List K
  | 0, x => x
  | i + 1, x => backwardPass U D i (x.set i (D.getD i 0 * (x.getD i 0 - rowDot U i x)))

/-- Modelled from the spec: `relaxation::detail::serial_ilu_solve(L, U, D, x)`
(§4.2.1): the forward pass over all rows followed by the backward pass; the
result overwrites `x`. -/
def serial_ilu_solve (L U : CSR K) (D : List K) (x : List K) : List K :=
  backwardPass U D L.nrows (forwardPass L 0 L.nrows x)

/-- Modelled from the spec: `backend::residual(rhs, A, x, out)` computes
`out := rhs − A·x` (§6). -/
def residual (rhs : List K) (A : CSR K) (x : List K) : List K :=
  (List.range A.nrows).map fun i => rhs.getD i 0 - rowDot A i x

/-- Modelled from the spec: `backend::axpby(a, y, b, x)` computes
`x := a·y + b·x` (§6). -/
def axpby (a : K) (y : List K) (b : K) (x : List K) : List K :=
  (List.range x.length).map fun i => a * y.getD i 0 + b * x.getD i 0

/-- Modelled from the spec: `backend::copy(rhs, x)` overwrites `x` with `rhs`. -/
def copy (rhs _x : List K) : List K :=
  rhs

/-- The private `ilu0::solve(x, prm, serial_backend())` (lines 230-241): the
serial overload ignores `prm`, the other one passes `prm.jacobi_iters` to
`parallel_ilu_solve`, which is taken as the parameter `par`. -/
def solve (par : CSR K → CSR K → List K → Nat → List K → List K) (S : Instance K)
    (prm : params K) (x : List K) : List K :=
  if S.serial then serial_ilu_solve S.fac.L S.fac.U S.fac.D x
  else par S.fac.L S.fac.U S.fac.D prm.jacobi_iters x

/-- The method `ilu0::apply_pre(A, rhs, x, tmp, prm)` (lines 190-199); the
value is the new `x`. -/
def apply_pre (par : CSR K → CSR K → List K → Nat → List K → List K) (S : Instance K)
    (A : CSR K) (rhs x : List K) (prm : params K) : List K :=
  let tmp := residual rhs A x
  let tmp := solve par S prm tmp
  axpby prm.damping tmp 1 x

/-- The method `ilu0::apply_post(A, rhs, x, tmp, prm)` (lines 201-211); the
value is the new `x`. -/
def apply_post (par : CSR K → CSR K → List K → Nat → List K → List K) (S : Instance K)
    (A : CSR K) (rhs x : List K) (prm : params K) : List K :=
  let tmp := residual rhs A x
  let tmp := solve par S prm tmp
  axpby prm.damping tmp 1 x

/-- The method `ilu0::apply(A, rhs, x, prm)` (lines 213-219); the value is
the new `x`. -/
def apply (par : CSR K → CSR K → List K → Nat → List K → List K) (S : Instance K)
    (rhs x : List K) (prm : params K) : List K :=
  let x := copy rhs x
  solve par S prm x

/-- The vector a list denotes on `n` indices. -/
def toVec (n : Nat) (x : List K) : Fin n → K :=
  fun i => x.getD i 0

end Smoother

/-! ## Matrices that fail at different rows -/

section FailingScenarios

/-- The singular `[[1, 1], [1, 1]]`: row 0 has pivot `1`, row 1 has pivot `0`. -/
def singular2 : CSR ℚ :=
  { nrows := 2, ptr := [0, 2, 4], col := [0, 1, 0, 1], val := [1, 1, 1, 1] }

/-- A `2 × 2` matrix whose row 0 stores only column 1. -/
def noDiagRow0 : CSR ℚ :=
  { nrows := 2, ptr := [0, 1, 2], col := [1, 1], val := [1, 1] }

/-- A `3 × 3` matrix whose row 0 is fine and whose row 1 stores only column 2. -/
def noDiagRow1 : CSR ℚ :=
  { nrows := 3, ptr := [0, 1, 2, 3], col := [0, 2, 2], val := [1, 1, 1] }

end FailingScenarios

/-! ## Special shapes of the input -/

section Shapes

variable {K : Type}

/-- Every stored entry lies on or below the diagonal. -/
def CSR.LowerTriangular (A : CSR K) : Prop :=
  ∀ i < A.nrows, ∀ c ∈ A.cols i, c ≤ i

/-- The only stored entries are the diagonal ones. -/
def CSR.DiagonalOnly (A : CSR K) : Prop :=
  ∀ i < A.nrows, A.cols i = [i]

instance (A : CSR K) : Decidable A.LowerTriangular := by
  unfold CSR.LowerTriangular; infer_instance

instance (A : CSR K) : Decidable A.DiagonalOnly := by
  unfold CSR.DiagonalOnly; infer_instance

/-- Scenario 1: the `2 × 2` identity with its two diagonal entries stored. -/
def identity2 : CSR ℚ :=
  { nrows := 2, ptr := [0, 1, 2], col := [0, 1], val := [1, 1] }

/-- The factors of `identity2`. -/
def identity2Factors : Factors ℚ :=
  { L := { nrows := 2, ptr := [0, 0, 0], col := [], val := [] }
    U := { nrows := 2, ptr := [0, 0, 0], col := [], val := [] }
    D := [1, 1] }

end Shapes

/-! ## The Jacobi strategy -/

section Jacobi

variable {K : Type} [Field K]

/-- Modelled from the spec: one Jacobi sweep of the `L`-solve (§4.2.2),
`t2[i] := r[i] − Σ_{j in row i of L} L[i,j] · t1[j]` for every row `i`. -/
def sweepL (L : CSR K) (r t1 : List K) : List K :=
  (List.range L.nrows).map fun i => r.getD i 0 - rowDot L i t1

/-- Modelled from the spec: `m` sweeps of the `L`-solve with the swap of
`t1` and `t2` after each (§4.2.2); the value is the last `t1`. -/
def jacobiL (L : CSR K) (r : List K) : Nat → List K → List K
  | 0, t1 => t1
  | m + 1, t1 => jacobiL L r m (sweepL L r t1)

/-- Modelled from the spec: one Jacobi sweep of the `U`-solve (§4.2.2,
"analogously for U, applying `D[i]` as the final scaling"): the defining
equation of §4.2.1 step 2 with the previous iterate on the right,
`t2[i] := D[i]·(y'[i] − Σ_{j in row i of U} U[i,j] · t1[j])`. -/
def sweepU (n : Nat) (U : CSR K) (D y t1 : List K) : List K :=
  (List.range n).map fun i => D.getD i 0 * (y.getD i 0 - rowDot U i t1)

/-- Modelled from the spec: `m` sweeps of the `U`-solve; the value is the
last `t1`. -/
def jacobiU (n : Nat) (U : CSR K) (D y : List K) : Nat → List K → List K
  | 0, t1 => t1
  | m + 1, t1 => jacobiU n U D y m (sweepU n U D y t1)

/-- Modelled from the spec: `relaxation::detail::parallel_ilu_solve` (§4.2.2),
not among the sources: `m` Jacobi sweeps for `L` started from `t1 := r`,
then `m` sweeps for `U` started from the result; with `m = 0` the value is
`r`. -/
def parallel_ilu_solve (L U : CSR K) (D : List K) (m : Nat) (x : List K) : List K :=
  let y := jacobiL L x m x
  jacobiU L.nrows U D y m y

end Jacobi

section TridiagonalShape

variable {K : Type}

/-- Row `i` stores exactly the in-range columns `i − 1`, `i`, `i + 1`, in
this order. -/
def CSR.Tridiagonal (A : CSR K) : Prop :=
  ∀ i < A.nrows, A.cols i =
    (if i = 0 then [] else [i - 1]) ++ [i] ++ (if i + 1 < A.nrows then [i + 1] else [])

instance (A : CSR K) : Decidable A.Tridiagonal := by
  unfold CSR.Tridiagonal; infer_instance

end TridiagonalShape

/-! ## The work table and the frame of the elimination -/

section WorkTableDefs

variable {K : Type}

/-- The work entry of column `x` is a non-null pointer. -/
def present (w : List (Option Slot)) (x : Nat) : Prop :=
  ∃ p, w[x]? = some (some p)

/-- The first column `c ≥ i` of a row in storage order, if there is one: the
entry at which the elimination pass enters the diagonal block. -/
def firstGE (i : Nat) (cs : List Nat) : Option Nat :=
  cs.find? fun c => decide (i ≤ c)

/-- The pointer `p` points to an initialised cell of the state. -/
def Build.validSlot (s : Build K) : Slot → Prop
  | .inL k => k < s.Lval.length
  | .inD k => k < s.D.length
  | .inU k => k < s.Uval.length

/-- What writes through work pointers leave unchanged: the shape, the work
table, the number of entries of `D` and the capacities. -/
def Build.frame (s : Build K) :
    (List Nat × List Nat × List Nat × List Nat × Nat × Nat) × List (Option Slot) × Nat × Nat × Nat :=
  (s.shape, s.work, s.D.length, s.Lnz, s.Unz)

/-- What the elimination of row `i` needs in order to stay within initialised
cells: valid work pointers, `D` and `U->ptr` filled for the rows below `i`,
the rows of `U` within `U->col`, whose columns index the work table. -/
structure ElimSafe (n i : Nat) (s : Build K) : Prop where
  work_length : s.work.length = n
  valid : ∀ (x : Nat) (p : Slot), s.work[x]? = some (some p) → s.validSlot p
  D_length : i ≤ s.D.length
  Uptr_length : i + 1 ≤ s.Uptr.length
  Urows : ∀ c < i,
    s.Uptr.getD c 0 + (s.Uptr.getD (c + 1) 0 - s.Uptr.getD c 0) ≤ s.Ucol.length
  Uval_length : s.Uval.length = s.Ucol.length
  Ucols : ∀ u ∈ s.Ucol, u < n

end WorkTableDefs


set_option linter.unusedSectionVars false

/-! ## Checked accesses and the error monad -/

section Basics

variable {α β : Type}

@[simp] theorem ok_bind (x : α) (f : α → Except Failure β) : (Except.ok x >>= f) = f x := rfl

@[simp] theorem error_bind (e : Failure) (f : α → Except Failure β) :
    ((Except.error e : Except Failure α) >>= f) = .error e := rfl

theorem rd_of_getElem? {xs : List α} {k : Nat} {x : α} (h : xs[k]? = some x) :
    rd xs k = .ok x := by
  simp [rd, h]

theorem rd_getD {xs : List α} {k : Nat} (d : α) (h : k < xs.length) :
    rd xs k = .ok (xs.getD k d) := by
  simp [rd, List.getElem?_eq_getElem h, List.getD]

theorem rd_append_left {xs ys : List α} {k : Nat} (h : k < xs.length) :
    rd (xs ++ ys) k = rd xs k := by
  simp [rd, List.getElem?_append_left h]

theorem wr_of_lt {xs : List α} {k : Nat} (x : α) (h : k < xs.length) :
    wr xs k x = .ok (xs.set k x) := by
  simp [wr, h]

theorem wr_eq_ok_iff {xs ys : List α} {k : Nat} {x : α} :
    wr xs k x = .ok ys ↔ k < xs.length ∧ ys = xs.set k x := by
  unfold wr
  split <;> simp_all [eq_comm]

end Basics

/-! ## Segments and rows of a well-formed matrix -/

section Segments

variable {K : Type}

theorem CSR.seg_zero (A : CSR K) (j : Nat) : A.seg j 0 = [] := by
  simp [CSR.seg]

theorem CSR.seg_succ (A : CSR K) (j cnt : Nat) (hv : A.val.length = A.col.length)
    (hj : j < A.col.length) :
    ∃ c v, A.col[j]? = some c ∧ A.val[j]? = some v ∧
      A.seg j (cnt + 1) = (c, v) :: A.seg (j + 1) cnt := by
  have hj2 : j < A.val.length := by omega
  have hz : j < (A.col.zip A.val).length := by simp [List.length_zip]; omega
  refine ⟨A.col[j], A.val[j], List.getElem?_eq_getElem hj, List.getElem?_eq_getElem hj2, ?_⟩
  unfold CSR.seg
  rw [List.drop_eq_getElem_cons hz]
  simp

theorem CSR.WellFormed.ptr_mono {A : CSR K} (h : A.WellFormed) :
    ∀ d i, i + d ≤ A.nrows → A.ptr.getD i 0 ≤ A.ptr.getD (i + d) 0 := by
  intro d
  induction d with
  | zero => intro i _; simp
  | succ d ih =>
    intro i hi
    have h1 := ih i (by omega)
    have h2 := h.2.2.2.2 (i + d) (by omega)
    have : i + (d + 1) = i + d + 1 := by omega
    rw [this]
    omega

theorem CSR.WellFormed.ptr_le {A : CSR K} (h : A.WellFormed) {i : Nat} (hi : i ≤ A.nrows) :
    A.ptr.getD i 0 ≤ A.col.length := by
  have := h.ptr_mono (A.nrows - i) i (by omega)
  have h2 : i + (A.nrows - i) = A.nrows := by omega
  rw [h2, h.2.2.2.1] at this
  exact this

theorem CSR.WellFormed.rd_ptr {A : CSR K} (h : A.WellFormed) {i : Nat} (hi : i ≤ A.nrows) :
    rd A.ptr i = .ok (A.ptr.getD i 0) :=
  rd_getD 0 (by rw [h.1]; omega)

theorem CSR.WellFormed.row_end {A : CSR K} (h : A.WellFormed) {i : Nat} (hi : i < A.nrows) :
    A.ptr.getD i 0 + (A.ptr.getD (i + 1) 0 - A.ptr.getD i 0) ≤ A.col.length := by
  have h1 := h.2.2.2.2 i hi
  have h2 := h.ptr_le (i := i + 1) (by omega)
  omega

end Segments

/-! ## The sparsity pre-pass -/

section Prepass

variable {K : Type} [Field K] [DecidableEq K]

theorem flatUpto_length_mono {α : Type} (f : Nat → List α) :
    ∀ d i, (flatUpto f i).length ≤ (flatUpto f (i + d)).length := by
  intro d
  induction d with
  | zero => intro i; simp
  | succ d ih =>
    intro i
    have := ih i
    have e : i + (d + 1) = (i + d) + 1 := by omega
    rw [e]
    simp only [flatUpto, List.length_append]
    omega

theorem flatUpto_succ_le {α : Type} (f : Nat → List α) {i n : Nat} (h : i < n) :
    (flatUpto f i).length + (f i).length ≤ (flatUpto f n).length := by
  have := flatUpto_length_mono f (n - (i + 1)) (i + 1)
  have e : i + 1 + (n - (i + 1)) = n := by omega
  rw [e] at this
  simpa [flatUpto] using this

theorem countRow_eq (A : CSR K) (i : Nat) (hv : A.val.length = A.col.length) :
    ∀ cnt j acc, j + cnt ≤ A.col.length →
      countRow A i j cnt acc =
        .ok (acc.1 + (lowerOf i ((A.seg j cnt).map Prod.fst)).length,
             acc.2 + (upperOf i ((A.seg j cnt).map Prod.fst)).length) := by
  intro cnt
  induction cnt with
  | zero => intro j acc _; simp [countRow, CSR.seg_zero, lowerOf, upperOf]
  | succ cnt ih =>
    intro j acc hj
    obtain ⟨c, v, hc, -, hseg⟩ := A.seg_succ j cnt hv (by omega)
    rw [countRow, rd_of_getElem? hc, ok_bind, hseg]
    by_cases h1 : c < i
    · rw [if_pos h1, ih (j + 1) _ (by omega)]
      simp [lowerOf, upperOf, h1, Nat.lt_asymm h1, List.filter_cons]
      omega
    · rw [if_neg h1]
      by_cases h2 : c > i
      · rw [if_pos h2, ih (j + 1) _ (by omega)]
        simp [lowerOf, upperOf, h1, List.filter_cons]
        have : i < c := h2
        simp [this]
        omega
      · rw [if_neg h2, ih (j + 1) _ (by omega)]
        have : ¬ i < c := h2
        simp [lowerOf, upperOf, h1, this, List.filter_cons]

theorem countRows_eq (A : CSR K) (h : A.WellFormed) :
    ∀ m i, i + m ≤ A.nrows →
      countRows A i m ((flatUpto (fun r => lowerOf r (A.cols r)) i).length,
                       (flatUpto (fun r => upperOf r (A.cols r)) i).length) =
        .ok ((flatUpto (fun r => lowerOf r (A.cols r)) (i + m)).length,
             (flatUpto (fun r => upperOf r (A.cols r)) (i + m)).length) := by
  intro m
  induction m with
  | zero => intro i _; simp [countRows]
  | succ m ih =>
    intro i hi
    rw [countRows, h.rd_ptr (by omega), ok_bind, h.rd_ptr (i := i + 1) (by omega), ok_bind,
      countRow_eq A i h.2.1 _ _ _ (h.row_end (by omega)), ok_bind]
    have e : i + (m + 1) = (i + 1) + m := by omega
    rw [e, ← ih (i + 1) (by omega)]
    simp [flatUpto, CSR.cols, CSR.row]

theorem prepass_eq (A : CSR K) (h : A.WellFormed) :
    countRows A 0 A.nrows (0, 0) = .ok (A.lowerCount, A.upperCount) := by
  have := countRows_eq A h A.nrows 0 (by omega)
  simpa [flatUpto, CSR.lowerCount, CSR.upperCount] using this

end Prepass

/-! ## The scatter pass -/

section Scatter

variable {K : Type} [Field K] [DecidableEq K]

theorem slotOf_cons_lower {i c : Nat} (L0 D0 U0 : Nat) {cs : List Nat} {x : Nat} (hc : c < i)
    (hx : x ∈ cs) (hne : x ≠ c) :
    slotOf i (L0 + 1) D0 U0 cs x = slotOf i L0 D0 U0 (c :: cs) x := by
  have h1 : lowerOf i (c :: cs) = c :: lowerOf i cs := by simp [lowerOf, hc]
  have h2 : upperOf i (c :: cs) = upperOf i cs := by simp [upperOf, Nat.lt_asymm hc]
  simp only [slotOf, hx, if_true, List.mem_cons, or_true, h1, h2,
    List.indexOf_cons_ne _ (Ne.symm hne)]
  split
  · congr 2; omega
  · rfl

theorem slotOf_cons_diag {i : Nat} (L0 D0 D1 U0 : Nat) {cs : List Nat} {x : Nat}
    (hx : x ∈ cs) (hne : x ≠ i) :
    slotOf i L0 D1 U0 cs x = slotOf i L0 D0 U0 (i :: cs) x := by
  have h1 : lowerOf i (i :: cs) = lowerOf i cs := by simp [lowerOf]
  have h2 : upperOf i (i :: cs) = upperOf i cs := by simp [upperOf]
  simp only [slotOf, hx, if_true, List.mem_cons, or_true, h1, h2, hne, if_false]

theorem slotOf_cons_upper {i c : Nat} (L0 D0 U0 : Nat) {cs : List Nat} {x : Nat} (hc : i < c)
    (hx : x ∈ cs) (hne : x ≠ c) :
    slotOf i L0 D0 (U0 + 1) cs x = slotOf i L0 D0 U0 (c :: cs) x := by
  have h1 : lowerOf i (c :: cs) = lowerOf i cs := by simp [lowerOf, Nat.lt_asymm hc]
  have h2 : upperOf i (c :: cs) = c :: upperOf i cs := by simp [upperOf, hc]
  simp only [slotOf, hx, if_true, List.mem_cons, or_true, h1, h2,
    List.indexOf_cons_ne _ (Ne.symm hne)]
  split
  · rfl
  · split
    · rfl
    · congr 2; omega

theorem slotOf_head (i L0 D0 U0 c : Nat) (cs : List Nat) :
    slotOf i L0 D0 U0 (c :: cs) c =
      if c < i then some (.inL L0) else if c = i then some (.inD D0) else some (.inU U0) := by
  simp only [slotOf, List.mem_cons, true_or, if_true]
  split
  · rename_i h; simp [lowerOf, h]
  · split
    · rfl
    · rename_i h1 h2
      have : i < c := by omega
      simp [upperOf, this]

/-- Effect of the scatter pass on a segment with pairwise distinct columns. -/
theorem scatter_spec (A : CSR K) (i : Nat) (hv : A.val.length = A.col.length) :
    ∀ cnt j (s : Build K), j + cnt ≤ A.col.length →
      ((A.seg j cnt).map Prod.fst).Nodup →
      (∀ c ∈ (A.seg j cnt).map Prod.fst, c < s.work.length) →
      s.Lcol.length + (lowerOf i ((A.seg j cnt).map Prod.fst)).length ≤ s.Lnz →
      s.Ucol.length + (upperOf i ((A.seg j cnt).map Prod.fst)).length ≤ s.Unz →
      ∃ w : List (Option Slot),
        scatter A i j cnt s = .ok
          { s with
            Lcol := s.Lcol ++ lowerOf i ((A.seg j cnt).map Prod.fst)
            Lval := s.Lval ++ ((A.seg j cnt).filter fun e => e.1 < i).map Prod.snd
            Ucol := s.Ucol ++ upperOf i ((A.seg j cnt).map Prod.fst)
            Uval := s.Uval ++ ((A.seg j cnt).filter fun e => i < e.1).map Prod.snd
            D := s.D ++ ((A.seg j cnt).filter fun e => e.1 = i).map Prod.snd
            work := w } ∧
        w.length = s.work.length ∧
        ∀ x < s.work.length, w[x]? =
          if x ∈ (A.seg j cnt).map Prod.fst then
            some (slotOf i s.Lcol.length s.D.length s.Ucol.length ((A.seg j cnt).map Prod.fst) x)
          else s.work[x]? := by
  intro cnt
  induction cnt with
  | zero =>
    intro j s _ _ _ _ _
    refine ⟨s.work, ?_, rfl, ?_⟩
    · simp [scatter, CSR.seg_zero, lowerOf, upperOf]
    · simp [CSR.seg_zero]
  | succ cnt ih =>
    intro j s hj hnd hin hL hU
    obtain ⟨c, v, hc, hv', hseg⟩ := A.seg_succ j cnt hv (by omega)
    rw [hseg] at hnd hin hL hU
    rw [hseg]
    simp only [List.map_cons, List.nodup_cons, List.mem_cons, forall_eq_or_imp] at hnd hin
    obtain ⟨hcn, hnd'⟩ := hnd
    obtain ⟨hcw, hin'⟩ := hin
    rw [scatter, rd_of_getElem? hc, ok_bind, rd_of_getElem? hv', ok_bind]
    by_cases h1 : c < i
    · have hl : lowerOf i (c :: (A.seg (j + 1) cnt).map Prod.fst)
          = c :: lowerOf i ((A.seg (j + 1) cnt).map Prod.fst) := by simp [lowerOf, h1]
      have hu : upperOf i (c :: (A.seg (j + 1) cnt).map Prod.fst)
          = upperOf i ((A.seg (j + 1) cnt).map Prod.fst) := by
        simp [upperOf, Nat.lt_asymm h1]
      simp only [List.map_cons, hl, hu, List.length_cons] at hL hU
      have hcap : s.Lcol.length < s.Lnz := by omega
      rw [if_pos h1, if_pos hcap, wr_of_lt _ hcw, ok_bind]
      obtain ⟨w, hw, hwl, hwx⟩ := ih (j + 1)
        { s with Lcol := s.Lcol ++ [c], Lval := s.Lval ++ [v],
                 work := s.work.set c (some (.inL s.Lcol.length)) }
        (by omega) hnd' (by simpa using hin') (by simp; omega) (by simpa using hU)
      refine ⟨w, ?_, by simpa using hwl, ?_⟩
      · rw [hw]
        have hne : ¬ c = i := by omega
        simp [List.filter_cons, h1, Nat.lt_asymm h1, hne, hl, hu]
      · intro x hx
        have := hwx x (by simpa using hx)
        rw [this]
        simp only [List.map_cons, List.mem_cons, List.length_append, List.length_singleton]
        by_cases hxr : x ∈ (A.seg (j + 1) cnt).map Prod.fst
        · have hxc : x ≠ c := fun e => hcn (e ▸ hxr)
          simp only [hxr, or_true, if_true]
          rw [slotOf_cons_lower _ _ _ h1 hxr hxc]
        · simp only [hxr, or_false, if_false, List.getElem?_set]
          by_cases hxc : x = c
          · subst hxc
            simp [hx, slotOf_head, h1]
          · simp [hxc, Ne.symm hxc]
    · rw [if_neg h1]
      by_cases h2 : c = i
      · subst h2
        have hl : lowerOf c (c :: (A.seg (j + 1) cnt).map Prod.fst)
            = lowerOf c ((A.seg (j + 1) cnt).map Prod.fst) := by simp [lowerOf]
        have hu : upperOf c (c :: (A.seg (j + 1) cnt).map Prod.fst)
            = upperOf c ((A.seg (j + 1) cnt).map Prod.fst) := by simp [upperOf]
        simp only [List.map_cons, hl, hu] at hL hU
        rw [if_pos rfl, wr_of_lt _ hcw, ok_bind]
        obtain ⟨w, hw, hwl, hwx⟩ := ih (j + 1)
          { s with D := s.D ++ [v], work := s.work.set c (some (.inD s.D.length)) }
          (by omega) hnd' (by simpa using hin') (by simpa using hL) (by simpa using hU)
        have hnodiag : (A.seg (j + 1) cnt).filter (fun e => e.1 = c) = [] := by
          rw [List.filter_eq_nil_iff]
          intro e he hec
          apply hcn
          simp only [decide_eq_true_eq] at hec
          exact List.mem_map.2 ⟨e, he, hec⟩
        refine ⟨w, ?_, by simpa using hwl, ?_⟩
        · rw [hw]
          simp [List.filter_cons, hl, hu, hnodiag]
        · intro x hx
          have := hwx x (by simpa using hx)
          rw [this]
          simp only [List.map_cons, List.mem_cons]
          by_cases hxr : x ∈ (A.seg (j + 1) cnt).map Prod.fst
          · have hxc : x ≠ c := fun e => hcn (e ▸ hxr)
            simp only [hxr, or_true, if_true]
            rw [slotOf_cons_diag _ s.D.length _ _ hxr hxc]
          · simp only [hxr, or_false, if_false, List.getElem?_set]
            by_cases hxc : x = c
            · subst hxc
              simp [hx, slotOf_head]
            · simp [hxc, Ne.symm hxc]
      · have h3 : i < c := by omega
        have hl : lowerOf i (c :: (A.seg (j + 1) cnt).map Prod.fst)
            = lowerOf i ((A.seg (j + 1) cnt).map Prod.fst) := by simp [lowerOf, h1]
        have hu : upperOf i (c :: (A.seg (j + 1) cnt).map Prod.fst)
            = c :: upperOf i ((A.seg (j + 1) cnt).map Prod.fst) := by simp [upperOf, h3]
        simp only [List.map_cons, hl, hu, List.length_cons] at hL hU
        have hcap : s.Ucol.length < s.Unz := by omega
        rw [if_neg h2, if_pos hcap, wr_of_lt _ hcw, ok_bind]
        obtain ⟨w, hw, hwl, hwx⟩ := ih (j + 1)
          { s with Ucol := s.Ucol ++ [c], Uval := s.Uval ++ [v],
                   work := s.work.set c (some (.inU s.Ucol.length)) }
          (by omega) hnd' (by simpa using hin') (by simpa using hL) (by simp; omega)
        refine ⟨w, ?_, by simpa using hwl, ?_⟩
        · rw [hw]
          simp [List.filter_cons, h1, h2, h3, hl, hu]
        · intro x hx
          have := hwx x (by simpa using hx)
          rw [this]
          simp only [List.map_cons, List.mem_cons, List.length_append, List.length_singleton]
          by_cases hxr : x ∈ (A.seg (j + 1) cnt).map Prod.fst
          · have hxc : x ≠ c := fun e => hcn (e ▸ hxr)
            simp only [hxr, or_true, if_true]
            rw [slotOf_cons_upper _ _ _ h3 hxr hxc]
          · simp only [hxr, or_false, if_false, List.getElem?_set]
            by_cases hxc : x = c
            · subst hxc
              simp [hx, slotOf_head, h1, h2]
            · simp [hxc, Ne.symm hxc]

end Scatter

/-! ## Reading and writing through the work table -/

section WorkTable

variable {K : Type}

theorem map_update_of_not_mem {l : List Nat} {x : Nat} (f : Nat → K) (y : K) (h : x ∉ l) :
    l.map (Function.update f x y) = l.map f := by
  apply List.map_congr_left
  intro a ha
  have : a ≠ x := fun e => h (e ▸ ha)
  simp [Function.update, this]

theorem set_indexOf_map_update {l : List Nat} {x : Nat} (f : Nat → K) (y : K) (hnd : l.Nodup)
    (hx : x ∈ l) :
    (l.map f).set (l.indexOf x) y = l.map (Function.update f x y) := by
  induction l with
  | nil => simp at hx
  | cons a l ih =>
    simp only [List.nodup_cons] at hnd
    by_cases hax : a = x
    · subst hax
      simp [List.indexOf_cons_self, map_update_of_not_mem f y hnd.1]
    · have hx' : x ∈ l := by
        rcases List.mem_cons.1 hx with h | h
        · exact absurd h.symm hax
        · exact h
      rw [List.indexOf_cons_ne _ hax]
      simp [ih hnd.2 hx', Function.update, hax]

theorem getElem?_indexOf_map {l : List Nat} {x : Nat} (f : Nat → K) (hx : x ∈ l) :
    (l.map f)[l.indexOf x]? = some (f x) := by
  induction l with
  | nil => simp at hx
  | cons a l ih =>
    by_cases hax : a = x
    · subst hax
      simp [List.indexOf_cons_self]
    · have hx' : x ∈ l := by
        rcases List.mem_cons.1 hx with h | h
        · exact absurd h.symm hax
        · exact h
      rw [List.indexOf_cons_ne _ hax]
      simpa using ih hx'

theorem mem_lowerOf {i x : Nat} {cs : List Nat} : x ∈ lowerOf i cs ↔ x ∈ cs ∧ x < i := by
  simp [lowerOf]

theorem mem_upperOf {i x : Nat} {cs : List Nat} : x ∈ upperOf i cs ↔ x ∈ cs ∧ i < x := by
  simp [upperOf]

theorem nodup_lowerOf {i : Nat} {cs : List Nat} (h : cs.Nodup) : (lowerOf i cs).Nodup :=
  h.filter _

theorem nodup_upperOf {i : Nat} {cs : List Nat} (h : cs.Nodup) : (upperOf i cs).Nodup :=
  h.filter _

/-- A column outside the row has a `NULL` work entry. -/
theorem rowSt_work_absent {s0 s : Build K} {i : Nat} {cs : List Nat} {cur : Nat → K}
    (h : RowSt s0 i cs cur s) {x : Nat} (hx : x ∉ cs) (hlt : x < s0.work.length) :
    rd s.work x = .ok none := by
  apply rd_of_getElem?
  rw [h.work x (by rw [h.work_length]; exact hlt)]
  simp [slotOf, hx]

/-- A column of the row has a work entry through which its current value is
read, and a write through it updates that value and nothing else. -/
theorem rowSt_work_present {s0 s : Build K} {i : Nat} {cs : List Nat} {cur : Nat → K}
    (h : RowSt s0 i cs cur s) (hL : s0.Lval.length = s0.Lcol.length)
    (hU : s0.Uval.length = s0.Ucol.length) (hnd : cs.Nodup)
    {x : Nat} (hx : x ∈ cs) (hlt : x < s0.work.length) :
    ∃ p, rd s.work x = .ok (some p) ∧ s.load p = .ok (cur x) ∧
      ∀ y, ∃ s1, s.store p y = .ok s1 ∧ RowSt s0 i cs (Function.update cur x y) s1 := by
  have hw := h.work x (by rw [h.work_length]; exact hlt)
  by_cases h1 : x < i
  · have hxl : x ∈ lowerOf i cs := mem_lowerOf.2 ⟨hx, h1⟩
    have hxu : x ∉ upperOf i cs := fun e => by have := (mem_upperOf.1 e).2; omega
    have hidx : (lowerOf i cs).indexOf x < (lowerOf i cs).length := List.indexOf_lt_length.2 hxl
    refine ⟨.inL (s0.Lcol.length + (lowerOf i cs).indexOf x), ?_, ?_, ?_⟩
    · apply rd_of_getElem?
      rw [hw]; simp [slotOf, hx, h1]
    · simp only [Build.load]
      apply rd_of_getElem?
      rw [h.Lval, List.getElem?_append_right (by omega), hL, Nat.add_sub_cancel_left]
      exact getElem?_indexOf_map cur hxl
    · intro y
      refine ⟨{ s with Lval := s.Lval.set (s0.Lcol.length + (lowerOf i cs).indexOf x) y }, ?_, ?_⟩
      · simp only [Build.store]
        rw [wr_of_lt]
        · rfl
        · rw [h.Lval]; simp; omega
      · refine ⟨h.Lnz, h.Unz, h.Lcol, ?_, h.Lptr, h.Ucol, ?_, h.Uptr, ?_, h.work_length, h.work⟩
        · show s.Lval.set _ y = _
          rw [h.Lval, List.set_append_right _ _ (by omega), hL, Nat.add_sub_cancel_left,
            set_indexOf_map_update cur y (nodup_lowerOf hnd) hxl]
        · show s.Uval = _
          rw [h.Uval, map_update_of_not_mem cur y hxu]
        · show s.D = _
          rw [h.D]
          have : x ≠ i := by omega
          simp [Function.update, Ne.symm this]
  · by_cases h2 : x = i
    · subst h2
      have hxl : x ∉ lowerOf x cs := fun e => by have := (mem_lowerOf.1 e).2; omega
      have hxu : x ∉ upperOf x cs := fun e => by have := (mem_upperOf.1 e).2; omega
      refine ⟨.inD s0.D.length, ?_, ?_, ?_⟩
      · apply rd_of_getElem?
        rw [hw]; simp [slotOf, hx]
      · simp only [Build.load]
        apply rd_of_getElem?
        rw [h.D]; simp
      · intro y
        refine ⟨{ s with D := s.D.set s0.D.length y }, ?_, ?_⟩
        · simp only [Build.store]
          rw [wr_of_lt]
          · rfl
          · rw [h.D]; simp
        · refine ⟨h.Lnz, h.Unz, h.Lcol, ?_, h.Lptr, h.Ucol, ?_, h.Uptr, ?_, h.work_length,
            h.work⟩
          · show s.Lval = _
            rw [h.Lval, map_update_of_not_mem cur y hxl]
          · show s.Uval = _
            rw [h.Uval, map_update_of_not_mem cur y hxu]
          · show s.D.set _ y = _
            rw [h.D]; simp
    · have h3 : i < x := by omega
      have hxu : x ∈ upperOf i cs := mem_upperOf.2 ⟨hx, h3⟩
      have hxl : x ∉ lowerOf i cs := fun e => by have := (mem_lowerOf.1 e).2; omega
      have hidx : (upperOf i cs).indexOf x < (upperOf i cs).length := List.indexOf_lt_length.2 hxu
      refine ⟨.inU (s0.Ucol.length + (upperOf i cs).indexOf x), ?_, ?_, ?_⟩
      · apply rd_of_getElem?
        rw [hw]; simp [slotOf, hx, h1, h2]
      · simp only [Build.load]
        apply rd_of_getElem?
        rw [h.Uval, List.getElem?_append_right (by omega), hU, Nat.add_sub_cancel_left]
        exact getElem?_indexOf_map cur hxu
      · intro y
        refine ⟨{ s with Uval := s.Uval.set (s0.Ucol.length + (upperOf i cs).indexOf x) y },
          ?_, ?_⟩
        · simp only [Build.store]
          rw [wr_of_lt]
          · rfl
          · rw [h.Uval]; simp; omega
        · refine ⟨h.Lnz, h.Unz, h.Lcol, ?_, h.Lptr, h.Ucol, ?_, h.Uptr, ?_, h.work_length,
            h.work⟩
          · show s.Lval = _
            rw [h.Lval, map_update_of_not_mem cur y hxl]
          · show s.Uval.set _ y = _
            rw [h.Uval, List.set_append_right _ _ (by omega), hU, Nat.add_sub_cancel_left,
              set_indexOf_map_update cur y (nodup_upperOf hnd) hxu]
          · show s.D = _
            rw [h.D]
            simp [Function.update, h2, Ne.symm h2]

end WorkTable

/-! ## The linear combination -/

section Combine

variable {K : Type} [Field K] [DecidableEq K]

theorem valOf_nil (x : Nat) : valOf ([] : List (Nat × K)) x = 0 := by
  simp [valOf]

theorem valOf_cons (c : Nat) (v : K) (row : List (Nat × K)) (x : Nat) :
    valOf ((c, v) :: row) x = (if c = x then v else 0) + valOf row x := by
  unfold valOf
  by_cases h : c = x <;> simp [List.filter_cons, h]

theorem valOf_of_not_mem {row : List (Nat × K)} {x : Nat} (h : x ∉ row.map Prod.fst) :
    valOf row x = 0 := by
  unfold valOf
  have : row.filter (fun e => e.1 = x) = [] := by
    rw [List.filter_eq_nil_iff]
    intro e he hex
    simp only [decide_eq_true_eq] at hex
    exact h (List.mem_map.2 ⟨e, he, hex⟩)
  simp [this]

theorem rowSt_congr {s0 s : Build K} {i : Nat} {cs : List Nat} {cur cur2 : Nat → K}
    (h : RowSt s0 i cs cur s) (hi : i ∈ cs) (heq : ∀ x ∈ cs, cur2 x = cur x) :
    RowSt s0 i cs cur2 s := by
  have e1 : (lowerOf i cs).map cur2 = (lowerOf i cs).map cur :=
    List.map_congr_left fun x hx => heq x (mem_lowerOf.1 hx).1
  have e2 : (upperOf i cs).map cur2 = (upperOf i cs).map cur :=
    List.map_congr_left fun x hx => heq x (mem_upperOf.1 hx).1
  exact ⟨h.Lnz, h.Unz, h.Lcol, by rw [e1]; exact h.Lval, h.Lptr, h.Ucol, by rw [e2]; exact h.Uval,
    h.Uptr, by rw [heq i hi]; exact h.D, h.work_length, h.work⟩

/-- The linear combination subtracts `tl` times the traversed part of a `U`
row from the columns present in the scattered row. -/
theorem combine_spec {s0 : Build K} {i : Nat} {cs : List Nat}
    (hL : s0.Lval.length = s0.Lcol.length) (hU : s0.Uval.length = s0.Ucol.length)
    (hnd : cs.Nodup) (hi : i ∈ cs) (tl : K) :
    ∀ cnt k (cur : Nat → K) (s : Build K), RowSt s0 i cs cur s →
      k + cnt ≤ s0.Ucol.length →
      (∀ e ∈ s0.Umat.seg k cnt, e.1 < s0.work.length) →
      ∃ s1, combine tl k cnt s = .ok s1 ∧
        RowSt s0 i cs (fun x => cur x - tl * valOf (s0.Umat.seg k cnt) x) s1 := by
  intro cnt
  induction cnt with
  | zero =>
    intro k cur s h _ _
    exact ⟨s, rfl, rowSt_congr h hi (by simp [CSR.seg_zero, valOf_nil])⟩
  | succ cnt ih =>
    intro k cur s h hk hin
    obtain ⟨uc, u, huc, hu, hseg⟩ := s0.Umat.seg_succ k cnt hU (show k < s0.Ucol.length by omega)
    rw [hseg] at hin
    have huc_lt : uc < s0.work.length := hin (uc, u) (List.mem_cons_self _ _)
    have hin' : ∀ e ∈ s0.Umat.seg (k + 1) cnt, e.1 < s0.work.length :=
      fun e he => hin e (List.mem_cons_of_mem _ he)
    have h1 : rd s.Ucol k = .ok uc := by
      rw [h.Ucol, rd_append_left (by omega)]
      exact rd_of_getElem? huc
    have h2 : rd s.Uval k = .ok u := by
      rw [h.Uval, rd_append_left (by omega)]
      exact rd_of_getElem? hu
    rw [combine, h1, ok_bind, hseg]
    by_cases hmem : uc ∈ cs
    · obtain ⟨p, hp, hload, hstore⟩ := rowSt_work_present h hL hU hnd hmem huc_lt
      obtain ⟨s1, hs1, hR1⟩ := hstore (cur uc - tl * u)
      rw [hp, ok_bind]
      simp only []
      rw [hload, ok_bind, h2, ok_bind, hs1, ok_bind]
      obtain ⟨s2, hs2, hR2⟩ := ih (k + 1) _ s1 hR1 (by omega) hin'
      refine ⟨s2, hs2, rowSt_congr hR2 hi ?_⟩
      intro x _
      rw [valOf_cons]
      by_cases hx : uc = x
      · subst hx; simp [Function.update]; ring
      · simp [Function.update, hx, Ne.symm hx]
    · rw [rowSt_work_absent h hmem huc_lt, ok_bind]
      simp only []
      obtain ⟨s2, hs2, hR2⟩ := ih (k + 1) cur s h (by omega) hin'
      refine ⟨s2, hs2, rowSt_congr hR2 hi ?_⟩
      intro x hx
      rw [valOf_cons]
      have : uc ≠ x := fun e => hmem (e ▸ hx)
      simp [this]

/-- One elimination step for a column `c < i` of the row: the multiplier
replaces the value at `c`, and the multiple of row `c` of `U` is subtracted. -/
theorem elimEntry_spec {s0 s : Build K} {i : Nat} {cs : List Nat} {cur : Nat → K}
    (hL : s0.Lval.length = s0.Lcol.length) (hU : s0.Uval.length = s0.Ucol.length)
    (hnd : cs.Nodup) (hi : i ∈ cs) (h : RowSt s0 i cs cur s)
    {c : Nat} (hc : c ∈ cs) (hcw : c < s0.work.length)
    {dc : K} (hD : s0.D[c]? = some dc)
    (hp : c + 1 < s0.Uptr.length)
    (hle : s0.Uptr.getD c 0 + (s0.Uptr.getD (c + 1) 0 - s0.Uptr.getD c 0) ≤ s0.Ucol.length)
    (hin : ∀ e ∈ s0.Umat.row c, e.1 < s0.work.length) :
    ∃ s1, elimEntry c s = .ok s1 ∧
      RowSt s0 i cs (fun x => Function.update cur c (cur c * dc) x
        - cur c * dc * valOf (s0.Umat.row c) x) s1 := by
  obtain ⟨p, hpw, hload, hstore⟩ := rowSt_work_present h hL hU hnd hc hcw
  obtain ⟨s1, hs1, hR1⟩ := hstore (cur c * dc)
  have hd : rd s.D c = .ok dc := by
    rw [h.D, rd_append_left ((List.getElem?_eq_some.1 hD).1)]
    exact rd_of_getElem? hD
  have hk0 : rd s1.Uptr c = .ok (s0.Uptr.getD c 0) := by
    rw [hR1.Uptr, rd_append_left (by omega)]
    exact rd_getD 0 (by omega)
  have hk1 : rd s1.Uptr (c + 1) = .ok (s0.Uptr.getD (c + 1) 0) := by
    rw [hR1.Uptr, rd_append_left (by omega)]
    exact rd_getD 0 (by omega)
  unfold elimEntry
  rw [hpw, ok_bind]
  simp only []
  rw [hload, ok_bind, hd, ok_bind, hs1, ok_bind, hk0, ok_bind, hk1, ok_bind]
  exact combine_spec hL hU hnd hi (cur c * dc) _ _ _ s1 hR1 hle hin

end Combine

/-! ## The elimination pass -/

section Eliminate

variable {K : Type} [Field K] [DecidableEq K]

theorem elimInv_init (a d : Nat → K) (uent : Nat → Nat → K) (cs : List Nat) :
    ElimInv a d uent cs [] a := by
  refine ⟨?_, fun h => h⟩
  intro x _
  simp [partialSum]

theorem elimInv_step {a d : Nat → K} {uent : Nat → Nat → K} {cs pre : List Nat}
    {cur : Nat → K} {c : Nat} (hinv : ElimInv a d uent cs pre cur)
    (hpre : ∀ p ∈ pre, p < c) (hup : ∀ x, x ≤ c → uent c x = 0) (hc : c ∈ cs) :
    ElimInv a d uent cs (pre ++ [c])
      (fun x => Function.update cur c (cur c * d c) x - cur c * d c * uent c x) := by
  have hcpre : c ∉ pre := fun h => Nat.lt_irrefl _ (hpre c h)
  have hsum : ∀ x, partialSum uent (pre ++ [c])
      (fun x => Function.update cur c (cur c * d c) x - cur c * d c * uent c x) x
      = partialSum uent pre cur x + cur c * d c * uent c x := by
    intro x
    simp only [partialSum, List.map_append, List.sum_append, List.map_cons, List.map_nil,
      List.sum_cons, List.sum_nil, add_zero, Function.update_same, hup c (Nat.le_refl c),
      mul_zero, sub_zero]
    congr 1
    apply congrArg
    apply List.map_congr_left
    intro p hp
    have hpc : p ≠ c := fun e => hcpre (e ▸ hp)
    simp [Function.update, hpc, hup p (Nat.le_of_lt (hpre p hp))]
  refine ⟨?_, ?_⟩
  · intro x hx
    rw [hsum x]
    have hcur := hinv.1 x hx
    by_cases hxp : x ∈ pre
    · have hxc : x ≠ c := fun e => hcpre (e ▸ hxp)
      have hu0 : uent c x = 0 := hup x (Nat.le_of_lt (hpre x hxp))
      simp only [List.mem_append, hxp, true_or, if_true, Function.update, hxc, hu0, mul_zero,
        sub_zero, add_zero, dite_false]
      rw [hcur, if_pos hxp]
    · by_cases hxc : x = c
      · subst hxc
        have hu0 : uent x x = 0 := hup x (Nat.le_refl x)
        simp only [List.mem_append, List.mem_singleton, or_true, if_true, Function.update_same,
          hu0, mul_zero, sub_zero, add_zero]
        rw [hcur, if_neg hxp]
      · simp only [List.mem_append, hxp, List.mem_singleton, hxc, or_self, if_false,
          Function.update, dite_false]
        rw [hcur, if_neg hxp]
        ring
  · intro ha x hx
    have h0 := hinv.2 ha
    by_cases hxc : x = c
    · subst hxc; simp [h0 x hx]
    · simp [Function.update, hxc, h0 x hx, h0 c hc]

theorem eliminate_eq_untilDiag (A : CSR K) (i : Nat) :
    ∀ cnt j (s : Build K), eliminate A i j cnt s =
      elimUntilDiag A i j cnt s >>= fun r =>
        match r.2 with
        | none => .ok r.1
        | some c => diagBlock i c r.1 := by
  intro cnt
  induction cnt with
  | zero => intro j s; rfl
  | succ cnt ih =>
    intro j s
    rw [eliminate, elimUntilDiag]
    cases h : rd A.col j with
    | error e => rfl
    | ok c =>
      simp only [ok_bind]
      by_cases hc : c ≥ i
      · simp only [if_pos hc, ok_bind]
      · simp only [if_neg hc]
        cases h2 : elimEntry c s with
        | error e => rfl
        | ok s1 =>
          simp only [ok_bind]
          exact ih (j + 1) s1

/-- The elimination pass on an ascending row with a diagonal entry reaches
the diagonal block with all columns below the diagonal eliminated. -/
theorem elimUntilDiag_spec (A : CSR K) (i : Nat) (hv : A.val.length = A.col.length)
    {s0 : Build K} {a d : Nat → K} {uent : Nat → Nat → K} {cs : List Nat}
    (hB : Before s0 i d uent) (hasc : cs.Pairwise (· < ·)) (hi : i ∈ cs)
    (hin : ∀ c ∈ cs, c < s0.work.length) :
    ∀ cnt j (pre : List Nat) (cur : Nat → K) (s : Build K), j + cnt ≤ A.col.length →
      pre ++ (A.seg j cnt).map Prod.fst = cs → (∀ p ∈ pre, p < i) →
      RowSt s0 i cs cur s → ElimInv a d uent cs pre cur →
      ∃ s1 cur1, elimUntilDiag A i j cnt s = .ok (s1, some i) ∧ RowSt s0 i cs cur1 s1 ∧
        ElimInv a d uent cs (lowerOf i cs) cur1 := by
  have hnd : cs.Nodup := hasc.imp (fun h => Nat.ne_of_lt h)
  intro cnt
  induction cnt with
  | zero =>
    intro j pre cur s _ hcs hpre _ _
    exfalso
    rw [CSR.seg_zero, List.map_nil, List.append_nil] at hcs
    subst hcs
    exact Nat.lt_irrefl _ (hpre i hi)
  | succ cnt ih =>
    intro j pre cur s hj hcs hpre hR hinv
    obtain ⟨c, v, hc, -, hseg⟩ := A.seg_succ j cnt hv (by omega)
    rw [hseg, List.map_cons] at hcs
    have hasc' : (pre ++ c :: (A.seg (j + 1) cnt).map Prod.fst).Pairwise (· < ·) := by
      rw [hcs]; exact hasc
    rw [List.pairwise_append] at hasc'
    obtain ⟨-, hrest, hcross⟩ := hasc'
    rw [List.pairwise_cons] at hrest
    have hcmem : c ∈ cs := by rw [← hcs]; simp
    rw [elimUntilDiag, rd_of_getElem? hc, ok_bind]
    by_cases hci : c ≥ i
    · have hceq : c = i := by
        have : i ∈ pre ++ c :: (A.seg (j + 1) cnt).map Prod.fst := by rw [hcs]; exact hi
        rcases List.mem_append.1 this with h | h
        · exact absurd (hpre i h) (Nat.lt_irrefl _)
        · rcases List.mem_cons.1 h with h | h
          · exact h.symm
          · have := hrest.1 i h; omega
      subst hceq
      rw [if_pos hci]
      refine ⟨s, cur, rfl, hR, ?_⟩
      have hlow : lowerOf c cs = pre := by
        rw [← hcs]
        unfold lowerOf
        rw [List.filter_append, List.filter_cons]
        have h1 : pre.filter (fun x => decide (x < c)) = pre :=
          List.filter_eq_self.2 fun x hx => by simpa using hpre x hx
        have h2 : ((A.seg (j + 1) cnt).map Prod.fst).filter (fun x => decide (x < c)) = [] := by
          rw [List.filter_eq_nil_iff]
          intro x hx
          have := hrest.1 x hx
          simp; omega
        simp [h1, h2]
      rw [hlow]
      exact hinv
    · have hci' : c < i := by omega
      rw [if_neg hci]
      obtain ⟨s1, hs1, hR1⟩ := elimEntry_spec hB.Lval_length hB.Uval_length hnd hi hR hcmem
        (hin c hcmem) (hB.D_get c hci') (by rw [hB.Uptr_length]; omega) (hB.Urow_le c hci')
        (hB.Urow_in c hci')
      rw [hs1, ok_bind]
      have hfun : (fun x => Function.update cur c (cur c * d c) x
            - cur c * d c * valOf (s0.Umat.row c) x)
          = (fun x => Function.update cur c (cur c * d c) x - cur c * d c * uent c x) := by
        funext x; rw [hB.Urow_val c hci']
      rw [hfun] at hR1
      have hprec : ∀ p ∈ pre, p < c := fun p hp => hcross p hp c (List.mem_cons_self _ _)
      have hinv1 := elimInv_step hinv hprec (hB.Urow_upper c hci') hcmem
      exact ih (j + 1) (pre ++ [c]) _ s1 (by omega) (by rw [← hcs]; simp)
        (by
          intro p hp
          rcases List.mem_append.1 hp with h | h
          · exact hpre p h
          · rw [List.mem_singleton.1 h]; exact hci')
        hR1 hinv1

end Eliminate

/-! ## Clearing the work table -/

section Clear

variable {K : Type} [Field K] [DecidableEq K]

theorem clear_spec (A : CSR K) (hv : A.val.length = A.col.length) :
    ∀ cnt j (s : Build K), j + cnt ≤ A.col.length →
      (∀ c ∈ (A.seg j cnt).map Prod.fst, c < s.work.length) →
      ∃ w : List (Option Slot), clear A j cnt s = .ok { s with work := w } ∧
        w.length = s.work.length ∧
        ∀ x < s.work.length, w[x]? =
          if x ∈ (A.seg j cnt).map Prod.fst then some none else s.work[x]? := by
  intro cnt
  induction cnt with
  | zero =>
    intro j s _ _
    exact ⟨s.work, rfl, rfl, by simp [CSR.seg_zero]⟩
  | succ cnt ih =>
    intro j s hj hin
    obtain ⟨c, v, hc, -, hseg⟩ := A.seg_succ j cnt hv (by omega)
    rw [hseg] at hin ⊢
    simp only [List.map_cons, List.mem_cons, forall_eq_or_imp] at hin
    rw [clear, rd_of_getElem? hc, ok_bind, wr_of_lt _ hin.1, ok_bind]
    obtain ⟨w, hw, hwl, hwx⟩ := ih (j + 1) { s with work := s.work.set c none } (by omega)
      (by simpa using hin.2)
    refine ⟨w, by rw [hw], by simpa using hwl, ?_⟩
    intro x hx
    rw [hwx x (by simpa using hx)]
    simp only [List.map_cons, List.mem_cons]
    by_cases hxr : x ∈ (A.seg (j + 1) cnt).map Prod.fst
    · simp [hxr]
    · by_cases hxc : x = c
      · subst hxc; simp [hxr, hx]
      · simp [hxr, hxc, Ne.symm hxc]

theorem eq_replicate_none {w : List (Option Slot)} {n : Nat} (hl : w.length = n)
    (h : ∀ x < n, w[x]? = some none) : w = List.replicate n none := by
  apply List.ext_getElem?
  intro x
  by_cases hx : x < n
  · rw [h x hx]; simp [hx]
  · rw [List.getElem?_eq_none (by omega), List.getElem?_eq_none (by simp; omega)]

end Clear

/-! ## Layout lemmas -/

section LayoutLemmas

variable {α β : Type}

theorem ptrUpto_length (f : Nat → List α) (i : Nat) : (ptrUpto f i).length = i + 1 := by
  induction i with
  | zero => rfl
  | succ i ih => simp [ptrUpto, ih]

theorem ptrUpto_getElem? (f : Nat → List α) :
    ∀ i r, r ≤ i → (ptrUpto f i)[r]? = some (flatUpto f r).length := by
  intro i
  induction i with
  | zero => intro r hr; have : r = 0 := by omega
            subst this; rfl
  | succ i ih =>
    intro r hr
    by_cases h : r ≤ i
    · rw [ptrUpto, List.getElem?_append_left (by rw [ptrUpto_length]; omega)]
      exact ih r h
    · have : r = i + 1 := by omega
      subst this
      rw [ptrUpto, List.getElem?_append_right (by rw [ptrUpto_length])]
      simp [ptrUpto_length]

theorem ptrUpto_getD (f : Nat → List α) {i r : Nat} (h : r ≤ i) :
    (ptrUpto f i).getD r 0 = (flatUpto f r).length := by
  simp [List.getD, ptrUpto_getElem? f i r h]

theorem flatUpto_split (f : Nat → List α) :
    ∀ d r, ∃ t, flatUpto f (r + 1 + d) = flatUpto f r ++ f r ++ t := by
  intro d
  induction d with
  | zero => intro r; exact ⟨[], by simp [flatUpto]⟩
  | succ d ih =>
    intro r
    obtain ⟨t, ht⟩ := ih r
    refine ⟨t ++ f (r + 1 + d), ?_⟩
    have : r + 1 + (d + 1) = (r + 1 + d) + 1 := by omega
    rw [this, flatUpto, ht]
    simp

theorem flatUpto_zip (f : Nat → List α) (g : Nat → List β)
    (h : ∀ r, (f r).length = (g r).length) :
    ∀ i, (flatUpto f i).zip (flatUpto g i) = flatUpto (fun r => (f r).zip (g r)) i ∧
      (flatUpto f i).length = (flatUpto g i).length := by
  intro i
  induction i with
  | zero => simp [flatUpto]
  | succ i ih =>
    simp only [flatUpto]
    rw [List.zip_append ih.2, ih.1]
    simp [ih.2, h i]

theorem flatUpto_congr {f g : Nat → List α} :
    ∀ i, (∀ r < i, f r = g r) → flatUpto f i = flatUpto g i := by
  intro i
  induction i with
  | zero => intro _; rfl
  | succ i ih =>
    intro h
    rw [flatUpto, flatUpto, ih (fun r hr => h r (by omega)), h i (by omega)]

/-- Row `r` of a CSR structure laid out by `flatUpto` / `ptrUpto` is the
`r`-th list. -/
theorem row_of_flat {K : Type} (M : CSR K) (f : Nat → List Nat) (g : Nat → List K)
    (hfg : ∀ r, (f r).length = (g r).length) {i r : Nat} (hr : r < i)
    (hp : M.ptr = ptrUpto f i) (hc : M.col = flatUpto f i) (hvl : M.val = flatUpto g i) :
    M.row r = (f r).zip (g r) := by
  unfold CSR.row CSR.seg
  rw [hp, hc, hvl, ptrUpto_getD f (Nat.le_of_lt hr), ptrUpto_getD f (show r + 1 ≤ i by omega),
    (flatUpto_zip f g hfg i).1]
  obtain ⟨t, ht⟩ := flatUpto_split (fun r => (f r).zip (g r)) (i - (r + 1)) r
  have e : r + 1 + (i - (r + 1)) = i := by omega
  rw [e] at ht
  rw [ht]
  have hlen : (flatUpto (fun r => (f r).zip (g r)) r).length = (flatUpto f r).length := by
    rw [← (flatUpto_zip f g hfg r).1, List.length_zip, ← (flatUpto_zip f g hfg r).2]
    simp
  have hlen2 : (flatUpto f (r + 1)).length - (flatUpto f r).length = ((f r).zip (g r)).length := by
    simp [flatUpto, List.length_zip, ← hfg r]
  rw [hlen2, List.append_assoc, ← hlen, List.drop_left, List.take_left]

end LayoutLemmas

/-! ## Values of a row with distinct columns -/

section RowValues

variable {K : Type} [Field K] [DecidableEq K]

theorem valOf_zip_map {l : List Nat} (f : Nat → K) (hnd : l.Nodup) (x : Nat) :
    valOf (l.zip (l.map f)) x = if x ∈ l then f x else 0 := by
  induction l with
  | nil => simp [valOf_nil]
  | cons a l ih =>
    simp only [List.nodup_cons] at hnd
    rw [List.map_cons, List.zip_cons_cons, valOf_cons, ih hnd.2]
    by_cases hax : a = x
    · subst hax
      simp [hnd.1]
    · simp [hax, Ne.symm hax]

theorem valOf_of_mem {row : List (Nat × K)} (hnd : (row.map Prod.fst).Nodup) {c : Nat} {v : K}
    (h : (c, v) ∈ row) : valOf row c = v := by
  induction row with
  | nil => simp at h
  | cons e row ih =>
    obtain ⟨c1, v1⟩ := e
    simp only [List.map_cons, List.nodup_cons] at hnd
    rw [valOf_cons]
    rcases List.mem_cons.1 h with h | h
    · have h1 : c = c1 := congrArg Prod.fst h
      have h2 : v = v1 := congrArg Prod.snd h
      subst h1; subst h2
      simp [valOf_of_not_mem hnd.1]
    · have hc : c ∈ row.map Prod.fst := List.mem_map.2 ⟨(c, v), h, rfl⟩
      have : c1 ≠ c := fun e => hnd.1 (e ▸ hc)
      simp [this, ih hnd.2 h]

theorem filter_map_snd (p : Nat → Bool) {row : List (Nat × K)}
    (hnd : (row.map Prod.fst).Nodup) :
    (row.filter fun e => p e.1).map Prod.snd = ((row.map Prod.fst).filter p).map (valOf row) := by
  have key : ∀ sub : List (Nat × K), (∀ e ∈ sub, e ∈ row) →
      (sub.filter fun e => p e.1).map Prod.snd
        = ((sub.map Prod.fst).filter p).map (valOf row) := by
    intro sub
    induction sub with
    | nil => intro _; rfl
    | cons e sub ih =>
      intro hsub
      obtain ⟨c, v⟩ := e
      have hv : valOf row c = v := valOf_of_mem hnd (hsub (c, v) (List.mem_cons_self _ _))
      have ih' := ih fun e he => hsub e (List.mem_cons_of_mem _ he)
      by_cases hp : p c
      · simp [List.filter_cons, hp, ih', hv]
      · simp [List.filter_cons, hp, ih']
  exact key row fun e he => he

theorem filter_eq_singleton {l : List Nat} (hnd : l.Nodup) {i : Nat} (hi : i ∈ l) :
    l.filter (fun x => decide (x = i)) = [i] := by
  induction l with
  | nil => simp at hi
  | cons a l ih =>
    simp only [List.nodup_cons] at hnd
    by_cases hai : a = i
    · subst hai
      have : l.filter (fun x => decide (x = a)) = [] := by
        rw [List.filter_eq_nil_iff]
        intro x hx
        have : x ≠ a := fun e => hnd.1 (e ▸ hx)
        simpa using this
      simp [List.filter_cons, this]
    · have hi' : i ∈ l := by
        rcases List.mem_cons.1 hi with h | h
        · exact absurd h.symm hai
        · exact h
      simp [List.filter_cons, hai, ih hnd.2 hi']

end RowValues

/-! ## The state between rows -/

section BetweenRows

variable {K : Type} [Field K] [DecidableEq K]

theorem CSR.Valid.nodup {A : CSR K} (h : A.Valid) {r : Nat} (hr : r < A.nrows) :
    (A.cols r).Nodup :=
  (h.2.2.1 r hr).imp fun h => Nat.ne_of_lt h

theorem flatBuild_Lval_length (A : CSR K) (vals : Nat → Nat → K) (i : Nat) :
    (flatBuild A vals i).Lval.length = (flatBuild A vals i).Lcol.length :=
  ((flatUpto_zip _ _ (fun r => by simp) i).2).symm

theorem flatBuild_Uval_length (A : CSR K) (vals : Nat → Nat → K) (i : Nat) :
    (flatBuild A vals i).Uval.length = (flatBuild A vals i).Ucol.length :=
  ((flatUpto_zip _ _ (fun r => by simp) i).2).symm

theorem flatBuild_Urow (A : CSR K) (vals : Nat → Nat → K) {i c : Nat} (hc : c < i) :
    (flatBuild A vals i).Umat.row c
      = (upperOf c (A.cols c)).zip ((upperOf c (A.cols c)).map (vals c)) :=
  row_of_flat _ (fun r => upperOf r (A.cols r)) (fun r => (upperOf r (A.cols r)).map (vals r))
    (fun r => by simp) hc rfl rfl rfl

theorem before_flatBuild {A : CSR K} (h : A.Valid) (vals : Nat → Nat → K) {i : Nat}
    (hi : i ≤ A.nrows) :
    Before (flatBuild A vals i) i (fun c => (vals c c)⁻¹) (uentOf A vals) where
  Lval_length := flatBuild_Lval_length A vals i
  Uval_length := flatBuild_Uval_length A vals i
  D_length := by simp [flatBuild]
  D_get := by
    intro c hc
    simp [flatBuild, List.getElem?_map, List.getElem?_range hc]
  Uptr_length := ptrUpto_length _ _
  Urow_le := by
    intro c hc
    show (ptrUpto _ i).getD c 0 + ((ptrUpto _ i).getD (c + 1) 0 - (ptrUpto _ i).getD c 0)
      ≤ (flatUpto _ i).length
    rw [ptrUpto_getD _ (Nat.le_of_lt hc), ptrUpto_getD _ (show c + 1 ≤ i by omega)]
    have h1 := flatUpto_succ_le (fun r => upperOf r (A.cols r)) hc
    simp only [flatUpto, List.length_append] at h1 ⊢
    omega
  Urow_in := by
    intro c hc e he
    rw [flatBuild_Urow A vals hc] at he
    have h1 : e.1 ∈ upperOf c (A.cols c) := (List.of_mem_zip he).1
    have h2 := h.2.1 c (by omega) e.1 (mem_upperOf.1 h1).1
    simpa [flatBuild] using h2
  Urow_val := by
    intro c hc x
    rw [flatBuild_Urow A vals hc, valOf_zip_map _ (nodup_upperOf (h.nodup (by omega)))]
    rfl
  Urow_upper := by
    intro c _ x hx
    unfold uentOf
    rw [if_neg]
    intro hmem
    have := (mem_upperOf.1 hmem).2
    omega

end BetweenRows

/-! ## One row of the row loop -/

section RowStep

variable {K : Type} [Field K] [DecidableEq K]

theorem Build.eq_of_fields {s t : Build K} (h1 : s.Lnz = t.Lnz) (h2 : s.Unz = t.Unz)
    (h3 : s.Lcol = t.Lcol) (h4 : s.Lval = t.Lval) (h5 : s.Lptr = t.Lptr)
    (h6 : s.Ucol = t.Ucol) (h7 : s.Uval = t.Uval) (h8 : s.Uptr = t.Uptr)
    (h9 : s.D = t.D) (h10 : s.work = t.work) : s = t := by
  cases s; cases t; simp_all

theorem elimInv_congr {a d d2 : Nat → K} {uent uent2 : Nat → Nat → K} {cs pre : List Nat}
    {cur : Nat → K} (h : ElimInv a d uent cs pre cur) (hd : ∀ x ∈ pre, d2 x = d x)
    (hu : ∀ c ∈ pre, ∀ x, uent2 c x = uent c x) : ElimInv a d2 uent2 cs pre cur := by
  have hs : ∀ x, partialSum uent2 pre cur x = partialSum uent pre cur x := by
    intro x
    unfold partialSum
    apply congrArg
    apply List.map_congr_left
    intro c hc
    rw [hu c hc x]
  refine ⟨?_, h.2⟩
  intro x hx
  rw [h.1 x hx, hs x]
  by_cases hxp : x ∈ pre
  · simp [hxp, hd x hxp]
  · simp [hxp]

/-- The scattered row on top of the state between rows. -/
theorem scatter_flatBuild {A : CSR K} (h : A.Valid) (vals : Nat → Nat → K) {i : Nat}
    (hi : i < A.nrows) :
    ∃ s1, scatter A i (A.ptr.getD i 0) (A.ptr.getD (i + 1) 0 - A.ptr.getD i 0)
        (flatBuild A vals i) = .ok s1 ∧
      RowSt (flatBuild A vals i) i (A.cols i) (valOf (A.row i))
        { s1 with Lptr := s1.Lptr ++ [s1.Lcol.length], Uptr := s1.Uptr ++ [s1.Ucol.length] } := by
  have hv := h.1.2.1
  have hnd : (A.cols i).Nodup := h.nodup hi
  have hin : ∀ c ∈ A.cols i, c < (flatBuild A vals i).work.length := by
    intro c hc
    simpa [flatBuild] using h.2.1 i hi c hc
  have hdiag : i ∈ A.cols i := h.2.2.2 i hi
  obtain ⟨w, hsc, hwl, hwx⟩ := scatter_spec A i hv _ _ (flatBuild A vals i) (h.1.row_end hi)
    hnd hin (flatUpto_succ_le (fun r => lowerOf r (A.cols r)) hi)
    (flatUpto_succ_le (fun r => upperOf r (A.cols r)) hi)
  refine ⟨_, hsc, ?_⟩
  have hrow : A.seg (A.ptr.getD i 0) (A.ptr.getD (i + 1) 0 - A.ptr.getD i 0) = A.row i := rfl
  have hcols : (A.row i).map Prod.fst = A.cols i := rfl
  have hnd' : ((A.row i).map Prod.fst).Nodup := hnd
  rw [hrow] at hwx ⊢
  refine ⟨rfl, rfl, rfl, ?_, rfl, rfl, ?_, rfl, ?_, hwl, ?_⟩
  · show _ ++ _ = _ ++ _
    congr 1
    exact filter_map_snd (fun x => decide (x < i)) hnd'
  · show _ ++ _ = _ ++ _
    congr 1
    exact filter_map_snd (fun x => decide (i < x)) hnd'
  · show _ ++ _ = _ ++ _
    congr 1
    rw [filter_map_snd (fun x => decide (x = i)) hnd', hcols, filter_eq_singleton hnd hdiag]
    rfl
  · intro x hx
    have hx' : x < (flatBuild A vals i).work.length := by
      have : w.length = (flatBuild A vals i).work.length := hwl
      have hx2 : x < w.length := hx
      omega
    have := hwx x hx'
    show w[x]? = _
    rw [this, hcols]
    by_cases hxc : x ∈ A.cols i
    · simp [hxc]
    · have hx3 : x < A.nrows := by simpa [flatBuild] using hx'
      simp [hxc, slotOf, flatBuild, hx3]

theorem flatBuild_succ (A : CSR K) (vals : Nat → Nat → K) (i : Nat) (cur : Nat → K)
    (s : Build K) (w : List (Option Slot))
    (hR : RowSt (flatBuild A vals i) i (A.cols i) cur s)
    (hw : w = List.replicate A.nrows none) :
    ({ s with D := (flatBuild A vals i).D ++ [(cur i)⁻¹], work := w } : Build K)
      = flatBuild A (Function.update vals i cur) (i + 1) := by
  have e1 : ∀ (g : Nat → (Nat → K) → List K),
      flatUpto (fun r => g r (Function.update vals i cur r)) i
        = flatUpto (fun r => g r (vals r)) i := by
    intro g
    apply flatUpto_congr
    intro r hr
    have : r ≠ i := by omega
    simp [Function.update, this]
  apply Build.eq_of_fields
  · exact hR.Lnz
  · exact hR.Unz
  · exact hR.Lcol
  · show s.Lval = _
    rw [hR.Lval]
    simp only [flatBuild, flatUpto, Function.update_same]
    rw [e1 (fun r f => (lowerOf r (A.cols r)).map f)]
  · show s.Lptr = _
    rw [hR.Lptr, hR.Lcol]
    rfl
  · exact hR.Ucol
  · show s.Uval = _
    rw [hR.Uval]
    simp only [flatBuild, flatUpto, Function.update_same]
    rw [e1 (fun r f => (upperOf r (A.cols r)).map f)]
  · show s.Uptr = _
    rw [hR.Uptr, hR.Ucol]
    rfl
  · show _ ++ _ = _
    simp only [flatBuild, List.range_succ, List.map_append, List.map_cons, List.map_nil,
      Function.update_same]
    congr 1
    apply List.map_congr_left
    intro r hr
    have : r ≠ i := by
      have := List.mem_range.1 hr
      omega
    simp [Function.update, this]
  · exact hw

/-- Processing row `i` from the state between rows: the pass reaches the
diagonal with the row values `cur`, fails with the zero-pivot error when
`cur i = 0`, and otherwise leaves the state between rows `i` and `i + 1`. -/
theorem row_step {A : CSR K} (h : A.Valid) (vals : Nat → Nat → K) {i : Nat}
    (hi : i < A.nrows) :
    ∃ cur : Nat → K,
      ElimInv (valOf (A.row i)) (fun c => (vals c c)⁻¹) (uentOf A vals) (A.cols i)
        (lowerOf i (A.cols i)) cur ∧
      pivotFrom A i (flatBuild A vals i) = .ok (cur i) ∧
      processRow A i (flatBuild A vals i) =
        if cur i = 0 then .error .zeroPivot
        else .ok (flatBuild A (Function.update vals i cur) (i + 1)) := by
  have hv := h.1.2.1
  have hB := before_flatBuild h vals (Nat.le_of_lt hi)
  have hin : ∀ c ∈ A.cols i, c < (flatBuild A vals i).work.length := by
    intro c hc
    simpa [flatBuild] using h.2.1 i hi c hc
  have hdiag : i ∈ A.cols i := h.2.2.2 i hi
  obtain ⟨s1, hsc, hR2⟩ := scatter_flatBuild h vals hi
  obtain ⟨s3, cur, hel, hR3, hinv⟩ := elimUntilDiag_spec A i hv hB (h.2.2.1 i hi) hdiag hin
    _ _ [] (valOf (A.row i)) _ (h.1.row_end hi) (by simp [CSR.cols, CSR.row]) (by simp) hR2
    (elimInv_init _ _ _ _)
  have hD3 : rd s3.D i = .ok (cur i) := by
    apply rd_of_getElem?
    rw [hR3.D, List.getElem?_append_right (by rw [hB.D_length]), hB.D_length]
    simp
  refine ⟨cur, hinv, ?_, ?_⟩
  · unfold pivotFrom
    rw [h.1.rd_ptr (Nat.le_of_lt hi), ok_bind, h.1.rd_ptr (i := i + 1) (by omega), ok_bind,
      hsc, ok_bind]
    dsimp only
    rw [hel, ok_bind]
    exact hD3
  · unfold processRow
    rw [h.1.rd_ptr (Nat.le_of_lt hi), ok_bind, h.1.rd_ptr (i := i + 1) (by omega), ok_bind,
      hsc, ok_bind]
    dsimp only
    rw [eliminate_eq_untilDiag, hel, ok_bind]
    dsimp only
    unfold diagBlock
    simp only [precondition, decide_True, if_true, ok_bind, hD3]
    by_cases hz : cur i = 0
    · simp [hz]
    · have hlen : i < s3.D.length := by rw [hR3.D, List.length_append, hB.D_length]; simp
      simp only [hz, ne_eq, not_false_eq_true, decide_True, if_true, ok_bind, if_false,
        wr_of_lt _ hlen]
      obtain ⟨w, hcl, hwl, hwx⟩ := clear_spec A hv (A.ptr.getD (i + 1) 0 - A.ptr.getD i 0)
        (A.ptr.getD i 0) { s3 with D := s3.D.set i (cur i)⁻¹ } (h.1.row_end hi)
        (by
          intro c hc
          show c < s3.work.length
          rw [hR3.work_length]
          exact hin c hc)
      show clear A _ _ _ = _
      rw [hcl]
      congr 1
      have hset : s3.D.set i (cur i)⁻¹ = (flatBuild A vals i).D ++ [(cur i)⁻¹] := by
        rw [hR3.D, List.set_append_right _ _ (by rw [hB.D_length]), hB.D_length]
        simp
      have hwn : w = List.replicate A.nrows none := by
        apply eq_replicate_none
        · have : w.length = s3.work.length := hwl
          rw [this, hR3.work_length]; simp [flatBuild]
        · intro x hx
          have hx3 : x < s3.work.length := by rw [hR3.work_length]; simpa [flatBuild] using hx
          have := hwx x hx3
          rw [this]
          by_cases hxc : x ∈ (A.seg (A.ptr.getD i 0) (A.ptr.getD (i + 1) 0
              - A.ptr.getD i 0)).map Prod.fst
          · rw [if_pos hxc]
          · rw [if_neg hxc]
            show s3.work[x]? = _
            rw [hR3.work x hx3]
            have : x ∉ A.cols i := hxc
            simp [slotOf, this]
      have := flatBuild_succ A vals i cur s3 w hR3 hwn
      rw [← this, hset]

end RowStep

/-! ## The row loop -/

section RowLoop

variable {K : Type} [Field K] [DecidableEq K]

theorem rowLoop_snoc (A : CSR K) :
    ∀ m i (s : Build K), rowLoop A i (m + 1) s = rowLoop A i m s >>= processRow A (i + m) := by
  intro m
  induction m with
  | zero =>
    intro i s
    simp only [rowLoop, Nat.add_zero, ok_bind]
    cases processRow A i s <;> rfl
  | succ m ih =>
    intro i s
    rw [rowLoop]
    cases h : processRow A i s with
    | error e => simp [rowLoop, h]
    | ok s1 =>
      simp only [ok_bind]
      rw [ih (i + 1) s1]
      have e : i + 1 + m = i + (m + 1) := by omega
      rw [e]
      conv_rhs => rw [rowLoop, h, ok_bind]

theorem init_eq_flatBuild (A : CSR K) (vals : Nat → Nat → K) :
    Build.init A.nrows A.lowerCount A.upperCount = flatBuild A vals 0 := rfl

theorem pivotAt_eq {A : CSR K} (h : A.Valid) (i : Nat) :
    pivotAt A i =
      rowLoop A 0 i (Build.init A.nrows A.lowerCount A.upperCount) >>= pivotFrom A i := by
  unfold pivotAt
  rw [prepass_eq A h.1, ok_bind]

theorem ilu0_eq {A : CSR K} (h : A.Valid) :
    ilu0 A = rowLoop A 0 A.nrows (Build.init A.nrows A.lowerCount A.upperCount) >>=
      fun s => .ok (s.factors A.nrows) := by
  unfold ilu0
  dsimp only
  rw [prepass_eq A h.1, ok_bind]
  rfl

theorem uentOf_update {A : CSR K} (vals : Nat → Nat → K) (i : Nat) (cur : Nat → K) {c : Nat}
    (hc : c ≠ i) (x : Nat) :
    uentOf A (Function.update vals i cur) c x = uentOf A vals c x := by
  simp [uentOf, Function.update, hc]

theorem good_update {A : CSR K} {vals : Nat → Nat → K} {i : Nat} (hg : Good A vals i)
    {cur : Nat → K}
    (hinv : ElimInv (valOf (A.row i)) (fun c => (vals c c)⁻¹) (uentOf A vals) (A.cols i)
      (lowerOf i (A.cols i)) cur)
    (hnz : cur i ≠ 0) : Good A (Function.update vals i cur) (i + 1) := by
  intro r hr
  by_cases hri : r = i
  · subst hri
    refine ⟨?_, by simpa using hnz⟩
    unfold RowEq
    rw [Function.update_same]
    apply elimInv_congr hinv
    · intro x hx
      have : x ≠ r := by have := (mem_lowerOf.1 hx).2; omega
      simp [Function.update, this]
    · intro c hc x
      have : c ≠ r := by have := (mem_lowerOf.1 hc).2; omega
      exact uentOf_update vals r cur this x
  · have hlt : r < i := by omega
    obtain ⟨h1, h2⟩ := hg r hlt
    refine ⟨?_, by simpa [Function.update, hri] using h2⟩
    unfold RowEq
    rw [Function.update_noteq hri]
    apply elimInv_congr h1
    · intro x hx
      have : x ≠ i := by have := (mem_lowerOf.1 hx).2; omega
      simp [Function.update, this]
    · intro c hc x
      have : c ≠ i := by have := (mem_lowerOf.1 hc).2; omega
      exact uentOf_update vals i cur this x

/-- Outcome of the first `r` rows of the row loop on a valid matrix: either
all pivots were nonzero and the state is the one between rows `r - 1` and
`r`, or the loop stopped with the zero-pivot error at the first row whose
pivot is zero. -/
theorem rowLoop_outcome {A : CSR K} (h : A.Valid) :
    ∀ r, r ≤ A.nrows →
      (∃ vals, Good A vals r ∧
        rowLoop A 0 r (Build.init A.nrows A.lowerCount A.upperCount) = .ok (flatBuild A vals r) ∧
        ∀ q < r, pivotAt A q = .ok (vals q q)) ∨
      (rowLoop A 0 r (Build.init A.nrows A.lowerCount A.upperCount) = .error .zeroPivot ∧
        ∃ q < r, pivotAt A q = .ok 0 ∧ ∀ q' < q, ∃ p, pivotAt A q' = .ok p ∧ p ≠ 0) := by
  intro r
  induction r with
  | zero =>
    intro _
    refine Or.inl ⟨fun _ _ => 0, ?_, rfl, ?_⟩
    · intro q hq; omega
    · intro q hq; omega
  | succ r ih =>
    intro hr
    rcases ih (by omega) with ⟨vals, hg, hrun, hpiv⟩ | ⟨hrun, q, hq, hq0, hqs⟩
    · obtain ⟨cur, hinv, hpf, hproc⟩ := row_step h vals (i := r) (by omega)
      have hpr : pivotAt A r = .ok (cur r) := by
        rw [pivotAt_eq h, hrun, ok_bind, hpf]
      have hstep : rowLoop A 0 (r + 1) (Build.init A.nrows A.lowerCount A.upperCount)
          = processRow A r (flatBuild A vals r) := by
        rw [rowLoop_snoc, hrun, ok_bind, Nat.zero_add]
      by_cases hz : cur r = 0
      · right
        refine ⟨by rw [hstep, hproc, if_pos hz], r, by omega, by rw [hpr, hz], ?_⟩
        intro q' hq'
        exact ⟨vals q' q', hpiv q' hq', (hg q' hq').2⟩
      · left
        refine ⟨Function.update vals r cur, good_update hg hinv hz,
          by rw [hstep, hproc, if_neg hz], ?_⟩
        intro q hq
        by_cases hqr : q = r
        · subst hqr; simpa using hpr
        · rw [Function.update_noteq hqr]
          exact hpiv q (by omega)
    · right
      refine ⟨by rw [rowLoop_snoc, hrun]; rfl, q, by omega, hq0, hqs⟩

end RowLoop

/-! ## Outcome of the constructor -/

section Outcome

variable {K : Type} [Field K] [DecidableEq K]

/-- On a valid matrix the constructor either returns the factors laid out
from nonzero-pivot row values, or stops with the zero-pivot error. -/
theorem ilu0_outcome {A : CSR K} (h : A.Valid) :
    (∃ vals, Good A vals A.nrows ∧
      ilu0 A = .ok ((flatBuild A vals A.nrows).factors A.nrows) ∧
      ∀ q < A.nrows, pivotAt A q = .ok (vals q q)) ∨
    (ilu0 A = .error .zeroPivot ∧
      ∃ q < A.nrows, pivotAt A q = .ok 0 ∧ ∀ q' < q, ∃ p, pivotAt A q' = .ok p ∧ p ≠ 0) := by
  rcases rowLoop_outcome h A.nrows (Nat.le_refl _) with ⟨vals, hg, hrun, hpiv⟩ | ⟨hrun, hq⟩
  · exact Or.inl ⟨vals, hg, by rw [ilu0_eq h, hrun, ok_bind], hpiv⟩
  · exact Or.inr ⟨by rw [ilu0_eq h, hrun]; rfl, hq⟩

theorem factors_Lrow (A : CSR K) (vals : Nat → Nat → K) {n r : Nat} (hr : r < n) :
    ((flatBuild A vals n).factors n).L.row r
      = (lowerOf r (A.cols r)).zip ((lowerOf r (A.cols r)).map (vals r)) :=
  row_of_flat _ (fun r => lowerOf r (A.cols r)) (fun r => (lowerOf r (A.cols r)).map (vals r))
    (fun r => by simp) hr rfl rfl rfl

theorem factors_Urow (A : CSR K) (vals : Nat → Nat → K) {n r : Nat} (hr : r < n) :
    ((flatBuild A vals n).factors n).U.row r
      = (upperOf r (A.cols r)).zip ((upperOf r (A.cols r)).map (vals r)) :=
  row_of_flat _ (fun r => upperOf r (A.cols r)) (fun r => (upperOf r (A.cols r)).map (vals r))
    (fun r => by simp) hr rfl rfl rfl

theorem factors_Lentry {A : CSR K} (h : A.Valid) (vals : Nat → Nat → K) {r : Nat}
    (hr : r < A.nrows) (x : Nat) :
    ((flatBuild A vals A.nrows).factors A.nrows).L.entry r x = lentOf A vals r x := by
  unfold CSR.entry
  rw [factors_Lrow A vals hr, valOf_zip_map _ (nodup_lowerOf (h.nodup hr))]
  rfl

theorem factors_Uentry {A : CSR K} (h : A.Valid) (vals : Nat → Nat → K) {r : Nat}
    (hr : r < A.nrows) (x : Nat) :
    ((flatBuild A vals A.nrows).factors A.nrows).U.entry r x = uentOf A vals r x := by
  unfold CSR.entry
  rw [factors_Urow A vals hr, valOf_zip_map _ (nodup_upperOf (h.nodup hr))]
  rfl

theorem factors_D (A : CSR K) (vals : Nat → Nat → K) {n r : Nat} (hr : r < n) :
    ((flatBuild A vals n).factors n).D.getD r 0 = (vals r r)⁻¹ := by
  simp [Build.factors, flatBuild, List.getD, List.getElem?_map, List.getElem?_range hr]

theorem sum_range_indicator {l : List Nat} (hnd : l.Nodup) {n : Nat} (hlt : ∀ c ∈ l, c < n)
    (f : Nat → K) :
    (∑ k in Finset.range n, if k ∈ l then f k else 0) = (l.map f).sum := by
  induction l with
  | nil => simp
  | cons a l ih =>
    simp only [List.nodup_cons] at hnd
    have ha : a < n := hlt a (List.mem_cons_self _ _)
    have hl : ∀ c ∈ l, c < n := fun c hc => hlt c (List.mem_cons_of_mem _ hc)
    have hsplit : ∀ k, (if k ∈ a :: l then f k else 0)
        = (if k = a then f k else 0) + (if k ∈ l then f k else 0) := by
      intro k
      by_cases hka : k = a
      · subst hka; simp [hnd.1]
      · simp [hka]
    simp only [hsplit, Finset.sum_add_distrib, ih hnd.2 hl, List.map_cons, List.sum_cons]
    congr 1
    rw [Finset.sum_ite_eq' (Finset.range n) a f]
    simp [ha]

/-- Row `i` of `(L + I)·(U + diag(pivots))` at a stored column `j`, written
over the row values, is the stored value of `A`. -/
theorem row_product {A : CSR K} (h : A.Valid) {vals : Nat → Nat → K} (hg : Good A vals A.nrows)
    {i j : Nat} (hi : i < A.nrows) (hj : j ∈ A.cols i) :
    (∑ k in Finset.range A.nrows,
      (lentOf A vals i k + if i = k then 1 else 0)
        * (uentOf A vals k j + if k = j then ((vals k k)⁻¹)⁻¹ else 0))
      = valOf (A.row i) j := by
  have hjn : j < A.nrows := h.2.1 i hi j hj
  have hnd := h.nodup hi
  obtain ⟨hrow, hpiv⟩ := hg i hi
  have hlow : ∀ c ∈ lowerOf i (A.cols i), c < A.nrows :=
    fun c hc => h.2.1 i hi c (mem_lowerOf.1 hc).1
  have e1 : (∑ k in Finset.range A.nrows, lentOf A vals i k * uentOf A vals k j)
      = partialSum (uentOf A vals) (lowerOf i (A.cols i)) (vals i) j := by
    unfold partialSum
    rw [← sum_range_indicator (nodup_lowerOf hnd) hlow]
    apply Finset.sum_congr rfl
    intro k _
    unfold lentOf
    split <;> simp
  have e2 : (∑ k in Finset.range A.nrows,
      lentOf A vals i k * (if k = j then ((vals k k)⁻¹)⁻¹ else 0))
      = lentOf A vals i j * vals j j := by
    simp only [mul_ite, mul_zero]
    rw [Finset.sum_ite_eq' (Finset.range A.nrows) j]
    simp [hjn]
  have e3 : (∑ k in Finset.range A.nrows, (if i = k then (1 : K) else 0) * uentOf A vals k j)
      = uentOf A vals i j := by
    simp only [ite_mul, one_mul, zero_mul]
    rw [Finset.sum_ite_eq (Finset.range A.nrows) i]
    simp [hi]
  have e4 : (∑ k in Finset.range A.nrows,
      (if i = k then (1 : K) else 0) * (if k = j then ((vals k k)⁻¹)⁻¹ else 0))
      = if i = j then vals i i else 0 := by
    simp only [ite_mul, one_mul, zero_mul]
    rw [Finset.sum_ite_eq (Finset.range A.nrows) i]
    simp [hi]
  simp only [add_mul, mul_add, Finset.sum_add_distrib]
  rw [e1, e2, e3, e4]
  have hval := hrow.1 j hj
  by_cases h1 : j < i
  · have hjl : j ∈ lowerOf i (A.cols i) := mem_lowerOf.2 ⟨hj, h1⟩
    have hju : j ∉ upperOf i (A.cols i) := fun e => by have := (mem_upperOf.1 e).2; omega
    have hne : i ≠ j := by omega
    have hpj : vals j j ≠ 0 := (hg j hjn).2
    rw [if_pos hjl] at hval
    simp only [lentOf, uentOf, hjl, hju, hne, if_true, if_false, add_zero]
    rw [hval]
    field_simp
  · by_cases h2 : j = i
    · subst h2
      have hjl : j ∉ lowerOf j (A.cols j) := fun e => by have := (mem_lowerOf.1 e).2; omega
      have hju : j ∉ upperOf j (A.cols j) := fun e => by have := (mem_upperOf.1 e).2; omega
      rw [if_neg hjl] at hval
      simp only [lentOf, uentOf, hjl, hju, if_true, if_false, add_zero, zero_mul]
      rw [hval]
      ring
    · have h3 : i < j := by omega
      have hjl : j ∉ lowerOf i (A.cols i) := fun e => by have := (mem_lowerOf.1 e).2; omega
      have hju : j ∈ upperOf i (A.cols i) := mem_upperOf.2 ⟨hj, h3⟩
      have hne : i ≠ j := by omega
      rw [if_neg hjl] at hval
      simp only [lentOf, uentOf, hjl, hju, hne, if_true, if_false, add_zero, zero_mul]
      rw [hval]
      ring

end Outcome

/-! ## Evaluation of the scenarios -/

section ScenarioRuns

theorem ilu0_tridiag3 : ilu0 tridiag3 = .ok tridiag3Factors := by
  norm_num [ilu0, tridiag3, tridiag3Factors, countRows, countRow, rowLoop, processRow, scatter,
    eliminate, clear, elimEntry, combine, diagBlock, rd, wr, precondition, Build.init,
    Build.factors, Build.load, Build.store, bind, Except.bind, Except.map, pure, Except.pure]

theorem ilu0_lower2 : ilu0 lower2 = .ok lower2Factors := by
  norm_num [ilu0, lower2, lower2Factors, countRows, countRow, rowLoop, processRow, scatter,
    eliminate, clear, elimEntry, combine, diagBlock, rd, wr, precondition, Build.init,
    Build.factors, Build.load, Build.store, bind, Except.bind, Except.map, pure, Except.pure]

theorem ilu0_swap2 (K : Type) [Field K] [DecidableEq K] :
    ilu0 (swap2 K) = .error .zeroPivot := by
  simp [ilu0, swap2, countRows, countRow, rowLoop, processRow, scatter,
    eliminate, clear, elimEntry, combine, diagBlock, rd, wr, precondition, Build.init,
    Build.factors, Build.load, Build.store, bind, Except.bind, Except.map, pure, Except.pure]

theorem pivotAt_swap2 (K : Type) [Field K] [DecidableEq K] :
    pivotAt (swap2 K) 0 = .ok 0 := by
  simp [pivotAt, pivotFrom, swap2, countRows, countRow, rowLoop, processRow, scatter,
    elimUntilDiag, clear, elimEntry, combine, diagBlock, rd, wr, precondition, Build.init,
    Build.factors, Build.load, Build.store, bind, Except.bind, Except.map, pure, Except.pure]

theorem ilu0_noDiag2 :
    ilu0 noDiag2 = .ok
      { L := { nrows := 2, ptr := [0, 0, 1], col := [0], val := [1] }
        U := { nrows := 2, ptr := [0, 0, 0], col := [], val := [] }
        D := [1] } := by
  norm_num [ilu0, noDiag2, countRows, countRow, rowLoop, processRow, scatter,
    eliminate, clear, elimEntry, combine, diagBlock, rd, wr, precondition, Build.init,
    Build.factors, Build.load, Build.store, bind, Except.bind, Except.map, pure, Except.pure]

end ScenarioRuns

/-! ## Pattern of an ascending row -/

section Pattern

variable {K : Type} [Field K] [DecidableEq K]

theorem lower_diag_upper {i : Nat} {cs : List Nat} (hasc : cs.Pairwise (· < ·)) (hi : i ∈ cs) :
    lowerOf i cs ++ [i] ++ upperOf i cs = cs := by
  induction cs with
  | nil => simp at hi
  | cons a t ih =>
    rw [List.pairwise_cons] at hasc
    obtain ⟨hat, ht⟩ := hasc
    by_cases h1 : a < i
    · have hit : i ∈ t := by
        rcases List.mem_cons.1 hi with h | h
        · omega
        · exact h
      have := ih ht hit
      simp only [lowerOf, upperOf, List.filter_cons, h1, Nat.lt_asymm h1, decide_True,
        decide_False, if_true, List.cons_append] at this ⊢
      simpa using this
    · have hai : a = i := by
        rcases List.mem_cons.1 hi with h | h
        · exact h.symm
        · have := hat i h; omega
      subst hai
      have hl : t.filter (fun x => decide (x < a)) = [] := by
        rw [List.filter_eq_nil_iff]
        intro x hx
        have := hat x hx
        simp; omega
      have hu : t.filter (fun x => decide (a < x)) = t :=
        List.filter_eq_self.2 fun x hx => by simpa using hat x hx
      simp [lowerOf, upperOf, List.filter_cons, hl, hu]

theorem map_fst_zip_map (l : List Nat) (f : Nat → K) : (l.zip (l.map f)).map Prod.fst = l := by
  induction l with
  | nil => rfl
  | cons a l ih => simp [ih]

theorem valOf_zero {row : List (Nat × K)} (h : ∀ e ∈ row, e.2 = 0) (x : Nat) :
    valOf row x = 0 := by
  induction row with
  | nil => exact valOf_nil x
  | cons e row ih =>
    obtain ⟨c, v⟩ := e
    have hv : v = 0 := h (c, v) (List.mem_cons_self _ _)
    rw [valOf_cons, ih fun e he => h e (List.mem_cons_of_mem _ he), hv]
    simp

end Pattern

/-! ## Claims about the constructor on valid input -/

section ConstructorClaims

variable {K : Type} [Field K] [DecidableEq K]

/-- Claim C1 (triangular exactness on the pattern): when `A` meets the input
constraints and the constructor returns the factors `L`, `U`, `D`, the product
`(L + I)·(U + diag(1/D))` agrees with `A` at every stored position `(i, j)`. -/
theorem ilu0_exact_on_pattern (A : CSR K) (hA : A.Valid) (F : Factors K)
    (hF : ilu0 A = .ok F) (i j : Fin A.nrows) (hs : A.Stored i j) :
    ((F.L.toMatrix A.nrows + 1) *
        (F.U.toMatrix A.nrows + Matrix.diagonal fun k : Fin A.nrows => (F.D.getD k 0)⁻¹)) i j
      = A.toMatrix A.nrows i j := by
  rcases ilu0_outcome hA with ⟨vals, hg, hrun, -⟩ | ⟨herr, -⟩
  · rw [hrun] at hF
    injection hF with hF
    subst hF
    rw [Matrix.mul_apply]
    have hterm : ∀ k : Fin A.nrows,
        ((((flatBuild A vals A.nrows).factors A.nrows).L.toMatrix A.nrows + 1) i k) *
          ((((flatBuild A vals A.nrows).factors A.nrows).U.toMatrix A.nrows
            + Matrix.diagonal fun k : Fin A.nrows =>
                (((flatBuild A vals A.nrows).factors A.nrows).D.getD k 0)⁻¹) k j)
        = (fun k : Nat => (lentOf A vals i k + if (i : Nat) = k then 1 else 0)
            * (uentOf A vals k j + if k = (j : Nat) then ((vals k k)⁻¹)⁻¹ else 0)) k := by
      intro k
      simp only [Matrix.add_apply, Matrix.one_apply, Matrix.diagonal_apply, CSR.toMatrix,
        factors_Lentry hA vals i.2, factors_Uentry hA vals k.2, factors_D A vals k.2,
        Fin.ext_iff]
    rw [Finset.sum_congr rfl fun k _ => hterm k]
    exact (Fin.sum_univ_eq_sum_range
      (fun k : Nat => (lentOf A vals i k + if (i : Nat) = k then 1 else 0)
        * (uentOf A vals k j + if k = (j : Nat) then ((vals k k)⁻¹)⁻¹ else 0)) A.nrows).trans
      (row_product hA hg i.2 hs)
  · rw [herr] at hF
    cases hF

/-- Instance of C1 on `tridiag(-1, 2, -1)` at the stored position `(1, 2)`. -/
theorem ilu0_exact_on_pattern_witness :
    ((tridiag3Factors.L.toMatrix tridiag3.nrows + 1) *
        (tridiag3Factors.U.toMatrix tridiag3.nrows
          + Matrix.diagonal fun k : Fin tridiag3.nrows => (tridiag3Factors.D.getD k 0)⁻¹))
        ⟨1, by decide⟩ ⟨2, by decide⟩
      = tridiag3.toMatrix tridiag3.nrows ⟨1, by decide⟩ ⟨2, by decide⟩ :=
  ilu0_exact_on_pattern tridiag3 (by decide) tridiag3Factors ilu0_tridiag3
    ⟨1, by decide⟩ ⟨2, by decide⟩ (by decide)

/-- Claim C2 (pattern fidelity): on valid input with returned factors, for
every row `i` the columns of `L`'s row, then `i`, then the columns of `U`'s
row are exactly the strictly ascending column list of `A`'s row; every `L`
entry lies below the diagonal, every `U` entry above it, and all of them on
stored positions of `A`. -/
theorem ilu0_pattern_fidelity (A : CSR K) (hA : A.Valid) (F : Factors K)
    (hF : ilu0 A = .ok F) (i : Nat) (hi : i < A.nrows) :
    (F.L.row i).map Prod.fst ++ [i] ++ (F.U.row i).map Prod.fst = A.cols i ∧
    ((F.L.row i).map Prod.fst ++ [i] ++ (F.U.row i).map Prod.fst).Pairwise (· < ·) ∧
    (∀ e ∈ F.L.row i, e.1 < i ∧ A.Stored i e.1) ∧
    (∀ e ∈ F.U.row i, i < e.1 ∧ A.Stored i e.1) := by
  rcases ilu0_outcome hA with ⟨vals, -, hrun, -⟩ | ⟨herr, -⟩
  · rw [hrun] at hF
    injection hF with hF
    subst hF
    have hcat := lower_diag_upper (hA.2.2.1 i hi) (hA.2.2.2 i hi)
    rw [factors_Lrow A vals hi, factors_Urow A vals hi, map_fst_zip_map, map_fst_zip_map, hcat]
    refine ⟨rfl, hA.2.2.1 i hi, ?_, ?_⟩
    · intro e he
      have := mem_lowerOf.1 (List.of_mem_zip he).1
      exact ⟨this.2, this.1⟩
    · intro e he
      have := mem_upperOf.1 (List.of_mem_zip he).1
      exact ⟨this.2, this.1⟩
  · rw [herr] at hF
    cases hF

/-- Instance of C2 on row 1 of `tridiag(-1, 2, -1)`. -/
theorem ilu0_pattern_fidelity_witness :
    (tridiag3Factors.L.row 1).map Prod.fst ++ [1] ++ (tridiag3Factors.U.row 1).map Prod.fst
        = tridiag3.cols 1 ∧
    ((tridiag3Factors.L.row 1).map Prod.fst ++ [1]
        ++ (tridiag3Factors.U.row 1).map Prod.fst).Pairwise (· < ·) ∧
    (∀ e ∈ tridiag3Factors.L.row 1, e.1 < 1 ∧ tridiag3.Stored 1 e.1) ∧
    (∀ e ∈ tridiag3Factors.U.row 1, 1 < e.1 ∧ tridiag3.Stored 1 e.1) :=
  ilu0_pattern_fidelity tridiag3 (by decide) tridiag3Factors ilu0_tridiag3 1 (by decide)

/-- Claim C4 (zero-pivot rejection): on valid input the constructor fails
with the zero-pivot error exactly when some row `i`, all earlier rows having
had nonzero pivots, has the value zero in its diagonal cell after its
elimination; otherwise it returns factors.  A row whose stored values are all
zero makes it fail, and `[[0,1],[1,0]]` with stored zero diagonal fails with
the pivot of row 0 being zero. -/
theorem ilu0_zero_pivot_rejection :
    (∀ A : CSR K, A.Valid →
      (ilu0 A = .error .zeroPivot ↔
        ∃ i < A.nrows, pivotAt A i = .ok 0 ∧ ∀ q < i, ∃ p, pivotAt A q = .ok p ∧ p ≠ 0) ∧
      ((¬ ∃ i < A.nrows, pivotAt A i = .ok 0) → ∃ F, ilu0 A = .ok F) ∧
      ((∃ r < A.nrows, ∀ e ∈ A.row r, e.2 = 0) → ilu0 A = .error .zeroPivot)) ∧
    ilu0 (swap2 K) = .error .zeroPivot ∧ pivotAt (swap2 K) 0 = .ok 0 := by
  refine ⟨?_, ilu0_swap2 K, pivotAt_swap2 K⟩
  intro A hA
  refine ⟨⟨?_, ?_⟩, ?_, ?_⟩
  · intro herr
    rcases ilu0_outcome hA with ⟨vals, -, hrun, -⟩ | ⟨-, hq⟩
    · rw [hrun] at herr
      cases herr
    · exact hq
  · rintro ⟨i, hi, hp, -⟩
    rcases ilu0_outcome hA with ⟨vals, hg, -, hpiv⟩ | ⟨herr, -⟩
    · exfalso
      have := hpiv i hi
      rw [hp] at this
      injection this with this
      exact (hg i hi).2 this.symm
    · exact herr
  · intro hno
    rcases ilu0_outcome hA with ⟨vals, -, hrun, -⟩ | ⟨-, q, hq, hq0, -⟩
    · exact ⟨_, hrun⟩
    · exact absurd ⟨q, hq, hq0⟩ hno
  · rintro ⟨r, hr, hzero⟩
    rcases ilu0_outcome hA with ⟨vals, hg, -, -⟩ | ⟨herr, -⟩
    · exfalso
      obtain ⟨hrow, hnz⟩ := hg r hr
      exact hnz (hrow.2 (fun x _ => valOf_zero hzero x) r (hA.2.2.2 r hr))
    · exact herr

/-- Instance of C4 on `[[0,1],[1,0]]` over the rationals: it is valid input,
its row 0 has pivot zero, and the constructor fails with the zero-pivot error. -/
theorem ilu0_zero_pivot_rejection_witness :
    (swap2 ℚ).Valid ∧ (∃ i < (swap2 ℚ).nrows, pivotAt (swap2 ℚ) i = .ok 0) ∧
      ilu0 (swap2 ℚ) = .error .zeroPivot :=
  ⟨by decide, ⟨0, by decide, pivotAt_swap2 ℚ⟩,
    ((ilu0_zero_pivot_rejection.1 (swap2 ℚ) (by decide)).1).2
      ⟨0, by decide, pivotAt_swap2 ℚ, fun q hq => absurd hq (Nat.not_lt_zero q)⟩⟩

/-- Claim C5 (diagonal inversion): on valid input with returned factors, `D`
has `n` entries and each `D[i]` is nonzero and is the exact inverse of the
value the diagonal cell of row `i` held right before `math::inverse`. -/
theorem ilu0_diagonal_inversion (A : CSR K) (hA : A.Valid) (F : Factors K)
    (hF : ilu0 A = .ok F) :
    F.D.length = A.nrows ∧
    ∀ i < A.nrows, ∃ p, pivotAt A i = .ok p ∧ F.D.getD i 0 ≠ 0 ∧ F.D.getD i 0 * p = 1 := by
  rcases ilu0_outcome hA with ⟨vals, hg, hrun, hpiv⟩ | ⟨herr, -⟩
  · rw [hrun] at hF
    injection hF with hF
    subst hF
    refine ⟨by simp [Build.factors, flatBuild], ?_⟩
    intro i hi
    have hnz := (hg i hi).2
    refine ⟨vals i i, hpiv i hi, ?_, ?_⟩
    · rw [factors_D A vals hi]
      exact inv_ne_zero hnz
    · rw [factors_D A vals hi]
      exact inv_mul_cancel₀ hnz
  · rw [herr] at hF
    cases hF

/-- Instance of C5 on `tridiag(-1, 2, -1)`. -/
theorem ilu0_diagonal_inversion_witness :
    tridiag3Factors.D.length = tridiag3.nrows ∧
    ∀ i < tridiag3.nrows, ∃ p, pivotAt tridiag3 i = .ok p ∧
      tridiag3Factors.D.getD i 0 ≠ 0 ∧ tridiag3Factors.D.getD i 0 * p = 1 :=
  ilu0_diagonal_inversion tridiag3 (by decide) tridiag3Factors ilu0_tridiag3

end ConstructorClaims

/-! ## Shape of the factors on any completed run -/

section ShapeLemmas

variable {K : Type} [Field K] [DecidableEq K]

theorem bind_eq_ok {α β : Type} {x : Except Failure α} {f : α → Except Failure β} {b : β}
    (h : (x >>= f) = .ok b) : ∃ a, x = .ok a ∧ f a = .ok b := by
  cases x with
  | error e => cases h
  | ok a => exact ⟨a, rfl, h⟩

theorem store_shape {s s1 : Build K} {p : Slot} {x : K} (h : s.store p x = .ok s1) :
    s1.shape = s.shape := by
  cases p with
  | inL k =>
    simp only [Build.store, Except.map] at h
    cases hw : wr s.Lval k x with
    | error e => rw [hw] at h; cases h
    | ok v =>
      rw [hw] at h
      injection h with h
      subst h
      have := (wr_eq_ok_iff.1 hw).2
      simp [Build.shape, this]
  | inD k =>
    simp only [Build.store, Except.map] at h
    cases hw : wr s.D k x with
    | error e => rw [hw] at h; cases h
    | ok v =>
      rw [hw] at h
      injection h with h
      subst h
      rfl
  | inU k =>
    simp only [Build.store, Except.map] at h
    cases hw : wr s.Uval k x with
    | error e => rw [hw] at h; cases h
    | ok v =>
      rw [hw] at h
      injection h with h
      subst h
      have := (wr_eq_ok_iff.1 hw).2
      simp [Build.shape, this]

theorem combine_shape (tl : K) :
    ∀ cnt k (s s1 : Build K), combine tl k cnt s = .ok s1 → s1.shape = s.shape := by
  intro cnt
  induction cnt with
  | zero =>
    intro k s s1 h
    simp only [combine] at h
    injection h with h
    rw [h]
  | succ cnt ih =>
    intro k s s1 h
    rw [combine] at h
    obtain ⟨uc, -, h⟩ := bind_eq_ok h
    obtain ⟨w, -, h⟩ := bind_eq_ok h
    cases w with
    | none => exact ih (k + 1) s s1 h
    | some p =>
      dsimp only at h
      obtain ⟨x, -, h⟩ := bind_eq_ok h
      obtain ⟨u, -, h⟩ := bind_eq_ok h
      obtain ⟨s2, hst, h⟩ := bind_eq_ok h
      rw [ih (k + 1) s2 s1 h, store_shape hst]

theorem elimEntry_shape {c : Nat} {s s1 : Build K} (h : elimEntry c s = .ok s1) :
    s1.shape = s.shape := by
  unfold elimEntry at h
  obtain ⟨w, -, h⟩ := bind_eq_ok h
  cases w with
  | none => cases h
  | some p =>
    dsimp only at h
    obtain ⟨x, -, h⟩ := bind_eq_ok h
    obtain ⟨dc, -, h⟩ := bind_eq_ok h
    obtain ⟨s2, hst, h⟩ := bind_eq_ok h
    obtain ⟨k0, -, h⟩ := bind_eq_ok h
    obtain ⟨k1, -, h⟩ := bind_eq_ok h
    rw [combine_shape _ _ _ _ _ h, store_shape hst]

theorem diagBlock_shape {i c : Nat} {s s1 : Build K} (h : diagBlock i c s = .ok s1) :
    s1.shape = s.shape := by
  unfold diagBlock at h
  obtain ⟨-, -, h⟩ := bind_eq_ok h
  obtain ⟨d, -, h⟩ := bind_eq_ok h
  obtain ⟨-, -, h⟩ := bind_eq_ok h
  obtain ⟨D1, -, h⟩ := bind_eq_ok h
  injection h with h
  subst h
  rfl

theorem eliminate_shape (A : CSR K) (i : Nat) :
    ∀ cnt j (s s1 : Build K), eliminate A i j cnt s = .ok s1 → s1.shape = s.shape := by
  intro cnt
  induction cnt with
  | zero =>
    intro j s s1 h
    simp only [eliminate] at h
    injection h with h
    rw [h]
  | succ cnt ih =>
    intro j s s1 h
    rw [eliminate] at h
    obtain ⟨c, -, h⟩ := bind_eq_ok h
    by_cases hc : c ≥ i
    · rw [if_pos hc] at h
      exact diagBlock_shape h
    · rw [if_neg hc] at h
      obtain ⟨s2, he, h⟩ := bind_eq_ok h
      rw [ih (j + 1) s2 s1 h, elimEntry_shape he]

theorem clear_shape (A : CSR K) :
    ∀ cnt j (s s1 : Build K), clear A j cnt s = .ok s1 → s1.shape = s.shape := by
  intro cnt
  induction cnt with
  | zero =>
    intro j s s1 h
    simp only [clear] at h
    injection h with h
    rw [h]
  | succ cnt ih =>
    intro j s s1 h
    rw [clear] at h
    obtain ⟨c, -, h⟩ := bind_eq_ok h
    obtain ⟨w, -, h⟩ := bind_eq_ok h
    rw [ih (j + 1) _ s1 h]
    rfl

/-- Whatever the row looks like, a completed scatter pass appended to `L`
the columns below `i` and to `U` the columns above `i`, in storage order. -/
theorem scatter_shape (A : CSR K) (i : Nat) (hv : A.val.length = A.col.length) :
    ∀ cnt j (s s1 : Build K), j + cnt ≤ A.col.length → scatter A i j cnt s = .ok s1 →
      s1.shape = (s.Lcol ++ lowerOf i ((A.seg j cnt).map Prod.fst),
        s.Ucol ++ upperOf i ((A.seg j cnt).map Prod.fst), s.Lptr, s.Uptr,
        s.Lval.length + (lowerOf i ((A.seg j cnt).map Prod.fst)).length,
        s.Uval.length + (upperOf i ((A.seg j cnt).map Prod.fst)).length) := by
  intro cnt
  induction cnt with
  | zero =>
    intro j s s1 _ h
    simp only [scatter] at h
    injection h with h
    subst h
    simp [Build.shape, CSR.seg_zero, lowerOf, upperOf]
  | succ cnt ih =>
    intro j s s1 hj h
    obtain ⟨c, v, hc, hv', hseg⟩ := A.seg_succ j cnt hv (by omega)
    rw [scatter, rd_of_getElem? hc, ok_bind, rd_of_getElem? hv', ok_bind] at h
    rw [hseg]
    by_cases h1 : c < i
    · rw [if_pos h1] at h
      by_cases hcap : s.Lcol.length < s.Lnz
      · rw [if_pos hcap] at h
        obtain ⟨w, -, h⟩ := bind_eq_ok h
        rw [ih (j + 1) _ s1 (by omega) h]
        simp [lowerOf, upperOf, List.filter_cons, h1, Nat.lt_asymm h1]
        omega
      · rw [if_neg hcap] at h
        cases h
    · rw [if_neg h1] at h
      by_cases h2 : c = i
      · rw [if_pos h2] at h
        obtain ⟨w, -, h⟩ := bind_eq_ok h
        rw [ih (j + 1) _ s1 (by omega) h]
        simp [lowerOf, upperOf, List.filter_cons, h2]
      · rw [if_neg h2] at h
        have h3 : i < c := by omega
        by_cases hcap : s.Ucol.length < s.Unz
        · rw [if_pos hcap] at h
          obtain ⟨w, -, h⟩ := bind_eq_ok h
          rw [ih (j + 1) _ s1 (by omega) h]
          simp [lowerOf, upperOf, List.filter_cons, h1, h3]
          omega
        · rw [if_neg hcap] at h
          cases h

theorem processRow_shape {A : CSR K} (hwf : A.WellFormed) {i : Nat} (hi : i < A.nrows)
    {s s1 : Build K} (h : processRow A i s = .ok s1) :
    s1.shape = (s.Lcol ++ lowerOf i (A.cols i), s.Ucol ++ upperOf i (A.cols i),
      s.Lptr ++ [(s.Lcol ++ lowerOf i (A.cols i)).length],
      s.Uptr ++ [(s.Ucol ++ upperOf i (A.cols i)).length],
      s.Lval.length + (lowerOf i (A.cols i)).length,
      s.Uval.length + (upperOf i (A.cols i)).length) := by
  unfold processRow at h
  rw [hwf.rd_ptr (Nat.le_of_lt hi), ok_bind, hwf.rd_ptr (i := i + 1) (by omega), ok_bind] at h
  obtain ⟨s2, hsc, h⟩ := bind_eq_ok h
  dsimp only at h
  obtain ⟨s3, hel, h⟩ := bind_eq_ok h
  have e1 := scatter_shape A i hwf.2.1 _ _ s s2 (hwf.row_end hi) hsc
  have e2 := eliminate_shape A i _ _ _ s3 hel
  have e3 := clear_shape A _ _ s3 s1 h
  rw [e3, e2]
  simp only [Build.shape, Prod.mk.injEq] at e1 ⊢
  obtain ⟨a1, a2, a3, a4, a5, a6⟩ := e1
  refine ⟨a1, a2, ?_, ?_, a5, a6⟩
  · rw [a3, a1]; rfl
  · rw [a4, a2]; rfl

theorem rowLoop_shape {A : CSR K} (hwf : A.WellFormed) :
    ∀ r, r ≤ A.nrows → ∀ s : Build K,
      rowLoop A 0 r (Build.init A.nrows A.lowerCount A.upperCount) = .ok s →
      s.shape = (flatUpto (fun r => lowerOf r (A.cols r)) r,
        flatUpto (fun r => upperOf r (A.cols r)) r,
        ptrUpto (fun r => lowerOf r (A.cols r)) r,
        ptrUpto (fun r => upperOf r (A.cols r)) r,
        (flatUpto (fun r => lowerOf r (A.cols r)) r).length,
        (flatUpto (fun r => upperOf r (A.cols r)) r).length) := by
  intro r
  induction r with
  | zero =>
    intro _ s h
    simp only [rowLoop] at h
    injection h with h
    subst h
    rfl
  | succ r ih =>
    intro hr s h
    rw [rowLoop_snoc] at h
    obtain ⟨s0, h0, h⟩ := bind_eq_ok h
    rw [Nat.zero_add] at h
    have e0 := ih (by omega) s0 h0
    have e1 := processRow_shape hwf (show r < A.nrows by omega) h
    rw [e1]
    simp only [Build.shape, Prod.mk.injEq] at e0
    obtain ⟨a1, a2, a3, a4, a5, a6⟩ := e0
    simp only [a1, a2, a3, a4, a5, a6, flatUpto, ptrUpto, List.length_append]

end ShapeLemmas

/-! ## Claims about missing diagonals and factor sizes -/

section SizeClaims

variable {K : Type} [Field K] [DecidableEq K]

/-- Claim C3 (missing-diagonal rejection), the code at the failing input:
the `2 × 2` matrix whose row 1 stores only column 0 is well formed, in range
and ascending, has no stored entry at `(1, 1)`, and the constructor does not
fail on it: it returns factors whose `D` has a single entry. -/
theorem ilu0_missing_diagonal_unreported :
    noDiag2.WellFormed ∧ noDiag2.InRange ∧ noDiag2.Ascending ∧ ¬ noDiag2.Stored 1 1 ∧
    ilu0 noDiag2 = .ok
      { L := { nrows := 2, ptr := [0, 0, 1], col := [0], val := [1] }
        U := { nrows := 2, ptr := [0, 0, 0], col := [], val := [] }
        D := [1] } :=
  ⟨by decide, by decide, by decide, by decide, ilu0_noDiag2⟩

/-- Claim C8 (factor sizes and row pointers): whenever the constructor
completes on a well-formed matrix, the pre-pass capacities are the numbers of
stored entries below and above the diagonal, `L` and `U` hold exactly that
many columns and values, their `ptr` arrays have `n + 1` entries starting at
`0`, are non-decreasing with per-row increments equal to the row's number of
entries below (above) the diagonal, never exceed the capacities and end at
them. -/
theorem ilu0_factor_sizes (A : CSR K) (hwf : A.WellFormed) (F : Factors K)
    (hF : ilu0 A = .ok F) :
    countRows A 0 A.nrows (0, 0) = .ok (A.lowerCount, A.upperCount) ∧
    (F.L.col.length = A.lowerCount ∧ F.L.val.length = A.lowerCount ∧
      F.U.col.length = A.upperCount ∧ F.U.val.length = A.upperCount) ∧
    (F.L.ptr.length = A.nrows + 1 ∧ F.U.ptr.length = A.nrows + 1 ∧
      F.L.ptr.getD 0 0 = 0 ∧ F.U.ptr.getD 0 0 = 0) ∧
    (∀ i < A.nrows,
      F.L.ptr.getD (i + 1) 0 = F.L.ptr.getD i 0 + (lowerOf i (A.cols i)).length ∧
      F.U.ptr.getD (i + 1) 0 = F.U.ptr.getD i 0 + (upperOf i (A.cols i)).length ∧
      F.L.ptr.getD i 0 ≤ F.L.ptr.getD (i + 1) 0 ∧ F.U.ptr.getD i 0 ≤ F.U.ptr.getD (i + 1) 0) ∧
    (∀ i ≤ A.nrows, F.L.ptr.getD i 0 ≤ A.lowerCount ∧ F.U.ptr.getD i 0 ≤ A.upperCount) ∧
    F.L.ptr.getD A.nrows 0 = A.lowerCount ∧ F.U.ptr.getD A.nrows 0 = A.upperCount := by
  have hpre := prepass_eq A hwf
  unfold ilu0 at hF
  dsimp only at hF
  rw [hpre, ok_bind] at hF
  obtain ⟨s, hrun, hF⟩ := bind_eq_ok hF
  injection hF with hF
  subst hF
  have hsh := rowLoop_shape hwf A.nrows (Nat.le_refl _) s hrun
  simp only [Build.shape, Prod.mk.injEq] at hsh
  obtain ⟨a1, a2, a3, a4, a5, a6⟩ := hsh
  simp only [Build.factors, a1, a2, a3, a4, a5, a6, ptrUpto_length, CSR.lowerCount,
    CSR.upperCount, true_and, and_true]
  refine ⟨hpre, ⟨ptrUpto_getD _ (Nat.zero_le _), ptrUpto_getD _ (Nat.zero_le _)⟩, ?_, ?_,
    ptrUpto_getD _ (Nat.le_refl _), ptrUpto_getD _ (Nat.le_refl _)⟩
  · intro i hi
    rw [ptrUpto_getD _ (show i + 1 ≤ A.nrows by omega), ptrUpto_getD _ (Nat.le_of_lt hi),
      ptrUpto_getD _ (show i + 1 ≤ A.nrows by omega), ptrUpto_getD _ (Nat.le_of_lt hi)]
    simp [flatUpto]
  · intro i hi
    rw [ptrUpto_getD _ hi, ptrUpto_getD _ hi]
    have h1 := flatUpto_length_mono (fun r => lowerOf r (A.cols r)) (A.nrows - i) i
    have h2 := flatUpto_length_mono (fun r => upperOf r (A.cols r)) (A.nrows - i) i
    have e : i + (A.nrows - i) = A.nrows := by omega
    rw [e] at h1 h2
    exact ⟨h1, h2⟩

/-- Instance of C8 on `tridiag(-1, 2, -1)`. -/
theorem ilu0_factor_sizes_witness :
    countRows tridiag3 0 tridiag3.nrows (0, 0) = .ok (tridiag3.lowerCount, tridiag3.upperCount) ∧
    (tridiag3Factors.L.col.length = tridiag3.lowerCount ∧
      tridiag3Factors.L.val.length = tridiag3.lowerCount ∧
      tridiag3Factors.U.col.length = tridiag3.upperCount ∧
      tridiag3Factors.U.val.length = tridiag3.upperCount) ∧
    (tridiag3Factors.L.ptr.length = tridiag3.nrows + 1 ∧
      tridiag3Factors.U.ptr.length = tridiag3.nrows + 1 ∧
      tridiag3Factors.L.ptr.getD 0 0 = 0 ∧ tridiag3Factors.U.ptr.getD 0 0 = 0) ∧
    (∀ i < tridiag3.nrows,
      tridiag3Factors.L.ptr.getD (i + 1) 0
        = tridiag3Factors.L.ptr.getD i 0 + (lowerOf i (tridiag3.cols i)).length ∧
      tridiag3Factors.U.ptr.getD (i + 1) 0
        = tridiag3Factors.U.ptr.getD i 0 + (upperOf i (tridiag3.cols i)).length ∧
      tridiag3Factors.L.ptr.getD i 0 ≤ tridiag3Factors.L.ptr.getD (i + 1) 0 ∧
      tridiag3Factors.U.ptr.getD i 0 ≤ tridiag3Factors.U.ptr.getD (i + 1) 0) ∧
    (∀ i ≤ tridiag3.nrows, tridiag3Factors.L.ptr.getD i 0 ≤ tridiag3.lowerCount ∧
      tridiag3Factors.U.ptr.getD i 0 ≤ tridiag3.upperCount) ∧
    tridiag3Factors.L.ptr.getD tridiag3.nrows 0 = tridiag3.lowerCount ∧
    tridiag3Factors.U.ptr.getD tridiag3.nrows 0 = tridiag3.upperCount :=
  ilu0_factor_sizes tridiag3 (by decide) tridiag3Factors ilu0_tridiag3

end SizeClaims

/-! ## The serial triangular solve -/

section SerialSolve

variable {K : Type} [Field K] [DecidableEq K]

theorem getD_set (x : List K) (i k : Nat) (v : K) (hi : i < x.length) :
    (x.set i v).getD k 0 = if i = k then v else x.getD k 0 := by
  by_cases h : i = k
  · subst h
    simp [List.getD, hi]
  · simp [List.getD, List.getElem?_set, h]

theorem rowDot_congr (M : CSR K) (i : Nat) {x y : List K}
    (h : ∀ e ∈ M.row i, y.getD e.1 0 = x.getD e.1 0) : rowDot M i y = rowDot M i x := by
  unfold rowDot
  apply congrArg
  apply List.map_congr_left
  intro e he
  rw [h e he]

theorem forwardPass_spec (L : CSR K) {n : Nat} (hL : ∀ i < n, ∀ e ∈ L.row i, e.1 < i) :
    ∀ m i (x : List K), i + m ≤ n → x.length = n →
      (forwardPass L i m x).length = n ∧
      (∀ k, k < i ∨ i + m ≤ k → (forwardPass L i m x).getD k 0 = x.getD k 0) ∧
      (∀ k, i ≤ k → k < i + m →
        (forwardPass L i m x).getD k 0 + rowDot L k (forwardPass L i m x) = x.getD k 0) := by
  intro m
  induction m with
  | zero =>
    intro i x _ hx
    refine ⟨hx, fun k _ => rfl, ?_⟩
    intro k h1 h2
    omega
  | succ m ih =>
    intro i x him hx
    have hi : i < x.length := by omega
    obtain ⟨h1, h2, h3⟩ := ih (i + 1) (x.set i (x.getD i 0 - rowDot L i x)) (by omega)
      (by simpa using hx)
    rw [forwardPass]
    refine ⟨h1, ?_, ?_⟩
    · intro k hk
      rw [h2 k (by omega), getD_set _ _ _ _ hi, if_neg (by omega)]
    · intro k hk1 hk2
      by_cases hki : k = i
      · subst hki
        rw [h2 k (Or.inl (by omega)), getD_set _ _ _ _ hi, if_pos rfl]
        have : rowDot L k (forwardPass L (k + 1) m (x.set k (x.getD k 0 - rowDot L k x)))
            = rowDot L k x := by
          apply rowDot_congr
          intro e he
          have hlt := hL k (by omega) e he
          rw [h2 e.1 (Or.inl (by omega)), getD_set _ _ _ _ hi, if_neg (by omega)]
        rw [this]
        ring
      · rw [h3 k (by omega) (by omega), getD_set _ _ _ _ hi, if_neg (by omega)]

theorem backwardPass_spec (U : CSR K) (D : List K) {n : Nat}
    (hU : ∀ i < n, ∀ e ∈ U.row i, i < e.1) :
    ∀ i (x : List K), i ≤ n → x.length = n →
      (backwardPass U D i x).length = n ∧
      (∀ k, i ≤ k → (backwardPass U D i x).getD k 0 = x.getD k 0) ∧
      (∀ k < i, (backwardPass U D i x).getD k 0
        = D.getD k 0 * (x.getD k 0 - rowDot U k (backwardPass U D i x))) := by
  intro i
  induction i with
  | zero =>
    intro x _ hx
    refine ⟨hx, fun k _ => rfl, ?_⟩
    intro k hk
    omega
  | succ i ih =>
    intro x hin hx
    have hi : i < x.length := by omega
    obtain ⟨h1, h2, h3⟩ := ih (x.set i (D.getD i 0 * (x.getD i 0 - rowDot U i x))) (by omega)
      (by simpa using hx)
    rw [backwardPass]
    refine ⟨h1, ?_, ?_⟩
    · intro k hk
      rw [h2 k (by omega), getD_set _ _ _ _ hi, if_neg (by omega)]
    · intro k hk
      by_cases hki : k = i
      · subst hki
        rw [h2 k (Nat.le_refl _), getD_set _ _ _ _ hi, if_pos rfl]
        have : rowDot U k (backwardPass U D k (x.set k (D.getD k 0 * (x.getD k 0 - rowDot U k x))))
            = rowDot U k x := by
          apply rowDot_congr
          intro e he
          have hlt := hU k (by omega) e he
          rw [h2 e.1 (by omega), getD_set _ _ _ _ hi, if_neg (by omega)]
        rw [this]
      · rw [h3 k (by omega), getD_set _ _ _ _ hi, if_neg (by omega)]

theorem sum_valOf_mul {n : Nat} (f : Nat → K) :
    ∀ row : List (Nat × K), (∀ e ∈ row, e.1 < n) →
      (∑ j in Finset.range n, valOf row j * f j) = (row.map fun e => e.2 * f e.1).sum := by
  intro row
  induction row with
  | nil => intro _; simp [valOf_nil]
  | cons e row ih =>
    intro h
    obtain ⟨c, v⟩ := e
    have hc : c < n := h (c, v) (List.mem_cons_self _ _)
    simp only [valOf_cons, add_mul, Finset.sum_add_distrib, List.map_cons, List.sum_cons,
      ih fun e he => h e (List.mem_cons_of_mem _ he), ite_mul, zero_mul]
    rw [Finset.sum_ite_eq (Finset.range n) c]
    simp [hc]

theorem mulVec_toMatrix (M : CSR K) {n : Nat} (x : List K) (k : Fin n)
    (h : ∀ e ∈ M.row k, e.1 < n) :
    (M.toMatrix n).mulVec (toVec n x) k = rowDot M k x := by
  simp only [Matrix.mulVec, Matrix.dotProduct, CSR.toMatrix, toVec]
  rw [Fin.sum_univ_eq_sum_range (fun j => M.entry k j * x.getD j 0) n]
  exact sum_valOf_mul (fun j => x.getD j 0) (M.row k) h

theorem serial_round_trip (L U : CSR K) (D r : List K)
    (hL : ∀ i < L.nrows, ∀ e ∈ L.row i, e.1 < i)
    (hU : ∀ i < L.nrows, ∀ e ∈ U.row i, i < e.1 ∧ e.1 < L.nrows)
    (hD : ∀ i < L.nrows, D.getD i 0 ≠ 0) (hr : r.length = L.nrows) :
    ((L.toMatrix L.nrows + 1) *
        (U.toMatrix L.nrows + Matrix.diagonal fun k : Fin L.nrows => (D.getD k 0)⁻¹)).mulVec
      (toVec L.nrows (serial_ilu_solve L U D r)) = toVec L.nrows r := by
  obtain ⟨f1, -, f3⟩ := forwardPass_spec L hL L.nrows 0 r (by omega) hr
  obtain ⟨-, -, b3⟩ := backwardPass_spec U D (fun i hi e he => (hU i hi e he).1) L.nrows
    (forwardPass L 0 L.nrows r) (Nat.le_refl _) f1
  have hupper : (U.toMatrix L.nrows
        + Matrix.diagonal fun k : Fin L.nrows => (D.getD k 0)⁻¹).mulVec
      (toVec L.nrows (serial_ilu_solve L U D r)) = toVec L.nrows (forwardPass L 0 L.nrows r) := by
    funext k
    rw [Matrix.add_mulVec, Pi.add_apply, Matrix.mulVec_diagonal,
      mulVec_toMatrix U _ k (fun e he => (hU k k.2 e he).2)]
    have hb := b3 k k.2
    have hd := hD k k.2
    simp only [toVec, serial_ilu_solve]
    rw [hb, ← mul_assoc, inv_mul_cancel₀ hd, one_mul]
    ring
  have hlower : (L.toMatrix L.nrows + 1).mulVec (toVec L.nrows (forwardPass L 0 L.nrows r))
      = toVec L.nrows r := by
    funext k
    rw [Matrix.add_mulVec, Pi.add_apply, Matrix.one_mulVec,
      mulVec_toMatrix L _ k (fun e he => Nat.lt_trans (hL k k.2 e he) k.2)]
    have hf := f3 k (Nat.zero_le _) (by rw [Nat.zero_add]; exact k.2)
    simp only [toVec]
    rw [← hf]
    ring
  rw [← Matrix.mulVec_mulVec, hupper, hlower]

/-- Claim C6 (round trip of the serial solve): for a strictly lower `L`, a
strictly upper `U` with columns below `n`, `D` nonzero on `[0, n)` and any `r`
of length `n`, the vector `y` that `apply` produces under the serial strategy
(forward pass, then backward pass) satisfies `(L + I)·(U + diag(1/D))·y = r`. -/
theorem serial_solve_round_trip (L U : CSR K) (D r : List K)
    (hL : ∀ i < L.nrows, ∀ e ∈ L.row i, e.1 < i)
    (hU : ∀ i < L.nrows, ∀ e ∈ U.row i, i < e.1 ∧ e.1 < L.nrows)
    (hD : ∀ i < L.nrows, D.getD i 0 ≠ 0) (hr : r.length = L.nrows)
    (par : CSR K → CSR K → List K → Nat → List K → List K) (x : List K) (prm : params K) :
    ((L.toMatrix L.nrows + 1) *
        (U.toMatrix L.nrows + Matrix.diagonal fun k : Fin L.nrows => (D.getD k 0)⁻¹)).mulVec
      (toVec L.nrows (apply par { fac := { L := L, U := U, D := D }, serial := true } r x prm))
      = toVec L.nrows r :=
  serial_round_trip L U D r hL hU hD hr

/-- Instance of C6 on the factors of `tridiag(-1, 2, -1)` and `r = [1, 0, 0]`. -/
theorem serial_solve_round_trip_witness :
    ((tridiag3Factors.L.toMatrix tridiag3Factors.L.nrows + 1) *
        (tridiag3Factors.U.toMatrix tridiag3Factors.L.nrows
          + Matrix.diagonal fun k : Fin tridiag3Factors.L.nrows =>
              (tridiag3Factors.D.getD k 0)⁻¹)).mulVec
      (toVec tridiag3Factors.L.nrows
        (apply (fun _ _ _ _ x => x)
          { fac := { L := tridiag3Factors.L, U := tridiag3Factors.U, D := tridiag3Factors.D },
            serial := true } [1, 0, 0] [0, 0, 0] {}))
      = toVec tridiag3Factors.L.nrows [1, 0, 0] :=
  serial_solve_round_trip tridiag3Factors.L tridiag3Factors.U tridiag3Factors.D [1, 0, 0]
    (by decide) (by decide)
    (by
      intro i hi
      have h3 : i < 3 := hi
      interval_cases i <;> norm_num [tridiag3Factors])
    rfl (fun _ _ _ _ x => x) [0, 0, 0] {}

end SerialSolve

/-! ## Lists produced by `map` over a range -/

section SmootherClaims

variable {K : Type} [Field K] [DecidableEq K]

theorem getD_map_range (n : Nat) (f : Nat → K) {i : Nat} (hi : i < n) :
    ((List.range n).map f).getD i 0 = f i := by
  simp [List.getD, List.getElem?_map, List.getElem?_range hi]

end SmootherClaims

/-! ## Claims about the solve results of the scenarios -/

section ScenarioSolves

theorem serial_solve_tridiag3 :
    serial_ilu_solve tridiag3Factors.L tridiag3Factors.U tridiag3Factors.D [1, 0, 0]
      = [3 / 4, 1 / 2, 1 / 4] := by
  norm_num [serial_ilu_solve, forwardPass, backwardPass, rowDot, CSR.row, CSR.seg,
    tridiag3Factors, List.getD]

theorem serial_solve_lower2 :
    serial_ilu_solve lower2Factors.L lower2Factors.U lower2Factors.D [2, 10] = [1, 2] := by
  norm_num [serial_ilu_solve, forwardPass, backwardPass, rowDot, CSR.row, CSR.seg,
    lower2Factors, List.getD]

/-- Claim C9 as stated fails: on `tridiag(-1, 2, -1)` and `b = [1, 0, 0]` the
serial `apply` with the constructor's factors does not return
`[2/3, 1/3, 1/4]`. -/
theorem tridiag3_spec_value_refuted :
    (ilu0 tridiag3).map (fun F =>
        apply (fun _ _ _ _ x => x) { fac := F, serial := true } [1, 0, 0] [0, 0, 0] {})
      ≠ .ok [2 / 3, 1 / 3, 1 / 4] := by
  rw [ilu0_tridiag3]
  simp only [Except.map, apply, copy, solve, if_true]
  rw [serial_solve_tridiag3]
  intro h
  injection h with h
  norm_num at h

/-- Claim C9 (scenario 3, solve result), amended: on `tridiag(-1, 2, -1)` and
`b = [1, 0, 0]` the serial `apply` with the constructor's factors returns
`[3/4, 1/2, 1/4]`. -/
theorem tridiag3_serial_result (par : CSR ℚ → CSR ℚ → List ℚ → Nat → List ℚ → List ℚ) (x : List ℚ)
    (prm : params ℚ) :
    (ilu0 tridiag3).map (fun F => apply par { fac := F, serial := true } [1, 0, 0] x prm)
      = .ok [3 / 4, 1 / 2, 1 / 4] := by
  rw [ilu0_tridiag3]
  simp only [Except.map, apply, copy, solve, if_true]
  rw [serial_solve_tridiag3]

/-- Claim C10 as stated fails: on `[[2, 0], [4, 3]]` and `b = [2, 10]` the
serial `apply` with the constructor's factors does not return `[1, 8/3]`. -/
theorem lower2_spec_value_refuted :
    (ilu0 lower2).map (fun F =>
        apply (fun _ _ _ _ x => x) { fac := F, serial := true } [2, 10] [0, 0] {})
      ≠ .ok [1, 8 / 3] := by
  rw [ilu0_lower2]
  simp only [Except.map, apply, copy, solve, if_true]
  rw [serial_solve_lower2]
  intro h
  injection h with h
  norm_num at h

/-- Claim C10 (scenario 2, solve result), amended: on `[[2, 0], [4, 3]]` and
`b = [2, 10]` the serial `apply` with the constructor's factors returns
`[1, 2]`. -/
theorem lower2_serial_result (par : CSR ℚ → CSR ℚ → List ℚ → Nat → List ℚ → List ℚ) (x : List ℚ)
    (prm : params ℚ) :
    (ilu0 lower2).map (fun F => apply par { fac := F, serial := true } [2, 10] x prm)
      = .ok [1, 2] := by
  rw [ilu0_lower2]
  simp only [Except.map, apply, copy, solve, if_true]
  rw [serial_solve_lower2]

end ScenarioSolves

/-! ## Scenario 3: the factor values -/

section FactorValues

theorem pivotAt_tridiag3 :
    pivotAt tridiag3 0 = .ok 2 ∧ pivotAt tridiag3 1 = .ok (3 / 2)
      ∧ pivotAt tridiag3 2 = .ok (4 / 3) := by
  refine ⟨?_, ?_, ?_⟩ <;>
  norm_num [pivotAt, pivotFrom, tridiag3, countRows, countRow, rowLoop, processRow, scatter,
    eliminate, elimUntilDiag, clear, elimEntry, combine, diagBlock, rd, wr, precondition,
    Build.init, Build.load, Build.store, bind, Except.bind, Except.map, pure, Except.pure]

/-- Claim C11 (scenario 3, factor values): on `tridiag(-1, 2, -1)` the
constructor returns `D = [1/2, 2/3, 3/4]`, `L` with exactly the entries
`(1,0) = -1/2` and `(2,1) = -2/3`, `U` with exactly the entries `(0,1) = -1`
and `(1,2) = -1`, and the pivots before inversion are `2`, `3/2`, `4/3`. -/
theorem tridiag3_factor_values :
    ∃ F : Factors ℚ, ilu0 tridiag3 = .ok F ∧ F.D = [1 / 2, 2 / 3, 3 / 4] ∧
      (F.L.row 0 = [] ∧ F.L.row 1 = [(0, -1 / 2)] ∧ F.L.row 2 = [(1, -2 / 3)] ∧
        F.L.col.length = 2) ∧
      (F.U.row 0 = [(1, -1)] ∧ F.U.row 1 = [(2, -1)] ∧ F.U.row 2 = [] ∧
        F.U.col.length = 2) ∧
      (pivotAt tridiag3 0 = .ok 2 ∧ pivotAt tridiag3 1 = .ok (3 / 2)
        ∧ pivotAt tridiag3 2 = .ok (4 / 3)) :=
  ⟨tridiag3Factors, ilu0_tridiag3, rfl,
    ⟨rfl, rfl, rfl, rfl⟩, ⟨rfl, rfl, rfl, rfl⟩, pivotAt_tridiag3⟩

end FactorValues

/-! ## What a failure reports -/

section ErrorContext

variable {K : Type} [Field K] [DecidableEq K]

theorem rd_error {α : Type} {xs : List α} {k : Nat} {e : Failure} (h : rd xs k = .error e) :
    e = .undefined := by
  unfold rd at h
  split at h
  · cases h
  · injection h with h
    exact h.symm

theorem wr_error {α : Type} {xs : List α} {k : Nat} {x : α} {e : Failure}
    (h : wr xs k x = .error e) : e = .undefined := by
  unfold wr at h
  split at h
  · cases h
  · injection h with h
    exact h.symm

theorem ilu0_singular2 : ilu0 singular2 = .error .zeroPivot := by
  norm_num [ilu0, singular2, countRows, countRow, rowLoop, processRow, scatter,
    eliminate, clear, elimEntry, combine, diagBlock, rd, wr, precondition, Build.init,
    Build.factors, Build.load, Build.store, bind, Except.bind, Except.map, pure, Except.pure]

theorem pivotAt_singular2 : pivotAt singular2 0 = .ok 1 ∧ pivotAt singular2 1 = .ok 0 := by
  refine ⟨?_, ?_⟩ <;>
  norm_num [pivotAt, pivotFrom, singular2, countRows, countRow, rowLoop, processRow, scatter,
    eliminate, elimUntilDiag, clear, elimEntry, combine, diagBlock, rd, wr, precondition,
    Build.init, Build.load, Build.store, bind, Except.bind, Except.map, pure, Except.pure]

theorem ilu0_noDiagRow0 : ilu0 noDiagRow0 = .error .noDiagonal := by
  norm_num [ilu0, noDiagRow0, countRows, countRow, rowLoop, processRow, scatter,
    eliminate, clear, elimEntry, combine, diagBlock, rd, wr, precondition, Build.init,
    Build.factors, Build.load, Build.store, bind, Except.bind, Except.map, pure, Except.pure]

theorem ilu0_noDiagRow1 : ilu0 noDiagRow1 = .error .noDiagonal := by
  norm_num [ilu0, noDiagRow1, countRows, countRow, rowLoop, processRow, scatter,
    eliminate, clear, elimEntry, combine, diagBlock, rd, wr, precondition, Build.init,
    Build.factors, Build.load, Build.store, bind, Except.bind, Except.map, pure, Except.pure]

/-- Claim C16 as stated fails: no function of the reported error recovers
the failing row, since `[[0,1],[1,0]]` (zero pivot at row 0) and
`[[1,1],[1,1]]` (zero pivot at row 1) are reported by the same error. -/
theorem error_row_not_recoverable :
    ¬ ∃ rowOf : Failure → Nat, ∀ (A : CSR ℚ) (i : Nat) (e : Failure),
      pivotAt A i = .ok 0 → ilu0 A = .error e → rowOf e = i := by
  rintro ⟨rowOf, h⟩
  have h0 := h (swap2 ℚ) 0 .zeroPivot (pivotAt_swap2 ℚ) (ilu0_swap2 ℚ)
  have h1 := h singular2 1 .zeroPivot pivotAt_singular2.2 ilu0_singular2
  omega

/-- The errors of the diagonal block: `noDiagonal` when `c ≠ i`, `zeroPivot`
when `D[i]` is zero, and nothing else short of an out-of-bounds access. -/
theorem diagBlock_error_cases {i c : Nat} {s : Build K} {e : Failure}
    (he : diagBlock i c s = .error e) :
    (e = .noDiagonal ∧ c ≠ i) ∨ (e = .zeroPivot ∧ c = i ∧ rd s.D i = .ok 0)
      ∨ e = .undefined := by
  unfold diagBlock at he
  by_cases hc : c = i
  · subst hc
    simp only [precondition, decide_True, if_true, ok_bind] at he
    cases hd : rd s.D c with
    | error e2 =>
      rw [hd] at he
      injection he with he
      exact Or.inr (Or.inr (by rw [← he]; exact rd_error hd))
    | ok d =>
      rw [hd, ok_bind] at he
      by_cases hz : d = 0
      · subst hz
        simp only [ne_eq, not_true_eq_false, decide_False, Bool.false_eq_true, if_false,
          error_bind] at he
        injection he with he
        exact Or.inr (Or.inl ⟨he.symm, rfl, rfl⟩)
      · simp only [ne_eq, hz, not_false_eq_true, decide_True, if_true, ok_bind] at he
        cases hw : wr s.D c d⁻¹ with
        | error e2 =>
          rw [hw] at he
          injection he with he
          exact Or.inr (Or.inr (by rw [← he]; exact wr_error hw))
        | ok D1 =>
          rw [hw] at he
          cases he
  · simp only [precondition, hc, decide_False, Bool.false_eq_true, if_false, error_bind] at he
    injection he with he
    exact Or.inl ⟨he.symm, hc⟩

/-- Claim C16 (error context), amended: the diagonal block reports a missing
diagonal as `noDiagonal` and a zero pivot as `zeroPivot` whatever the row `i`
is, these are the only precondition errors it raises, and failures at
different rows are reported by equal errors. -/
theorem error_reports_kind_only (i c : Nat) (s : Build K) :
    (c ≠ i → diagBlock i c s = .error .noDiagonal) ∧
    (c = i → rd s.D i = .ok 0 → diagBlock i c s = .error .zeroPivot) ∧
    (∀ e, diagBlock i c s = .error e →
      (e = .noDiagonal ∧ c ≠ i) ∨ (e = .zeroPivot ∧ c = i ∧ rd s.D i = .ok 0)
        ∨ e = .undefined) ∧
    (ilu0 (swap2 ℚ) = ilu0 singular2 ∧ pivotAt (swap2 ℚ) 0 = .ok 0
      ∧ pivotAt singular2 0 = .ok 1 ∧ pivotAt singular2 1 = .ok 0) ∧
    (ilu0 noDiagRow0 = ilu0 noDiagRow1 ∧ ilu0 noDiagRow0 = .error .noDiagonal
      ∧ ¬ noDiagRow0.Stored 0 0 ∧ noDiagRow1.Stored 0 0 ∧ ¬ noDiagRow1.Stored 1 1) := by
  refine ⟨?_, ?_, ?_, ⟨by rw [ilu0_swap2, ilu0_singular2], pivotAt_swap2 ℚ, pivotAt_singular2⟩,
    ⟨by rw [ilu0_noDiagRow0, ilu0_noDiagRow1], ilu0_noDiagRow0, by decide, by decide,
      by decide⟩⟩
  · intro hc
    simp [diagBlock, precondition, hc]
  · intro hc hd
    subst hc
    simp [diagBlock, precondition, hd]
  · intro e he
    exact diagBlock_error_cases he

theorem error_reports_kind_only_witness :
    diagBlock 1 2 (Build.init 3 0 0 : Build ℚ) = .error .noDiagonal ∧
    ilu0 noDiagRow0 = ilu0 noDiagRow1 :=
  ⟨(error_reports_kind_only 1 2 (Build.init 3 0 0 : Build ℚ)).1 (by decide),
    (error_reports_kind_only 1 2 (Build.init 3 0 0 : Build ℚ)).2.2.2.2.1⟩

end ErrorContext

/-! ## Index safety -/

section IndexSafety

variable {K : Type} [Field K] [DecidableEq K]

theorem flatBuild_D_getD (A : CSR K) (vals : Nat → Nat → K) {i c : Nat} (hc : c < i) :
    (flatBuild A vals i).D.getD c 0 = (vals c c)⁻¹ := by
  simp [flatBuild, List.getD, List.getElem?_map, List.getElem?_range hc]

/-- Claim C17 (index safety): on valid input the pre-pass completes, the
constructor never performs an access outside an initialised extent nor a
`NULL` dereference, and whenever row `i` starts, `D` has exactly `i` entries,
each the inverse of the nonzero pivot of its row, the heads together with
the row's appends stay within the capacities, and the processing of row `i`
is free of such accesses. -/
theorem ilu0_index_safety (A : CSR K) (hA : A.Valid) :
    countRows A 0 A.nrows (0, 0) = .ok (A.lowerCount, A.upperCount) ∧
    ilu0 A ≠ .error .undefined ∧
    ∀ i, i ≤ A.nrows → ∀ s : Build K,
      rowLoop A 0 i (Build.init A.nrows A.lowerCount A.upperCount) = .ok s →
      s.D.length = i ∧ s.work.length = A.nrows ∧
      (∀ c < i, ∃ p, p ≠ 0 ∧ pivotAt A c = .ok p ∧ s.D.getD c 0 = p⁻¹) ∧
      (i < A.nrows →
        s.Lcol.length + (lowerOf i (A.cols i)).length ≤ s.Lnz ∧
        s.Ucol.length + (upperOf i (A.cols i)).length ≤ s.Unz ∧
        processRow A i s ≠ .error .undefined ∧ pivotAt A i ≠ .error .undefined) := by
  refine ⟨prepass_eq A hA.1, ?_, ?_⟩
  · rcases ilu0_outcome hA with ⟨vals, -, hrun, -⟩ | ⟨herr, -⟩
    · rw [hrun]; intro h; cases h
    · rw [herr]; intro h; cases h
  · intro i hi s hs
    rcases rowLoop_outcome hA i hi with ⟨vals, hg, hrun, hpiv⟩ | ⟨herr, -⟩
    · rw [hrun] at hs
      injection hs with hs
      subst hs
      refine ⟨by simp [flatBuild], by simp [flatBuild], ?_, ?_⟩
      · intro c hc
        exact ⟨vals c c, (hg c hc).2, hpiv c hc, flatBuild_D_getD A vals hc⟩
      · intro hlt
        obtain ⟨cur, -, hpf, hproc⟩ := row_step hA vals hlt
        refine ⟨flatUpto_succ_le (fun r => lowerOf r (A.cols r)) hlt,
          flatUpto_succ_le (fun r => upperOf r (A.cols r)) hlt, ?_, ?_⟩
        · rw [hproc]
          split <;> (intro h; cases h)
        · rw [pivotAt_eq hA, hrun, ok_bind, hpf]
          intro h; cases h
    · rw [herr] at hs
      cases hs

/-- Instance of C17 on `tridiag(-1, 2, -1)`. -/
theorem ilu0_index_safety_witness :
    countRows tridiag3 0 tridiag3.nrows (0, 0) = .ok (tridiag3.lowerCount, tridiag3.upperCount) ∧
    ilu0 tridiag3 ≠ .error .undefined ∧
    ∀ i, i ≤ tridiag3.nrows → ∀ s : Build ℚ,
      rowLoop tridiag3 0 i
        (Build.init tridiag3.nrows tridiag3.lowerCount tridiag3.upperCount) = .ok s →
      s.D.length = i ∧ s.work.length = tridiag3.nrows ∧
      (∀ c < i, ∃ p, p ≠ 0 ∧ pivotAt tridiag3 c = .ok p ∧ s.D.getD c 0 = p⁻¹) ∧
      (i < tridiag3.nrows →
        s.Lcol.length + (lowerOf i (tridiag3.cols i)).length ≤ s.Lnz ∧
        s.Ucol.length + (upperOf i (tridiag3.cols i)).length ≤ s.Unz ∧
        processRow tridiag3 i s ≠ .error .undefined ∧ pivotAt tridiag3 i ≠ .error .undefined) :=
  ilu0_index_safety tridiag3 (by decide)

end IndexSafety

/-! ## Lower-triangular and diagonal-only input -/

section Triangular

variable {K : Type} [Field K] [DecidableEq K]

theorem flatUpto_nil {α : Type} {f : Nat → List α} :
    ∀ i, (∀ r < i, f r = []) → flatUpto f i = [] := by
  intro i
  induction i with
  | zero => intro _; rfl
  | succ i ih =>
    intro h
    rw [flatUpto, ih fun r hr => h r (by omega), h i (by omega)]
    rfl

/-- On valid input, a successful read of the pivot of row `q` comes with the
row values of the earlier rows and the loop invariant at the diagonal. -/
theorem pivotAt_spec {A : CSR K} (hA : A.Valid) {q : Nat} (hq : q < A.nrows) {p : K}
    (hp : pivotAt A q = .ok p) :
    ∃ vals cur, Good A vals q ∧
      ElimInv (valOf (A.row q)) (fun c => (vals c c)⁻¹) (uentOf A vals) (A.cols q)
        (lowerOf q (A.cols q)) cur ∧ cur q = p := by
  rcases rowLoop_outcome hA q (Nat.le_of_lt hq) with ⟨vals, hg, hrun, -⟩ | ⟨herr, -⟩
  · obtain ⟨cur, hinv, hpf, -⟩ := row_step hA vals hq
    rw [pivotAt_eq hA, hrun, ok_bind, hpf] at hp
    injection hp with hp
    exact ⟨vals, cur, hg, hinv, hp⟩
  · rw [pivotAt_eq hA, herr] at hp
    cases hp

theorem upperOf_eq_nil {A : CSR K} (hlow : A.LowerTriangular) {c : Nat} (hc : c < A.nrows) :
    upperOf c (A.cols c) = [] := by
  unfold upperOf
  rw [List.filter_eq_nil_iff]
  intro x hx
  have := hlow c hc x hx
  simp; omega

theorem partialSum_lower {A : CSR K} (hA : A.Valid) (hlow : A.LowerTriangular)
    (vals : Nat → Nat → K) {r : Nat} (hr : r < A.nrows) (cur : Nat → K) (x : Nat) :
    partialSum (uentOf A vals) (lowerOf r (A.cols r)) cur x = 0 := by
  unfold partialSum
  apply List.sum_eq_zero
  intro t ht
  obtain ⟨c, hc, rfl⟩ := List.mem_map.1 ht
  have hcn : c < A.nrows := hA.2.1 r hr c (mem_lowerOf.1 hc).1
  simp [uentOf, upperOf_eq_nil hlow hcn]

/-- The loop invariant of a lower-triangular row: no update ever applies. -/
theorem elimInv_lower {A : CSR K} (hA : A.Valid) (hlow : A.LowerTriangular)
    {vals : Nat → Nat → K} {r : Nat} (hr : r < A.nrows) {cur : Nat → K}
    (h : ElimInv (valOf (A.row r)) (fun c => (vals c c)⁻¹) (uentOf A vals) (A.cols r)
      (lowerOf r (A.cols r)) cur) :
    cur r = A.entry r r ∧
    ∀ x ∈ A.cols r, x < r → cur x = A.entry r x * (vals x x)⁻¹ := by
  have hdiag : r ∈ A.cols r := hA.2.2.2 r hr
  refine ⟨?_, ?_⟩
  · have := h.1 r hdiag
    rw [partialSum_lower hA hlow vals hr, if_neg (fun e => by
      have := (mem_lowerOf.1 e).2; omega)] at this
    rw [this, sub_zero]
    rfl
  · intro x hx hxr
    have := h.1 x hx
    rw [partialSum_lower hA hlow vals hr, if_pos (mem_lowerOf.2 ⟨hx, hxr⟩), sub_zero] at this
    rw [this]
    rfl

/-- Outcome of the constructor on a lower-triangular matrix with nonzero
diagonal. -/
theorem lower_triangular_outcome {A : CSR K} (hA : A.Valid) (hlow : A.LowerTriangular)
    (hnz : ∀ i < A.nrows, A.entry i i ≠ 0) :
    ∃ vals, ilu0 A = .ok ((flatBuild A vals A.nrows).factors A.nrows) ∧
      ∀ r < A.nrows, vals r r = A.entry r r ∧
        ∀ x ∈ A.cols r, x < r → vals r x = A.entry r x * (A.entry x x)⁻¹ := by
  rcases ilu0_outcome hA with ⟨vals, hg, hrun, -⟩ | ⟨-, q, hq, hq0, -⟩
  · refine ⟨vals, hrun, ?_⟩
    intro r hr
    have h1 := elimInv_lower hA hlow hr (hg r hr).1
    refine ⟨h1.1, ?_⟩
    intro x hx hxr
    have hxn : x < A.nrows := by omega
    rw [h1.2 x hx hxr, (elimInv_lower hA hlow hxn (hg x hxn).1).1]
  · exfalso
    obtain ⟨vals, cur, -, hinv, hcur⟩ := pivotAt_spec hA hq hq0
    have := (elimInv_lower hA hlow hq hinv).1
    rw [hcur] at this
    exact hnz q hq this.symm

theorem factors_Ucol_nil {A : CSR K} (hlow : A.LowerTriangular) (vals : Nat → Nat → K) :
    ((flatBuild A vals A.nrows).factors A.nrows).U.col = [] ∧
    ((flatBuild A vals A.nrows).factors A.nrows).U.val = [] :=
  ⟨flatUpto_nil _ fun r hr => upperOf_eq_nil hlow hr,
    flatUpto_nil _ fun r hr => by simp [upperOf_eq_nil hlow hr]⟩

/-- Claim C12 (lower-triangular input): on a valid lower-triangular matrix
with nonzero diagonal the constructor succeeds with `U` empty,
`D[i] = 1/A[i,i]` and `L[i,j] = A[i,j]·(1/A[j,j])` at every stored `j < i`;
on `[[2,0],[4,3]]` it returns `L` with the single entry `(1,0) = 2`, `U`
empty and `D = [1/2, 1/3]`. -/
theorem ilu0_lower_triangular :
    (∀ A : CSR K, A.Valid → A.LowerTriangular → (∀ i < A.nrows, A.entry i i ≠ 0) →
      ∃ F, ilu0 A = .ok F ∧ F.U.col = [] ∧ F.U.val = [] ∧
        (∀ i < A.nrows, F.U.row i = []) ∧
        (∀ i < A.nrows, F.D.getD i 0 = (A.entry i i)⁻¹) ∧
        (∀ i < A.nrows, ∀ j, A.Stored i j → j < i →
          F.L.entry i j = A.entry i j * (A.entry j j)⁻¹)) ∧
    (∃ F : Factors ℚ, ilu0 lower2 = .ok F ∧ F.L.row 0 = [] ∧ F.L.row 1 = [(0, 2)] ∧
      F.L.col.length = 1 ∧ F.U.col = [] ∧ F.D = [1 / 2, 1 / 3]) := by
  refine ⟨?_, lower2Factors, ilu0_lower2, rfl, rfl, rfl, rfl, rfl⟩
  intro A hA hlow hnz
  obtain ⟨vals, hrun, hvals⟩ := lower_triangular_outcome hA hlow hnz
  refine ⟨_, hrun, (factors_Ucol_nil hlow vals).1, (factors_Ucol_nil hlow vals).2, ?_, ?_, ?_⟩
  · intro i hi
    rw [factors_Urow A vals hi, upperOf_eq_nil hlow hi]
    rfl
  · intro i hi
    rw [factors_D A vals hi, (hvals i hi).1]
  · intro i hi j hj hji
    rw [factors_Lentry hA vals hi]
    unfold lentOf
    rw [if_pos (mem_lowerOf.2 ⟨hj, hji⟩)]
    exact (hvals i hi).2 j hj hji

/-- Instance of C12 on `[[2,0],[4,3]]`. -/
theorem ilu0_lower_triangular_witness :
    ∃ F, ilu0 lower2 = .ok F ∧ F.U.col = [] ∧ F.U.val = [] ∧
      (∀ i < lower2.nrows, F.U.row i = []) ∧
      (∀ i < lower2.nrows, F.D.getD i 0 = (lower2.entry i i)⁻¹) ∧
      (∀ i < lower2.nrows, ∀ j, lower2.Stored i j → j < i →
        F.L.entry i j = lower2.entry i j * (lower2.entry j j)⁻¹) :=
  ilu0_lower_triangular.1 lower2 (by decide) (by decide)
    (by
      intro i hi
      have h2 : i < 2 := hi
      interval_cases i <;> norm_num [CSR.entry, valOf, CSR.row, CSR.seg, lower2])

end Triangular

/-! ## Diagonal-only input -/

section DiagonalOnly

variable {K : Type} [Field K] [DecidableEq K]

theorem diagonalOnly_valid {A : CSR K} (hwf : A.WellFormed) (hd : A.DiagonalOnly) :
    A.Valid ∧ A.LowerTriangular := by
  refine ⟨⟨hwf, ?_, ?_, ?_⟩, ?_⟩
  · intro i hi c hc
    rw [hd i hi, List.mem_singleton] at hc
    omega
  · intro i hi
    rw [hd i hi]
    exact List.pairwise_singleton _ _
  · intro i hi
    rw [hd i hi]
    exact List.mem_singleton_self i
  · intro i hi c hc
    rw [hd i hi, List.mem_singleton] at hc
    omega

theorem diagonalOnly_row {A : CSR K} {i : Nat} (h : A.cols i = [i]) :
    A.row i = [(i, A.entry i i)] := by
  unfold CSR.cols at h
  unfold CSR.entry
  cases hrow : A.row i with
  | nil => rw [hrow] at h; cases h
  | cons e t =>
    rw [hrow] at h
    obtain ⟨c, v⟩ := e
    simp only [List.map_cons, List.cons.injEq, List.map_eq_nil_iff] at h
    obtain ⟨h1, h2⟩ := h
    subst h1
    subst h2
    simp [valOf]

theorem rowDot_diagonalOnly {A : CSR K} {i : Nat} (h : A.cols i = [i]) (x : List K) :
    rowDot A i x = A.entry i i * x.getD i 0 := by
  unfold rowDot
  rw [diagonalOnly_row h]
  simp

theorem rowDot_nil {M : CSR K} {i : Nat} (h : M.row i = []) (x : List K) :
    rowDot M i x = 0 := by
  simp [rowDot, h]

/-- With empty `L` and `U` the serial solve multiplies each component by
`D[i]`. -/
theorem serial_solve_diag (L U : CSR K) (D b : List K)
    (hL : ∀ i < L.nrows, L.row i = []) (hU : ∀ i < L.nrows, U.row i = [])
    (hb : b.length = L.nrows) :
    (serial_ilu_solve L U D b).length = L.nrows ∧
    ∀ i < L.nrows, (serial_ilu_solve L U D b).getD i 0 = D.getD i 0 * b.getD i 0 := by
  obtain ⟨f1, -, f3⟩ := forwardPass_spec L
    (fun i hi e he => by rw [hL i hi] at he; cases he) L.nrows 0 b (by omega) hb
  obtain ⟨b1, -, b3⟩ := backwardPass_spec U D
    (fun i hi e he => by rw [hU i hi] at he; cases he) L.nrows
    (forwardPass L 0 L.nrows b) (Nat.le_refl _) f1
  refine ⟨b1, ?_⟩
  intro i hi
  have hf := f3 i (Nat.zero_le _) (by omega)
  rw [rowDot_nil (hL i hi), add_zero] at hf
  have hb3 := b3 i hi
  rw [rowDot_nil (hU i hi), sub_zero, hf] at hb3
  exact hb3

theorem lowerOf_diag (i : Nat) : lowerOf i [i] = [] := by
  simp [lowerOf]

theorem upperOf_diag (i : Nat) : upperOf i [i] = [] := by
  simp [upperOf]

/-- Outcome of the constructor on a diagonal-only matrix with nonzero
diagonal. -/
theorem diagonalOnly_outcome {A : CSR K} (hwf : A.WellFormed) (hd : A.DiagonalOnly)
    (hnz : ∀ i < A.nrows, A.entry i i ≠ 0) :
    ∃ F, ilu0 A = .ok F ∧ F.L.nrows = A.nrows ∧
      (F.L.col = [] ∧ F.L.val = [] ∧ F.U.col = [] ∧ F.U.val = []) ∧
      (∀ i < A.nrows, F.L.row i = [] ∧ F.U.row i = []) ∧
      F.D.length = A.nrows ∧ ∀ i < A.nrows, F.D.getD i 0 = (A.entry i i)⁻¹ := by
  obtain ⟨hA, hlow⟩ := diagonalOnly_valid hwf hd
  obtain ⟨vals, hrun, hvals⟩ := lower_triangular_outcome hA hlow hnz
  refine ⟨_, hrun, rfl, ⟨?_, ?_, (factors_Ucol_nil hlow vals).1, (factors_Ucol_nil hlow vals).2⟩,
    ?_, by simp [Build.factors, flatBuild], ?_⟩
  · exact flatUpto_nil _ fun r hr => by rw [hd r hr]; exact lowerOf_diag r
  · exact flatUpto_nil _ fun r hr => by rw [hd r hr, lowerOf_diag r]; rfl
  · intro i hi
    rw [factors_Lrow A vals hi, factors_Urow A vals hi, hd i hi, lowerOf_diag, upperOf_diag]
    exact ⟨rfl, rfl⟩
  · intro i hi
    rw [factors_D A vals hi, (hvals i hi).1]

theorem serial_solve_identity2 :
    serial_ilu_solve identity2Factors.L identity2Factors.U identity2Factors.D [3, 5] = [3, 5] := by
  norm_num [serial_ilu_solve, forwardPass, backwardPass, rowDot, CSR.row, CSR.seg,
    identity2Factors, List.getD]

theorem ilu0_identity2 : ilu0 identity2 = .ok identity2Factors := by
  norm_num [ilu0, identity2, identity2Factors, countRows, countRow, rowLoop, processRow, scatter,
    eliminate, clear, elimEntry, combine, diagBlock, rd, wr, precondition, Build.init,
    Build.factors, Build.load, Build.store, bind, Except.bind, Except.map, pure, Except.pure]

/-- Claim C13 (diagonal-only input): on a well-formed matrix storing exactly
its diagonal, all entries nonzero, the constructor succeeds with `L` and `U`
empty and `D[i] = 1/A[i,i]`, and the serial `apply` returns the vector with
components `b[i]·D[i]`; on the `2 × 2` identity `D = [1, 1]` and
`apply([3, 5]) = [3, 5]`. -/
theorem ilu0_diagonal_only :
    (∀ A : CSR K, A.WellFormed → A.DiagonalOnly → (∀ i < A.nrows, A.entry i i ≠ 0) →
      ∃ F, ilu0 A = .ok F ∧
        (F.L.col = [] ∧ F.L.val = [] ∧ F.U.col = [] ∧ F.U.val = []) ∧
        F.D.length = A.nrows ∧ (∀ i < A.nrows, F.D.getD i 0 = (A.entry i i)⁻¹) ∧
        ∀ (par : CSR K → CSR K → List K → Nat → List K → List K) (b x : List K)
          (prm : params K), b.length = A.nrows →
          (apply par { fac := F, serial := true } b x prm).length = A.nrows ∧
          ∀ i < A.nrows, (apply par { fac := F, serial := true } b x prm).getD i 0
            = b.getD i 0 * F.D.getD i 0) ∧
    (∃ F : Factors ℚ, ilu0 identity2 = .ok F ∧ F.L.col = [] ∧ F.U.col = [] ∧ F.D = [1, 1] ∧
      ∀ (par : CSR ℚ → CSR ℚ → List ℚ → Nat → List ℚ → List ℚ) (x : List ℚ) (prm : params ℚ),
        apply par { fac := F, serial := true } [3, 5] x prm = [3, 5]) := by
  refine ⟨?_, identity2Factors, ilu0_identity2, rfl, rfl, rfl, ?_⟩
  · intro A hwf hd hnz
    obtain ⟨F, hrun, hn, hempty, hrows, hlen, hD⟩ := diagonalOnly_outcome hwf hd hnz
    refine ⟨F, hrun, hempty, hlen, hD, ?_⟩
    intro par b x prm hb
    have hs := serial_solve_diag F.L F.U F.D b
      (fun i hi => (hrows i (by omega)).1) (fun i hi => (hrows i (by omega)).2) (by omega)
    rw [hn] at hs
    refine ⟨hs.1, ?_⟩
    intro i hi
    show (serial_ilu_solve F.L F.U F.D b).getD i 0 = _
    rw [hs.2 i hi, mul_comm]
  · intro par x prm
    exact serial_solve_identity2

/-- Instance of C13 on the `2 × 2` identity. -/
theorem ilu0_diagonal_only_witness :
    ∃ F, ilu0 identity2 = .ok F ∧
      (F.L.col = [] ∧ F.L.val = [] ∧ F.U.col = [] ∧ F.U.val = []) ∧
      F.D.length = identity2.nrows ∧
      (∀ i < identity2.nrows, F.D.getD i 0 = (identity2.entry i i)⁻¹) ∧
      ∀ (par : CSR ℚ → CSR ℚ → List ℚ → Nat → List ℚ → List ℚ) (b x : List ℚ)
        (prm : params ℚ), b.length = identity2.nrows →
        (apply par { fac := F, serial := true } b x prm).length = identity2.nrows ∧
        ∀ i < identity2.nrows, (apply par { fac := F, serial := true } b x prm).getD i 0
          = b.getD i 0 * F.D.getD i 0 :=
  ilu0_diagonal_only.1 identity2 (by decide) (by decide)
    (by
      intro i hi
      have h2 : i < 2 := hi
      interval_cases i <;> norm_num [CSR.entry, valOf, CSR.row, CSR.seg, identity2])

/-- Claim C14 (diagonal-only smoothing is damped Jacobi): with the factors of
a diagonal-only matrix with nonzero diagonal and the serial strategy,
`apply_pre` and `apply_post` leave
`x[i] + ω·(b[i] − A[i,i]·x[i]) / A[i,i]` in every component. -/
theorem diagonal_only_damped_jacobi (A : CSR K) (hwf : A.WellFormed) (hd : A.DiagonalOnly)
    (hnz : ∀ i < A.nrows, A.entry i i ≠ 0) (F : Factors K) (hF : ilu0 A = .ok F)
    (par : CSR K → CSR K → List K → Nat → List K → List K) (b x : List K) (prm : params K)
    (hx : x.length = A.nrows) (i : Nat) (hi : i < A.nrows) :
    (apply_pre par { fac := F, serial := true } A b x prm).getD i 0
      = x.getD i 0 + prm.damping * (b.getD i 0 - A.entry i i * x.getD i 0) / A.entry i i ∧
    (apply_post par { fac := F, serial := true } A b x prm).getD i 0
      = x.getD i 0 + prm.damping * (b.getD i 0 - A.entry i i * x.getD i 0) / A.entry i i := by
  obtain ⟨F0, hrun, hn, -, hrows, -, hD⟩ := diagonalOnly_outcome hwf hd hnz
  rw [hrun] at hF
  injection hF with hF
  subst hF
  have hres : (residual b A x).length = F0.L.nrows := by simp [residual, hn]
  have hs := serial_solve_diag F0.L F0.U F0.D (residual b A x)
    (fun i hi => (hrows i (by omega)).1) (fun i hi => (hrows i (by omega)).2) hres
  have hpre : (apply_pre par { fac := F0, serial := true } A b x prm).getD i 0
      = x.getD i 0 + prm.damping * (b.getD i 0 - A.entry i i * x.getD i 0) / A.entry i i := by
    show (axpby prm.damping (serial_ilu_solve F0.L F0.U F0.D (residual b A x)) 1 x).getD i 0 = _
    unfold axpby
    rw [getD_map_range _ _ (by omega), hs.2 i (by omega), hD i hi]
    have hr : (residual b A x).getD i 0 = b.getD i 0 - A.entry i i * x.getD i 0 := by
      unfold residual
      rw [getD_map_range _ _ hi, rowDot_diagonalOnly (hd i hi)]
    rw [hr]
    have := hnz i hi
    field_simp
    ring
  exact ⟨hpre, hpre⟩

/-- Instance of C14 on the `2 × 2` identity with `b = [3, 5]`, `x = [1, 1]`. -/
theorem diagonal_only_damped_jacobi_witness :
    (apply_pre (fun _ _ _ _ x => x) { fac := identity2Factors, serial := true } identity2
        [3, 5] [1, 1] {}).getD 0 0
      = ([1, 1] : List ℚ).getD 0 0 + ({} : params ℚ).damping
        * (([3, 5] : List ℚ).getD 0 0 - identity2.entry 0 0 * ([1, 1] : List ℚ).getD 0 0)
        / identity2.entry 0 0 ∧
    (apply_post (fun _ _ _ _ x => x) { fac := identity2Factors, serial := true } identity2
        [3, 5] [1, 1] {}).getD 0 0
      = ([1, 1] : List ℚ).getD 0 0 + ({} : params ℚ).damping
        * (([3, 5] : List ℚ).getD 0 0 - identity2.entry 0 0 * ([1, 1] : List ℚ).getD 0 0)
        / identity2.entry 0 0 :=
  diagonal_only_damped_jacobi identity2 (by decide) (by decide)
    (by
      intro i hi
      have h2 : i < 2 := hi
      interval_cases i <;> norm_num [CSR.entry, valOf, CSR.row, CSR.seg, identity2])
    identity2Factors ilu0_identity2 (fun _ _ _ _ x => x) [3, 5] [1, 1] {} rfl 0 (by decide)

end DiagonalOnly

/-! ## The Jacobi strategy against the serial solve -/

section JacobiSolve

variable {K : Type} [Field K] [DecidableEq K]

theorem eq_of_getD {n : Nat} {a b : List K} (ha : a.length = n) (hb : b.length = n)
    (h : ∀ i < n, a.getD i 0 = b.getD i 0) : a = b := by
  apply List.ext_getElem (by rw [ha, hb])
  intro i h1 h2
  have := h i (by omega)
  simpa [List.getD, List.getElem?_eq_getElem h1, List.getElem?_eq_getElem h2] using this

theorem jacobiL_spec (L : CSR K) {n : Nat} (hn : L.nrows = n)
    (hL : ∀ i < n, ∀ e ∈ L.row i, e.1 < i) (r y : List K)
    (hy : ∀ k < n, y.getD k 0 + rowDot L k y = r.getD k 0) :
    ∀ m k (t : List K), t.length = n → (∀ i < k, i < n → t.getD i 0 = y.getD i 0) →
      (jacobiL L r m t).length = n ∧
      ∀ i < k + m, i < n → (jacobiL L r m t).getD i 0 = y.getD i 0 := by
  intro m
  induction m with
  | zero => intro k t ht h; exact ⟨ht, h⟩
  | succ m ih =>
    intro k t ht h
    rw [jacobiL]
    have hlen : (sweepL L r t).length = n := by simp [sweepL, hn]
    have hstep : ∀ i < k + 1, i < n → (sweepL L r t).getD i 0 = y.getD i 0 := by
      intro i hik hin
      unfold sweepL
      rw [getD_map_range _ _ (by omega)]
      have hdot : rowDot L i t = rowDot L i y := by
        apply rowDot_congr
        intro e he
        have := hL i hin e he
        exact h e.1 (by omega) (by omega)
      rw [hdot, ← hy i hin]
      ring
    obtain ⟨h1, h2⟩ := ih (k + 1) (sweepL L r t) hlen hstep
    refine ⟨h1, ?_⟩
    intro i hi hin
    exact h2 i (by omega) hin

theorem jacobiU_spec (U : CSR K) (D : List K) {n : Nat}
    (hU : ∀ i < n, ∀ e ∈ U.row i, i < e.1 ∧ e.1 < n) (y z : List K)
    (hz : ∀ k < n, z.getD k 0 = D.getD k 0 * (y.getD k 0 - rowDot U k z)) :
    ∀ m k (t : List K), t.length = n → (∀ i, n ≤ i + k → i < n → t.getD i 0 = z.getD i 0) →
      (jacobiU n U D y m t).length = n ∧
      ∀ i, n ≤ i + (k + m) → i < n → (jacobiU n U D y m t).getD i 0 = z.getD i 0 := by
  intro m
  induction m with
  | zero => intro k t ht h; exact ⟨ht, h⟩
  | succ m ih =>
    intro k t ht h
    rw [jacobiU]
    have hlen : (sweepU n U D y t).length = n := by simp [sweepU]
    have hstep : ∀ i, n ≤ i + (k + 1) → i < n → (sweepU n U D y t).getD i 0 = z.getD i 0 := by
      intro i hik hin
      unfold sweepU
      rw [getD_map_range _ _ hin]
      have hdot : rowDot U i t = rowDot U i z := by
        apply rowDot_congr
        intro e he
        have := hU i hin e he
        exact h e.1 (by omega) this.2
      rw [hdot, ← hz i hin]
    obtain ⟨h1, h2⟩ := ih (k + 1) (sweepU n U D y t) hlen hstep
    refine ⟨h1, ?_⟩
    intro i hi hin
    exact h2 i (by omega) hin

/-- With at least `n` sweeps the Jacobi strategy returns the very vector of
the serial substitution. -/
theorem parallel_eq_serial (L U : CSR K) (D r : List K)
    (hL : ∀ i < L.nrows, ∀ e ∈ L.row i, e.1 < i)
    (hU : ∀ i < L.nrows, ∀ e ∈ U.row i, i < e.1 ∧ e.1 < L.nrows)
    (hr : r.length = L.nrows) (m : Nat) (hm : L.nrows ≤ m) :
    parallel_ilu_solve L U D m r = serial_ilu_solve L U D r := by
  obtain ⟨f1, -, f3⟩ := forwardPass_spec L hL L.nrows 0 r (by omega) hr
  obtain ⟨b1, -, b3⟩ := backwardPass_spec U D (fun i hi e he => (hU i hi e he).1) L.nrows
    (forwardPass L 0 L.nrows r) (Nat.le_refl _) f1
  have hy : ∀ k < L.nrows, (forwardPass L 0 L.nrows r).getD k 0
      + rowDot L k (forwardPass L 0 L.nrows r) = r.getD k 0 :=
    fun k hk => f3 k (Nat.zero_le _) (by omega)
  obtain ⟨l1, l2⟩ := jacobiL_spec L rfl hL r (forwardPass L 0 L.nrows r) hy m 0 r hr
    (fun i hi _ => absurd hi (Nat.not_lt_zero i))
  have hlow : jacobiL L r m r = forwardPass L 0 L.nrows r :=
    eq_of_getD l1 f1 fun i hi => l2 i (by omega) hi
  obtain ⟨u1, u2⟩ := jacobiU_spec U D hU (forwardPass L 0 L.nrows r)
    (backwardPass U D L.nrows (forwardPass L 0 L.nrows r)) b3 m 0
    (forwardPass L 0 L.nrows r) f1 (fun i hi hin => by omega)
  unfold parallel_ilu_solve serial_ilu_solve
  dsimp only
  rw [hlow]
  exact eq_of_getD u1 b1 fun i hi => u2 i (by omega) hi

/-- Claim C15 (the Jacobi strategy reaches the serial result): for a strictly
lower `L`, a strictly upper `U` with columns below `n` and a right-hand side of
length `n`, every number `m ≥ n` of sweeps makes the parallel strategy of
`solve` return the same vector as the serial one; for the factors of
`tridiag(-1, 2, -1)` and `m = 10` the two results differ by at most `1e-6`
in every component. -/
theorem jacobi_reaches_serial :
    (∀ (L U : CSR K) (D r : List K), (∀ i < L.nrows, ∀ e ∈ L.row i, e.1 < i) →
      (∀ i < L.nrows, ∀ e ∈ U.row i, i < e.1 ∧ e.1 < L.nrows) → r.length = L.nrows →
      ∀ (m : Nat) (prm : params K), L.nrows ≤ m →
        solve parallel_ilu_solve { fac := { L := L, U := U, D := D }, serial := false }
            { prm with jacobi_iters := m } r
          = solve parallel_ilu_solve { fac := { L := L, U := U, D := D }, serial := true }
            prm r) ∧
    (∀ (r : List ℚ) (i : Nat), r.length = 3 →
      |(solve parallel_ilu_solve { fac := tridiag3Factors, serial := false }
            { jacobi_iters := 10 } r).getD i 0
        - (solve parallel_ilu_solve { fac := tridiag3Factors, serial := true }
            { jacobi_iters := 10 } r).getD i 0| ≤ 1 / 1000000) := by
  refine ⟨?_, ?_⟩
  · intro L U D r hL hU hr m prm hm
    exact parallel_eq_serial L U D r hL hU hr m hm
  · intro r i hr
    have h : solve parallel_ilu_solve { fac := tridiag3Factors, serial := false }
          { jacobi_iters := 10 } r
        = solve parallel_ilu_solve { fac := tridiag3Factors, serial := true }
          { jacobi_iters := 10 } r :=
      parallel_eq_serial tridiag3Factors.L tridiag3Factors.U tridiag3Factors.D r
        (by decide) (by decide) hr 10 (by decide)
    rw [h, sub_self, abs_zero]
    norm_num

/-- Instance of C15 on the factors of `tridiag(-1, 2, -1)`, `r = [1, 0, 0]`
and `m = 3` sweeps. -/
theorem jacobi_reaches_serial_witness :
    solve parallel_ilu_solve
        { fac := { L := tridiag3Factors.L, U := tridiag3Factors.U, D := tridiag3Factors.D },
          serial := false } { ({} : params ℚ) with jacobi_iters := 3 } [1, 0, 0]
      = solve parallel_ilu_solve
        { fac := { L := tridiag3Factors.L, U := tridiag3Factors.U, D := tridiag3Factors.D },
          serial := true } {} [1, 0, 0] :=
  jacobi_reaches_serial.1 tridiag3Factors.L tridiag3Factors.U tridiag3Factors.D [1, 0, 0]
    (by decide) (by decide) rfl 3 {} (by decide)

end JacobiSolve

/-! ## Tridiagonal input -/

section TridiagonalInput

variable {K : Type} [Field K] [DecidableEq K]

theorem tridiagonal_mem {A : CSR K} (htri : A.Tridiagonal) {i : Nat} (hi : i < A.nrows)
    (x : Nat) :
    x ∈ A.cols i ↔ (x + 1 = i ∨ x = i ∨ (x = i + 1 ∧ x < A.nrows)) := by
  rw [htri i hi]
  by_cases h0 : i = 0 <;> by_cases h1 : i + 1 < A.nrows <;>
    simp [h0, h1] <;> omega

theorem tridiagonal_valid {A : CSR K} (hwf : A.WellFormed) (htri : A.Tridiagonal) :
    A.Valid := by
  refine ⟨hwf, ?_, ?_, ?_⟩
  · intro i hi c hc
    have := (tridiagonal_mem htri hi c).1 hc
    omega
  · intro i hi
    rw [htri i hi]
    by_cases h0 : i = 0
    · subst h0
      by_cases h1 : 0 + 1 < A.nrows <;> simp [h1]
    · by_cases h1 : i + 1 < A.nrows <;> simp [h0, h1] <;> omega
  · intro i hi
    exact (tridiagonal_mem htri hi i).2 (Or.inr (Or.inl rfl))

/-- In a tridiagonal matrix every column updated by the linear combination
is present in the row: nothing is dropped. -/
theorem tridiagonal_no_fill {A : CSR K} (htri : A.Tridiagonal) {i : Nat} (hi : i < A.nrows)
    {c : Nat} (hc : c ∈ lowerOf i (A.cols i)) {x : Nat} (hx : x ∈ upperOf c (A.cols c)) :
    x ∈ A.cols i := by
  obtain ⟨hc1, hc2⟩ := mem_lowerOf.1 hc
  obtain ⟨hx1, hx2⟩ := mem_upperOf.1 hx
  have h1 := (tridiagonal_mem htri hi c).1 hc1
  have h2 := (tridiagonal_mem htri (show c < A.nrows by omega) x).1 hx1
  exact (tridiagonal_mem htri hi x).2 (by omega)

/-- Entry `(i, j)` of `(L + I)·(U + diag(1/D))` for the factors laid out from
the row values, as a sum over the column index. -/
theorem product_entry {A : CSR K} (hA : A.Valid) (vals : Nat → Nat → K) (i j : Fin A.nrows) :
    ((((flatBuild A vals A.nrows).factors A.nrows).L.toMatrix A.nrows + 1) *
        (((flatBuild A vals A.nrows).factors A.nrows).U.toMatrix A.nrows
          + Matrix.diagonal fun k : Fin A.nrows =>
              (((flatBuild A vals A.nrows).factors A.nrows).D.getD k 0)⁻¹)) i j
      = ∑ k in Finset.range A.nrows,
          (lentOf A vals i k + if (i : Nat) = k then 1 else 0)
            * (uentOf A vals k j + if k = (j : Nat) then ((vals k k)⁻¹)⁻¹ else 0) := by
  rw [Matrix.mul_apply]
  have hterm : ∀ k : Fin A.nrows,
      ((((flatBuild A vals A.nrows).factors A.nrows).L.toMatrix A.nrows + 1) i k) *
        ((((flatBuild A vals A.nrows).factors A.nrows).U.toMatrix A.nrows
          + Matrix.diagonal fun k : Fin A.nrows =>
              (((flatBuild A vals A.nrows).factors A.nrows).D.getD k 0)⁻¹) k j)
      = (fun k : Nat => (lentOf A vals i k + if (i : Nat) = k then 1 else 0)
          * (uentOf A vals k j + if k = (j : Nat) then ((vals k k)⁻¹)⁻¹ else 0)) k := by
    intro k
    simp only [Matrix.add_apply, Matrix.one_apply, Matrix.diagonal_apply, CSR.toMatrix,
      factors_Lentry hA vals i.2, factors_Uentry hA vals k.2, factors_D A vals k.2,
      Fin.ext_iff]
  rw [Finset.sum_congr rfl fun k _ => hterm k]
  exact Fin.sum_univ_eq_sum_range
    (fun k : Nat => (lentOf A vals i k + if (i : Nat) = k then 1 else 0)
      * (uentOf A vals k j + if k = (j : Nat) then ((vals k k)⁻¹)⁻¹ else 0)) A.nrows

/-- The same sum split into the update sum, the multiplier times the pivot,
the `U` entry and the pivot. -/
theorem product_sum_split {A : CSR K} (hA : A.Valid) (vals : Nat → Nat → K) {i j : Nat}
    (hi : i < A.nrows) (hj : j < A.nrows) :
    (∑ k in Finset.range A.nrows,
      (lentOf A vals i k + if i = k then 1 else 0)
        * (uentOf A vals k j + if k = j then ((vals k k)⁻¹)⁻¹ else 0))
      = partialSum (uentOf A vals) (lowerOf i (A.cols i)) (vals i) j
        + lentOf A vals i j * vals j j + uentOf A vals i j
        + (if i = j then vals i i else 0) := by
  have hnd := hA.nodup hi
  have hlow : ∀ c ∈ lowerOf i (A.cols i), c < A.nrows :=
    fun c hc => hA.2.1 i hi c (mem_lowerOf.1 hc).1
  have e1 : (∑ k in Finset.range A.nrows, lentOf A vals i k * uentOf A vals k j)
      = partialSum (uentOf A vals) (lowerOf i (A.cols i)) (vals i) j := by
    unfold partialSum
    rw [← sum_range_indicator (nodup_lowerOf hnd) hlow]
    apply Finset.sum_congr rfl
    intro k _
    unfold lentOf
    split <;> simp
  have e2 : (∑ k in Finset.range A.nrows,
      lentOf A vals i k * (if k = j then ((vals k k)⁻¹)⁻¹ else 0))
      = lentOf A vals i j * vals j j := by
    simp only [mul_ite, mul_zero]
    rw [Finset.sum_ite_eq' (Finset.range A.nrows) j]
    simp [hj]
  have e3 : (∑ k in Finset.range A.nrows, (if i = k then (1 : K) else 0) * uentOf A vals k j)
      = uentOf A vals i j := by
    simp only [ite_mul, one_mul, zero_mul]
    rw [Finset.sum_ite_eq (Finset.range A.nrows) i]
    simp [hi]
  have e4 : (∑ k in Finset.range A.nrows,
      (if i = k then (1 : K) else 0) * (if k = j then ((vals k k)⁻¹)⁻¹ else 0))
      = if i = j then vals i i else 0 := by
    simp only [ite_mul, one_mul, zero_mul]
    rw [Finset.sum_ite_eq (Finset.range A.nrows) i]
    simp [hi]
  simp only [add_mul, mul_add, Finset.sum_add_distrib]
  rw [e1, e2, e3, e4]
  ring

/-- The factors laid out from good row values are strictly triangular with
columns in range, and `D` is nonzero. -/
theorem factors_triangular {A : CSR K} (hA : A.Valid) {vals : Nat → Nat → K}
    (hg : Good A vals A.nrows) :
    (∀ i < A.nrows, ∀ e ∈ ((flatBuild A vals A.nrows).factors A.nrows).L.row i, e.1 < i) ∧
    (∀ i < A.nrows, ∀ e ∈ ((flatBuild A vals A.nrows).factors A.nrows).U.row i,
      i < e.1 ∧ e.1 < A.nrows) ∧
    (∀ i < A.nrows, ((flatBuild A vals A.nrows).factors A.nrows).D.getD i 0 ≠ 0) := by
  refine ⟨?_, ?_, ?_⟩
  · intro i hi e he
    rw [factors_Lrow A vals hi] at he
    exact (mem_lowerOf.1 (List.of_mem_zip he).1).2
  · intro i hi e he
    rw [factors_Urow A vals hi] at he
    have := mem_upperOf.1 (List.of_mem_zip he).1
    exact ⟨this.2, hA.2.1 i hi e.1 this.1⟩
  · intro i hi
    rw [factors_D A vals hi]
    exact inv_ne_zero (hg i hi).2

theorem toVec_ofFn {n : Nat} (w : Fin n → K) : toVec n (List.ofFn w) = w := by
  funext i
  simp [toVec, List.getD]

/-- Claim C18 (exactness without dropped fill): on a well-formed tridiagonal
matrix on which the constructor succeeds, every column the linear combination
updates is present in the row, `(L + I)·(U + diag(1/D))` equals `A` as a full
matrix, and for every `b` the serial `apply` returns the one `x` with
`A·x = b`. -/
theorem tridiagonal_exact (A : CSR K) (hwf : A.WellFormed) (htri : A.Tridiagonal)
    (F : Factors K) (hF : ilu0 A = .ok F) :
    (∀ i < A.nrows, ∀ c ∈ lowerOf i (A.cols i), ∀ x ∈ upperOf c (A.cols c), x ∈ A.cols i) ∧
    (F.L.toMatrix A.nrows + 1) *
        (F.U.toMatrix A.nrows + Matrix.diagonal fun k : Fin A.nrows => (F.D.getD k 0)⁻¹)
      = A.toMatrix A.nrows ∧
    ∀ (par : CSR K → CSR K → List K → Nat → List K → List K) (b x : List K) (prm : params K),
      b.length = A.nrows →
      (A.toMatrix A.nrows).mulVec
          (toVec A.nrows (apply par { fac := F, serial := true } b x prm)) = toVec A.nrows b ∧
      ∀ z : Fin A.nrows → K, (A.toMatrix A.nrows).mulVec z = toVec A.nrows b →
        z = toVec A.nrows (apply par { fac := F, serial := true } b x prm) := by
  have hA := tridiagonal_valid hwf htri
  rcases ilu0_outcome hA with ⟨vals, hg, hrun, -⟩ | ⟨herr, -⟩
  swap
  · rw [herr] at hF
    cases hF
  rw [hrun] at hF
  injection hF with hF
  subst hF
  have hmat : (((flatBuild A vals A.nrows).factors A.nrows).L.toMatrix A.nrows + 1) *
        (((flatBuild A vals A.nrows).factors A.nrows).U.toMatrix A.nrows
          + Matrix.diagonal fun k : Fin A.nrows =>
              (((flatBuild A vals A.nrows).factors A.nrows).D.getD k 0)⁻¹)
      = A.toMatrix A.nrows := by
    funext i j
    rw [product_entry hA vals i j]
    by_cases hs : (j : Nat) ∈ A.cols i
    · exact row_product hA hg i.2 hs
    · rw [product_sum_split hA vals i.2 j.2]
      have hij : (i : Nat) ≠ j := fun e => hs (e ▸ hA.2.2.2 i i.2)
      have hl : lentOf A vals i j = 0 := by
        unfold lentOf
        rw [if_neg fun e => hs (mem_lowerOf.1 e).1]
      have hu : uentOf A vals i j = 0 := by
        unfold uentOf
        rw [if_neg fun e => hs (mem_upperOf.1 e).1]
      have hp : partialSum (uentOf A vals) (lowerOf i (A.cols i)) (vals i) j = 0 := by
        unfold partialSum
        apply List.sum_eq_zero
        intro t ht
        obtain ⟨c, hc, rfl⟩ := List.mem_map.1 ht
        unfold uentOf
        rw [if_neg fun e => hs (tridiagonal_no_fill htri i.2 hc e), mul_zero]
      rw [hl, hu, hp, if_neg hij]
      simp only [zero_mul, add_zero]
      exact (valOf_of_not_mem hs).symm
  obtain ⟨hL, hU, hD⟩ := factors_triangular hA hg
  have hsolve : ∀ b : List K, b.length = A.nrows →
      (A.toMatrix A.nrows).mulVec (toVec A.nrows
        (serial_ilu_solve ((flatBuild A vals A.nrows).factors A.nrows).L
          ((flatBuild A vals A.nrows).factors A.nrows).U
          ((flatBuild A vals A.nrows).factors A.nrows).D b)) = toVec A.nrows b := by
    intro b hb
    rw [← hmat]
    exact serial_round_trip _ _ _ b hL hU hD hb
  have hsurj : Function.Surjective (A.toMatrix A.nrows).mulVecLin := by
    intro w
    refine ⟨toVec A.nrows (serial_ilu_solve ((flatBuild A vals A.nrows).factors A.nrows).L
      ((flatBuild A vals A.nrows).factors A.nrows).U
      ((flatBuild A vals A.nrows).factors A.nrows).D (List.ofFn w)), ?_⟩
    rw [Matrix.mulVecLin_apply, hsolve (List.ofFn w) (by simp), toVec_ofFn]
  have hinj : Function.Injective (A.toMatrix A.nrows).mulVecLin :=
    LinearMap.injective_iff_surjective.2 hsurj
  refine ⟨fun i hi c hc x hx => tridiagonal_no_fill htri hi hc hx, hmat, ?_⟩
  intro par b x prm hb
  refine ⟨hsolve b hb, ?_⟩
  intro z hz
  apply hinj
  rw [Matrix.mulVecLin_apply, Matrix.mulVecLin_apply, hz]
  exact (hsolve b hb).symm

/-- Instance of C18 on `tridiag(-1, 2, -1)`. -/
theorem tridiagonal_exact_witness :
    (∀ i < tridiag3.nrows, ∀ c ∈ lowerOf i (tridiag3.cols i),
      ∀ x ∈ upperOf c (tridiag3.cols c), x ∈ tridiag3.cols i) ∧
    (tridiag3Factors.L.toMatrix tridiag3.nrows + 1) *
        (tridiag3Factors.U.toMatrix tridiag3.nrows
          + Matrix.diagonal fun k : Fin tridiag3.nrows => (tridiag3Factors.D.getD k 0)⁻¹)
      = tridiag3.toMatrix tridiag3.nrows ∧
    ∀ (par : CSR ℚ → CSR ℚ → List ℚ → Nat → List ℚ → List ℚ) (b x : List ℚ) (prm : params ℚ),
      b.length = tridiag3.nrows →
      (tridiag3.toMatrix tridiag3.nrows).mulVec
          (toVec tridiag3.nrows (apply par { fac := tridiag3Factors, serial := true } b x prm))
        = toVec tridiag3.nrows b ∧
      ∀ z : Fin tridiag3.nrows → ℚ,
        (tridiag3.toMatrix tridiag3.nrows).mulVec z = toVec tridiag3.nrows b →
        z = toVec tridiag3.nrows
          (apply par { fac := tridiag3Factors, serial := true } b x prm) :=
  tridiagonal_exact tridiag3 (by decide) (by decide) tridiag3Factors ilu0_tridiag3

end TridiagonalInput

/-! ## The frame of the elimination pass -/

section Frame

variable {K : Type} [Field K] [DecidableEq K]

theorem store_frame {s s1 : Build K} {p : Slot} {x : K} (h : s.store p x = .ok s1) :
    s1.frame = s.frame := by
  have hsh := store_shape h
  cases p with
  | inL k =>
    simp only [Build.store, Except.map] at h
    cases hw : wr s.Lval k x with
    | error e => rw [hw] at h; cases h
    | ok v =>
      rw [hw] at h
      injection h with h
      subst h
      simp only [Build.frame, hsh]
  | inD k =>
    simp only [Build.store, Except.map] at h
    cases hw : wr s.D k x with
    | error e => rw [hw] at h; cases h
    | ok v =>
      rw [hw] at h
      injection h with h
      subst h
      have := (wr_eq_ok_iff.1 hw).2
      simp [Build.frame, Build.shape, this]
  | inU k =>
    simp only [Build.store, Except.map] at h
    cases hw : wr s.Uval k x with
    | error e => rw [hw] at h; cases h
    | ok v =>
      rw [hw] at h
      injection h with h
      subst h
      simp only [Build.frame, hsh]

theorem combine_frame (tl : K) :
    ∀ cnt k (s s1 : Build K), combine tl k cnt s = .ok s1 → s1.frame = s.frame := by
  intro cnt
  induction cnt with
  | zero =>
    intro k s s1 h
    simp only [combine] at h
    injection h with h
    rw [h]
  | succ cnt ih =>
    intro k s s1 h
    rw [combine] at h
    obtain ⟨uc, -, h⟩ := bind_eq_ok h
    obtain ⟨w, -, h⟩ := bind_eq_ok h
    cases w with
    | none => exact ih (k + 1) s s1 h
    | some p =>
      dsimp only at h
      obtain ⟨x, -, h⟩ := bind_eq_ok h
      obtain ⟨u, -, h⟩ := bind_eq_ok h
      obtain ⟨s2, hst, h⟩ := bind_eq_ok h
      rw [ih (k + 1) s2 s1 h, store_frame hst]

theorem elimEntry_frame {c : Nat} {s s1 : Build K} (h : elimEntry c s = .ok s1) :
    s1.frame = s.frame := by
  unfold elimEntry at h
  obtain ⟨w, -, h⟩ := bind_eq_ok h
  cases w with
  | none => cases h
  | some p =>
    dsimp only at h
    obtain ⟨x, -, h⟩ := bind_eq_ok h
    obtain ⟨dc, -, h⟩ := bind_eq_ok h
    obtain ⟨s2, hst, h⟩ := bind_eq_ok h
    obtain ⟨k0, -, h⟩ := bind_eq_ok h
    obtain ⟨k1, -, h⟩ := bind_eq_ok h
    rw [combine_frame _ _ _ _ _ h, store_frame hst]

theorem diagBlock_frame {i c : Nat} {s s1 : Build K} (h : diagBlock i c s = .ok s1) :
    s1.frame = s.frame := by
  unfold diagBlock at h
  obtain ⟨-, -, h⟩ := bind_eq_ok h
  obtain ⟨d, -, h⟩ := bind_eq_ok h
  obtain ⟨-, -, h⟩ := bind_eq_ok h
  obtain ⟨D1, hw, h⟩ := bind_eq_ok h
  injection h with h
  subst h
  have := (wr_eq_ok_iff.1 hw).2
  simp [Build.frame, Build.shape, this]

theorem elimUntilDiag_frame (A : CSR K) (i : Nat) :
    ∀ cnt j (s : Build K) (r : Build K × Option Nat),
      elimUntilDiag A i j cnt s = .ok r → r.1.frame = s.frame := by
  intro cnt
  induction cnt with
  | zero =>
    intro j s r h
    simp only [elimUntilDiag] at h
    injection h with h
    rw [← h]
  | succ cnt ih =>
    intro j s r h
    rw [elimUntilDiag] at h
    obtain ⟨c, -, h⟩ := bind_eq_ok h
    by_cases hc : c ≥ i
    · rw [if_pos hc] at h
      injection h with h
      rw [← h]
    · rw [if_neg hc] at h
      obtain ⟨s2, he, h⟩ := bind_eq_ok h
      rw [ih (j + 1) s2 r h, elimEntry_frame he]

theorem eliminate_frame (A : CSR K) (i : Nat) {j cnt : Nat} {s s1 : Build K}
    (h : eliminate A i j cnt s = .ok s1) : s1.frame = s.frame := by
  rw [eliminate_eq_untilDiag] at h
  obtain ⟨r, hr, h⟩ := bind_eq_ok h
  have h1 := elimUntilDiag_frame A i cnt j s r hr
  cases hr2 : r.2 with
  | none =>
    rw [hr2] at h
    injection h with h
    rw [← h, h1]
  | some c =>
    rw [hr2] at h
    rw [diagBlock_frame h, h1]

theorem frame_work {s s1 : Build K} (h : s1.frame = s.frame) : s1.work = s.work := by
  simp only [Build.frame, Prod.mk.injEq] at h
  exact h.2.1

end Frame

/-! ## The work table through a row -/

section WorkTable2

variable {K : Type} [Field K] [DecidableEq K]

theorem present_set_some (w : List (Option Slot)) {c : Nat} (hc : c < w.length) (p : Slot)
    (x : Nat) : present (w.set c (some p)) x ↔ (x = c ∨ present w x) := by
  unfold present
  rw [List.getElem?_set]
  by_cases hxc : c = x
  · subst hxc
    simp [hc]
  · simp [hxc, Ne.symm hxc]

theorem present_set_none (w : List (Option Slot)) {c : Nat} (x : Nat) :
    present (w.set c none) x ↔ (present w x ∧ x ≠ c) := by
  unfold present
  rw [List.getElem?_set]
  by_cases hxc : c = x
  · subst hxc
    by_cases hc : c < w.length <;> simp [hc]
  · simp [hxc, Ne.symm hxc]

/-- A completed scatter pass made present exactly the columns it walked
over, on top of what was present before. -/
theorem scatter_work (A : CSR K) (i : Nat) (hv : A.val.length = A.col.length) :
    ∀ cnt j (s s1 : Build K), j + cnt ≤ A.col.length → scatter A i j cnt s = .ok s1 →
      s1.work.length = s.work.length ∧
      ∀ x, present s1.work x ↔ (x ∈ (A.seg j cnt).map Prod.fst ∨ present s.work x) := by
  intro cnt
  induction cnt with
  | zero =>
    intro j s s1 _ h
    simp only [scatter] at h
    injection h with h
    subst h
    simp [CSR.seg_zero]
  | succ cnt ih =>
    intro j s s1 hj h
    obtain ⟨c, v, hc, hv', hseg⟩ := A.seg_succ j cnt hv (by omega)
    rw [scatter, rd_of_getElem? hc, ok_bind, rd_of_getElem? hv', ok_bind] at h
    rw [hseg]
    have key : ∀ (p : Slot) (s2 : Build K), s2.work = s.work.set c (some p) →
        c < s.work.length → scatter A i (j + 1) cnt s2 = .ok s1 →
        s1.work.length = s.work.length ∧
        ∀ x, present s1.work x ↔
          (x ∈ ((c, v) :: A.seg (j + 1) cnt).map Prod.fst ∨ present s.work x) := by
      intro p s2 hw hcw h2
      obtain ⟨h3, h4⟩ := ih (j + 1) s2 s1 (by omega) h2
      refine ⟨by rw [h3, hw]; simp, ?_⟩
      intro x
      rw [h4 x, hw, present_set_some _ hcw]
      simp only [List.map_cons, List.mem_cons]
      tauto
    by_cases h1 : c < i
    · rw [if_pos h1] at h
      by_cases hcap : s.Lcol.length < s.Lnz
      · rw [if_pos hcap] at h
        obtain ⟨w, hw, h⟩ := bind_eq_ok h
        obtain ⟨hcw, hw⟩ := wr_eq_ok_iff.1 hw
        exact key _ _ hw hcw h
      · rw [if_neg hcap] at h
        cases h
    · rw [if_neg h1] at h
      by_cases h2 : c = i
      · rw [if_pos h2] at h
        obtain ⟨w, hw, h⟩ := bind_eq_ok h
        obtain ⟨hcw, hw⟩ := wr_eq_ok_iff.1 hw
        exact key _ _ hw hcw h
      · rw [if_neg h2] at h
        by_cases hcap : s.Ucol.length < s.Unz
        · rw [if_pos hcap] at h
          obtain ⟨w, hw, h⟩ := bind_eq_ok h
          obtain ⟨hcw, hw⟩ := wr_eq_ok_iff.1 hw
          exact key _ _ hw hcw h
        · rw [if_neg hcap] at h
          cases h

/-- A completed clear pass left present what was present outside the
columns it walked over. -/
theorem clear_work (A : CSR K) (hv : A.val.length = A.col.length) :
    ∀ cnt j (s s1 : Build K), j + cnt ≤ A.col.length → clear A j cnt s = .ok s1 →
      s1.work.length = s.work.length ∧
      ∀ x, present s1.work x ↔ (present s.work x ∧ x ∉ (A.seg j cnt).map Prod.fst) := by
  intro cnt
  induction cnt with
  | zero =>
    intro j s s1 _ h
    simp only [clear] at h
    injection h with h
    subst h
    simp [CSR.seg_zero]
  | succ cnt ih =>
    intro j s s1 hj h
    obtain ⟨c, v, hc, -, hseg⟩ := A.seg_succ j cnt hv (by omega)
    rw [clear, rd_of_getElem? hc, ok_bind] at h
    obtain ⟨w, hw, h⟩ := bind_eq_ok h
    obtain ⟨hcw, hw⟩ := wr_eq_ok_iff.1 hw
    subst hw
    obtain ⟨h3, h4⟩ := ih (j + 1) _ s1 (by omega) h
    rw [hseg]
    refine ⟨by rw [h3]; simp, ?_⟩
    intro x
    rw [h4 x]
    show present (s.work.set c none) x ∧ _ ↔ _
    rw [present_set_none]
    simp only [List.map_cons, List.mem_cons]
    tauto

theorem all_absent_iff {w : List (Option Slot)} {n : Nat} (hl : w.length = n) :
    w = List.replicate n none ↔ ∀ x, ¬ present w x := by
  constructor
  · intro h x hp
    obtain ⟨p, hp⟩ := hp
    rw [h, List.getElem?_replicate] at hp
    split at hp <;> simp at hp
  · intro h
    apply eq_replicate_none hl
    intro x hx
    rw [List.getElem?_eq_getElem (by omega)]
    cases hw : w[x] with
    | none => rfl
    | some p =>
      exfalso
      exact h x ⟨p, by rw [List.getElem?_eq_getElem (by omega), hw]⟩

/-- Through a completed row the work table goes from all absent to exactly
the row's columns present and back to all absent. -/
theorem processRow_work {A : CSR K} (hwf : A.WellFormed) {i : Nat} (hi : i < A.nrows)
    {s s1 : Build K} (hs : s.work = List.replicate A.nrows none)
    (h : processRow A i s = .ok s1) : s1.work = List.replicate A.nrows none := by
  unfold processRow at h
  rw [hwf.rd_ptr (Nat.le_of_lt hi), ok_bind, hwf.rd_ptr (i := i + 1) (by omega), ok_bind] at h
  obtain ⟨s2, hsc, h⟩ := bind_eq_ok h
  dsimp only at h
  obtain ⟨s3, hel, h⟩ := bind_eq_ok h
  obtain ⟨a1, a2⟩ := scatter_work A i hwf.2.1 _ _ s s2 (hwf.row_end hi) hsc
  have e2 := frame_work (eliminate_frame A i hel)
  obtain ⟨c1, c2⟩ := clear_work A hwf.2.1 _ _ s3 s1 (hwf.row_end hi) h
  have hlen : s.work.length = A.nrows := by rw [hs]; simp
  have hl1 : s1.work.length = A.nrows := by
    rw [c1, e2]
    show s2.work.length = _
    rw [a1, hlen]
  rw [all_absent_iff hl1]
  intro x hx
  have h1 := (c2 x).1 hx
  rw [e2] at h1
  have h2 : present s2.work x := h1.1
  rcases (a2 x).1 h2 with h3 | h3
  · exact h1.2 h3
  · exact (all_absent_iff hlen).1 hs x h3

theorem rowLoop_work {A : CSR K} (hwf : A.WellFormed) :
    ∀ r, r ≤ A.nrows → ∀ s : Build K,
      rowLoop A 0 r (Build.init A.nrows A.lowerCount A.upperCount) = .ok s →
      s.work = List.replicate A.nrows none := by
  intro r
  induction r with
  | zero =>
    intro _ s h
    simp only [rowLoop] at h
    injection h with h
    subst h
    rfl
  | succ r ih =>
    intro hr s h
    rw [rowLoop_snoc] at h
    obtain ⟨s0, h0, h⟩ := bind_eq_ok h
    rw [Nat.zero_add] at h
    exact processRow_work hwf (by omega) (ih (by omega) s0 h0) h

end WorkTable2

/-! ## Safety of the elimination pass on any row -/

section ElimSafety

variable {K : Type} [Field K] [DecidableEq K]

theorem frame_fields {s s1 : Build K} (h : s1.frame = s.frame) :
    s1.Lcol = s.Lcol ∧ s1.Ucol = s.Ucol ∧ s1.Lptr = s.Lptr ∧ s1.Uptr = s.Uptr ∧
    s1.Lval.length = s.Lval.length ∧ s1.Uval.length = s.Uval.length ∧ s1.work = s.work ∧
    s1.D.length = s.D.length ∧ s1.Lnz = s.Lnz ∧ s1.Unz = s.Unz := by
  simp only [Build.frame, Build.shape, Prod.mk.injEq] at h
  obtain ⟨⟨a1, a2, a3, a4, a5, a6⟩, a7, a8, a9, a10⟩ := h
  exact ⟨a1, a2, a3, a4, a5, a6, a7, a8, a9, a10⟩

theorem elimSafe_of_frame {n i : Nat} {s s1 : Build K} (h : s1.frame = s.frame)
    (hs : ElimSafe n i s) : ElimSafe n i s1 := by
  obtain ⟨a1, a2, a3, a4, a5, a6, a7, a8, a9, a10⟩ := frame_fields h
  refine ⟨by rw [a7]; exact hs.work_length, ?_, by rw [a8]; exact hs.D_length,
    by rw [a4]; exact hs.Uptr_length, by rw [a4, a2]; exact hs.Urows,
    by rw [a6, a2]; exact hs.Uval_length, by rw [a2]; exact hs.Ucols⟩
  intro x p hp
  rw [a7] at hp
  have := hs.valid x p hp
  cases p with
  | inL k => show k < s1.Lval.length; rw [a5]; exact this
  | inD k => show k < s1.D.length; rw [a8]; exact this
  | inU k => show k < s1.Uval.length; rw [a6]; exact this

theorem load_ok {s : Build K} {p : Slot} (h : s.validSlot p) : ∃ v, s.load p = .ok v := by
  cases p with
  | inL k => exact ⟨_, rd_getD 0 h⟩
  | inD k => exact ⟨_, rd_getD 0 h⟩
  | inU k => exact ⟨_, rd_getD 0 h⟩

theorem store_ok {s : Build K} {p : Slot} (h : s.validSlot p) (y : K) :
    ∃ s1, s.store p y = .ok s1 := by
  cases p with
  | inL k => exact ⟨_, by simp only [Build.store]; rw [wr_of_lt _ h]; rfl⟩
  | inD k => exact ⟨_, by simp only [Build.store]; rw [wr_of_lt _ h]; rfl⟩
  | inU k => exact ⟨_, by simp only [Build.store]; rw [wr_of_lt _ h]; rfl⟩

theorem rd_work_cases {w : List (Option Slot)} {x : Nat} (hx : x < w.length) :
    rd w x = .ok none ∨ ∃ p, rd w x = .ok (some p) ∧ w[x]? = some (some p) := by
  have h := List.getElem?_eq_getElem hx
  cases hw : w[x] with
  | none => left; apply rd_of_getElem?; rw [h, hw]
  | some p => right; exact ⟨p, by apply rd_of_getElem?; rw [h, hw], by rw [h, hw]⟩

theorem combine_ok {n i : Nat} (tl : K) :
    ∀ cnt k (s : Build K), ElimSafe n i s → k + cnt ≤ s.Ucol.length →
      ∃ s1, combine tl k cnt s = .ok s1 := by
  intro cnt
  induction cnt with
  | zero => intro k s _ _; exact ⟨s, rfl⟩
  | succ cnt ih =>
    intro k s hs hk
    have hk1 : k < s.Ucol.length := by omega
    have huc : s.Ucol[k] < s.work.length := by
      rw [hs.work_length]
      exact hs.Ucols _ (List.getElem_mem _)
    rw [combine, rd_of_getElem? (List.getElem?_eq_getElem hk1), ok_bind]
    rcases rd_work_cases huc with hw | ⟨p, hw, hp⟩
    · rw [hw, ok_bind]
      exact ih (k + 1) s hs (by omega)
    · rw [hw, ok_bind]
      dsimp only
      have hv := hs.valid _ p hp
      obtain ⟨x, hx⟩ := load_ok hv
      have hk2 : k < s.Uval.length := by rw [hs.Uval_length]; exact hk1
      obtain ⟨s1, hs1⟩ := store_ok hv (x - tl * s.Uval.getD k 0)
      rw [hx, ok_bind, rd_getD 0 hk2, ok_bind, hs1, ok_bind]
      have hf := store_frame hs1
      exact ih (k + 1) s1 (elimSafe_of_frame hf hs) (by rw [(frame_fields hf).2.1]; omega)

theorem elimEntry_ok {n i : Nat} {s : Build K} (hs : ElimSafe n i s) {c : Nat} (hc : c < i)
    (hp : present s.work c) : ∃ s1, elimEntry c s = .ok s1 := by
  obtain ⟨p, hp⟩ := hp
  have hv := hs.valid c p hp
  obtain ⟨x, hx⟩ := load_ok hv
  have hD := hs.D_length
  have hdc : c < s.D.length := by omega
  obtain ⟨s1, hs1⟩ := store_ok hv (x * s.D.getD c 0)
  have hf := store_frame hs1
  have hs' := elimSafe_of_frame hf hs
  have hU := hs'.Uptr_length
  unfold elimEntry
  rw [rd_of_getElem? hp, ok_bind]
  dsimp only
  rw [hx, ok_bind, rd_getD 0 hdc, ok_bind, hs1, ok_bind, rd_getD 0 (show c < s1.Uptr.length by omega),
    ok_bind, rd_getD 0 (show c + 1 < s1.Uptr.length by omega), ok_bind]
  exact combine_ok _ _ _ s1 hs' (hs'.Urows c hc)

theorem firstGE_cons (i c : Nat) (cs : List Nat) :
    firstGE i (c :: cs) = if i ≤ c then some c else firstGE i cs := by
  unfold firstGE
  rw [List.find?_cons]
  by_cases h : i ≤ c <;> simp [h]

/-- Under the safety conditions the elimination pass eliminates the entries
below the diagonal and stops at the first column `c ≥ i`, or runs out of
entries. -/
theorem elimUntilDiag_ok (A : CSR K) {n i : Nat} (hv : A.val.length = A.col.length) :
    ∀ cnt j (s : Build K), ElimSafe n i s → j + cnt ≤ A.col.length →
      (∀ c ∈ (A.seg j cnt).map Prod.fst, present s.work c) →
      ∃ s3, elimUntilDiag A i j cnt s = .ok (s3, firstGE i ((A.seg j cnt).map Prod.fst)) := by
  intro cnt
  induction cnt with
  | zero =>
    intro j s _ _ _
    exact ⟨s, by simp [elimUntilDiag, CSR.seg_zero, firstGE]⟩
  | succ cnt ih =>
    intro j s hs hj hp
    obtain ⟨c, v, hc, -, hseg⟩ := A.seg_succ j cnt hv (by omega)
    rw [hseg] at hp ⊢
    rw [elimUntilDiag, rd_of_getElem? hc, ok_bind, List.map_cons, firstGE_cons]
    by_cases hci : i ≤ c
    · rw [if_pos hci, if_pos hci]
      exact ⟨s, rfl⟩
    · rw [if_neg hci, if_neg hci]
      obtain ⟨s1, hs1⟩ := elimEntry_ok hs (show c < i by omega)
        (hp c (by simp))
      rw [hs1, ok_bind]
      have hf := elimEntry_frame hs1
      apply ih (j + 1) s1 (elimSafe_of_frame hf hs) (by omega)
      intro x hx
      rw [(frame_fields hf).2.2.2.2.2.2.1]
      exact hp x (by simp only [List.map_cons, List.mem_cons]; exact Or.inr hx)

/-- The scatter pass completes when the columns index the work table and
the capacities suffice. -/
theorem scatter_ok (A : CSR K) (i : Nat) (hv : A.val.length = A.col.length) :
    ∀ cnt j (s : Build K), j + cnt ≤ A.col.length →
      (∀ c ∈ (A.seg j cnt).map Prod.fst, c < s.work.length) →
      s.Lcol.length + (lowerOf i ((A.seg j cnt).map Prod.fst)).length ≤ s.Lnz →
      s.Ucol.length + (upperOf i ((A.seg j cnt).map Prod.fst)).length ≤ s.Unz →
      ∃ s1, scatter A i j cnt s = .ok s1 := by
  intro cnt
  induction cnt with
  | zero => intro j s _ _ _ _; exact ⟨s, rfl⟩
  | succ cnt ih =>
    intro j s hj hin hL hU
    obtain ⟨c, v, hc, hv', hseg⟩ := A.seg_succ j cnt hv (by omega)
    rw [hseg] at hin hL hU
    simp only [List.map_cons, List.mem_cons, forall_eq_or_imp] at hin
    obtain ⟨hcw, hin'⟩ := hin
    rw [scatter, rd_of_getElem? hc, ok_bind, rd_of_getElem? hv', ok_bind]
    by_cases h1 : c < i
    · have hl : lowerOf i (c :: (A.seg (j + 1) cnt).map Prod.fst)
          = c :: lowerOf i ((A.seg (j + 1) cnt).map Prod.fst) := by simp [lowerOf, h1]
      have hu : upperOf i (c :: (A.seg (j + 1) cnt).map Prod.fst)
          = upperOf i ((A.seg (j + 1) cnt).map Prod.fst) := by
        simp [upperOf, Nat.lt_asymm h1]
      simp only [List.map_cons, hl, hu, List.length_cons] at hL hU
      rw [if_pos h1, if_pos (show s.Lcol.length < s.Lnz by omega), wr_of_lt _ hcw, ok_bind]
      exact ih (j + 1) _ (by omega) (by simpa using hin') (by simp; omega) (by simpa using hU)
    · rw [if_neg h1]
      by_cases h2 : c = i
      · have hl : lowerOf i (c :: (A.seg (j + 1) cnt).map Prod.fst)
            = lowerOf i ((A.seg (j + 1) cnt).map Prod.fst) := by simp [lowerOf, h1]
        have hu : upperOf i (c :: (A.seg (j + 1) cnt).map Prod.fst)
            = upperOf i ((A.seg (j + 1) cnt).map Prod.fst) := by simp [upperOf, h2]
        simp only [List.map_cons, hl, hu] at hL hU
        rw [if_pos h2, wr_of_lt _ hcw, ok_bind]
        exact ih (j + 1) _ (by omega) (by simpa using hin') (by simpa using hL)
          (by simpa using hU)
      · have h3 : i < c := by omega
        have hl : lowerOf i (c :: (A.seg (j + 1) cnt).map Prod.fst)
            = lowerOf i ((A.seg (j + 1) cnt).map Prod.fst) := by simp [lowerOf, h1]
        have hu : upperOf i (c :: (A.seg (j + 1) cnt).map Prod.fst)
            = c :: upperOf i ((A.seg (j + 1) cnt).map Prod.fst) := by simp [upperOf, h3]
        simp only [List.map_cons, hl, hu, List.length_cons] at hL hU
        rw [if_neg h2, if_pos (show s.Ucol.length < s.Unz by omega), wr_of_lt _ hcw, ok_bind]
        exact ih (j + 1) _ (by omega) (by simpa using hin') (by simpa using hL)
          (by simp; omega)

theorem getElem?_set_some {w : List (Option Slot)} {c x : Nat} {q p : Slot}
    (h : (w.set c (some q))[x]? = some (some p)) : p = q ∨ w[x]? = some (some p) := by
  rw [List.getElem?_set] at h
  by_cases hcx : c = x
  · rw [if_pos hcx] at h
    by_cases hl : c < w.length
    · rw [if_pos hl] at h
      injection h with h
      injection h with h
      exact Or.inl h.symm
    · rw [if_neg hl] at h
      cases h
  · rw [if_neg hcx] at h
    exact Or.inr h

/-- A completed scatter pass keeps the work pointers valid, keeps the
capacities and grows `D` by the number of diagonal entries of the segment. -/
theorem scatter_valid (A : CSR K) (i : Nat) (hv : A.val.length = A.col.length) :
    ∀ cnt j (s s1 : Build K), j + cnt ≤ A.col.length → scatter A i j cnt s = .ok s1 →
      s.Lval.length = s.Lcol.length → s.Uval.length = s.Ucol.length →
      (∀ (x : Nat) (p : Slot), s.work[x]? = some (some p) → s.validSlot p) →
      (∀ (x : Nat) (p : Slot), s1.work[x]? = some (some p) → s1.validSlot p) ∧
      s1.D.length = s.D.length
        + (((A.seg j cnt).map Prod.fst).filter fun c => decide (c = i)).length ∧
      s1.Lnz = s.Lnz ∧ s1.Unz = s.Unz := by
  intro cnt
  induction cnt with
  | zero =>
    intro j s s1 _ h _ _ hval
    simp only [scatter] at h
    injection h with h
    subst h
    exact ⟨hval, by simp [CSR.seg_zero], rfl, rfl⟩
  | succ cnt ih =>
    intro j s s1 hj h hLl hUl hval
    obtain ⟨c, v, hc, hv', hseg⟩ := A.seg_succ j cnt hv (by omega)
    rw [scatter, rd_of_getElem? hc, ok_bind, rd_of_getElem? hv', ok_bind] at h
    rw [hseg]
    by_cases h1 : c < i
    · rw [if_pos h1] at h
      by_cases hcap : s.Lcol.length < s.Lnz
      · rw [if_pos hcap] at h
        obtain ⟨w, hw, h⟩ := bind_eq_ok h
        obtain ⟨hcw, hw⟩ := wr_eq_ok_iff.1 hw
        subst hw
        have := ih (j + 1) _ s1 (by omega) h (by simp [hLl]) hUl
          (by
            intro x p hp
            rcases getElem?_set_some hp with hp | hp
            · subst hp
              show s.Lcol.length < (s.Lval ++ [v]).length
              simp [hLl]
            · have := hval x p hp
              cases p with
              | inL k => show k < (s.Lval ++ [v]).length; simp; exact Nat.lt_succ_of_lt this
              | inD k => exact this
              | inU k => exact this)
        refine ⟨this.1, ?_, this.2.2.1, this.2.2.2⟩
        rw [this.2.1]
        have hne : ¬ c = i := by omega
        simp [List.filter_cons, hne]
      · rw [if_neg hcap] at h
        cases h
    · rw [if_neg h1] at h
      by_cases h2 : c = i
      · rw [if_pos h2] at h
        obtain ⟨w, hw, h⟩ := bind_eq_ok h
        obtain ⟨hcw, hw⟩ := wr_eq_ok_iff.1 hw
        subst hw
        have := ih (j + 1) _ s1 (by omega) h hLl hUl
          (by
            intro x p hp
            rcases getElem?_set_some hp with hp | hp
            · subst hp
              show s.D.length < (s.D ++ [v]).length
              simp
            · have := hval x p hp
              cases p with
              | inL k => exact this
              | inD k => show k < (s.D ++ [v]).length; simp; exact Nat.lt_succ_of_lt this
              | inU k => exact this)
        refine ⟨this.1, ?_, this.2.2.1, this.2.2.2⟩
        rw [this.2.1]
        simp [List.filter_cons, h2]
        omega
      · rw [if_neg h2] at h
        by_cases hcap : s.Ucol.length < s.Unz
        · rw [if_pos hcap] at h
          obtain ⟨w, hw, h⟩ := bind_eq_ok h
          obtain ⟨hcw, hw⟩ := wr_eq_ok_iff.1 hw
          subst hw
          have := ih (j + 1) _ s1 (by omega) h hLl (by simp [hUl])
            (by
              intro x p hp
              rcases getElem?_set_some hp with hp | hp
              · subst hp
                show s.Ucol.length < (s.Uval ++ [v]).length
                simp [hUl]
              · have := hval x p hp
                cases p with
                | inL k => exact this
                | inD k => exact this
                | inU k => show k < (s.Uval ++ [v]).length; simp; exact Nat.lt_succ_of_lt this)
          refine ⟨this.1, ?_, this.2.2.1, this.2.2.2⟩
          rw [this.2.1]
          simp [List.filter_cons, h2]
        · rw [if_neg hcap] at h
          cases h

end ElimSafety

/-! ## Which errors the passes of a row can raise -/

section ErrorKinds

variable {K : Type} [Field K] [DecidableEq K]

theorem bind_eq_error {α β : Type} {x : Except Failure α} {f : α → Except Failure β}
    {e : Failure} (h : (x >>= f) = .error e) :
    x = .error e ∨ ∃ a, x = .ok a ∧ f a = .error e := by
  cases x with
  | error e2 =>
    left
    injection h with h
    rw [h]
  | ok a => exact Or.inr ⟨a, rfl, h⟩

theorem load_error {s : Build K} {p : Slot} {e : Failure} (h : s.load p = .error e) :
    e = .undefined := by
  cases p <;> exact rd_error h

theorem store_error {s : Build K} {p : Slot} {x : K} {e : Failure}
    (h : s.store p x = .error e) : e = .undefined := by
  cases p with
  | inL k =>
    simp only [Build.store] at h
    cases hw : wr s.Lval k x with
    | error e2 => rw [hw] at h; injection h with h; rw [← h]; exact wr_error hw
    | ok v => rw [hw] at h; cases h
  | inD k =>
    simp only [Build.store] at h
    cases hw : wr s.D k x with
    | error e2 => rw [hw] at h; injection h with h; rw [← h]; exact wr_error hw
    | ok v => rw [hw] at h; cases h
  | inU k =>
    simp only [Build.store] at h
    cases hw : wr s.Uval k x with
    | error e2 => rw [hw] at h; injection h with h; rw [← h]; exact wr_error hw
    | ok v => rw [hw] at h; cases h

theorem combine_error (tl : K) :
    ∀ cnt k (s : Build K) (e : Failure), combine tl k cnt s = .error e → e = .undefined := by
  intro cnt
  induction cnt with
  | zero => intro k s e h; cases h
  | succ cnt ih =>
    intro k s e h
    rw [combine] at h
    rcases bind_eq_error h with h | ⟨uc, -, h⟩
    · exact rd_error h
    rcases bind_eq_error h with h | ⟨w, -, h⟩
    · exact rd_error h
    cases w with
    | none => exact ih _ _ _ h
    | some p =>
      dsimp only at h
      rcases bind_eq_error h with h | ⟨x, -, h⟩
      · exact load_error h
      rcases bind_eq_error h with h | ⟨u, -, h⟩
      · exact rd_error h
      rcases bind_eq_error h with h | ⟨s1, -, h⟩
      · exact store_error h
      exact ih _ _ _ h

theorem elimEntry_error {c : Nat} {s : Build K} {e : Failure} (h : elimEntry c s = .error e) :
    e = .undefined := by
  unfold elimEntry at h
  rcases bind_eq_error h with h | ⟨w, -, h⟩
  · exact rd_error h
  cases w with
  | none => injection h with h; exact h.symm
  | some p =>
    dsimp only at h
    rcases bind_eq_error h with h | ⟨x, -, h⟩
    · exact load_error h
    rcases bind_eq_error h with h | ⟨d, -, h⟩
    · exact rd_error h
    rcases bind_eq_error h with h | ⟨s1, -, h⟩
    · exact store_error h
    rcases bind_eq_error h with h | ⟨b, -, h⟩
    · exact rd_error h
    rcases bind_eq_error h with h | ⟨b2, -, h⟩
    · exact rd_error h
    exact combine_error _ _ _ _ _ h

theorem elimUntilDiag_error (A : CSR K) (i : Nat) :
    ∀ cnt j (s : Build K) (e : Failure), elimUntilDiag A i j cnt s = .error e →
      e = .undefined := by
  intro cnt
  induction cnt with
  | zero => intro j s e h; cases h
  | succ cnt ih =>
    intro j s e h
    rw [elimUntilDiag] at h
    rcases bind_eq_error h with h | ⟨c, -, h⟩
    · exact rd_error h
    by_cases hc : c ≥ i
    · rw [if_pos hc] at h
      cases h
    · rw [if_neg hc] at h
      rcases bind_eq_error h with h | ⟨s1, -, h⟩
      · exact elimEntry_error h
      exact ih _ _ _ h

theorem scatter_error (A : CSR K) (i : Nat) :
    ∀ cnt j (s : Build K) (e : Failure), scatter A i j cnt s = .error e → e = .undefined := by
  intro cnt
  induction cnt with
  | zero => intro j s e h; cases h
  | succ cnt ih =>
    intro j s e h
    rw [scatter] at h
    rcases bind_eq_error h with h | ⟨c, -, h⟩
    · exact rd_error h
    rcases bind_eq_error h with h | ⟨v, -, h⟩
    · exact rd_error h
    by_cases h1 : c < i
    · rw [if_pos h1] at h
      by_cases hcap : s.Lcol.length < s.Lnz
      · rw [if_pos hcap] at h
        rcases bind_eq_error h with h | ⟨w, -, h⟩
        · exact wr_error h
        exact ih _ _ _ h
      · rw [if_neg hcap] at h
        injection h with h
        exact h.symm
    · rw [if_neg h1] at h
      by_cases h2 : c = i
      · rw [if_pos h2] at h
        rcases bind_eq_error h with h | ⟨w, -, h⟩
        · exact wr_error h
        exact ih _ _ _ h
      · rw [if_neg h2] at h
        by_cases hcap : s.Ucol.length < s.Unz
        · rw [if_pos hcap] at h
          rcases bind_eq_error h with h | ⟨w, -, h⟩
          · exact wr_error h
          exact ih _ _ _ h
        · rw [if_neg hcap] at h
          injection h with h
          exact h.symm

theorem clear_error (A : CSR K) :
    ∀ cnt j (s : Build K) (e : Failure), clear A j cnt s = .error e → e = .undefined := by
  intro cnt
  induction cnt with
  | zero => intro j s e h; cases h
  | succ cnt ih =>
    intro j s e h
    rw [clear] at h
    rcases bind_eq_error h with h | ⟨c, -, h⟩
    · exact rd_error h
    rcases bind_eq_error h with h | ⟨w, -, h⟩
    · exact wr_error h
    exact ih _ _ _ h

/-- The column at which a completed elimination loop stopped is the first
stored column `c ≥ i` of the segment. -/
theorem elimUntilDiag_result (A : CSR K) (i : Nat) (hv : A.val.length = A.col.length) :
    ∀ cnt j (s : Build K) (r : Build K × Option Nat), j + cnt ≤ A.col.length →
      elimUntilDiag A i j cnt s = .ok r → r.2 = firstGE i ((A.seg j cnt).map Prod.fst) := by
  intro cnt
  induction cnt with
  | zero =>
    intro j s r _ h
    simp only [elimUntilDiag] at h
    injection h with h
    rw [← h]
    simp [CSR.seg_zero, firstGE]
  | succ cnt ih =>
    intro j s r hj h
    obtain ⟨c, v, hc, -, hseg⟩ := A.seg_succ j cnt hv (by omega)
    rw [elimUntilDiag, rd_of_getElem? hc, ok_bind] at h
    rw [hseg, List.map_cons, firstGE_cons]
    by_cases hci : i ≤ c
    · rw [if_pos hci] at h
      rw [if_pos hci]
      injection h with h
      rw [← h]
    · rw [if_neg hci] at h
      rw [if_neg hci]
      obtain ⟨s1, -, h⟩ := bind_eq_ok h
      exact ih _ _ _ (by omega) h

theorem firstGE_some {i c : Nat} {cs : List Nat} (h : firstGE i cs = some c) :
    c ∈ cs ∧ i ≤ c := by
  unfold firstGE at h
  exact ⟨List.mem_of_find?_eq_some h, by simpa using List.find?_some h⟩

theorem firstGE_none {i : Nat} {cs : List Nat} (h : firstGE i cs = none) :
    ∀ c ∈ cs, c < i := by
  unfold firstGE at h
  intro c hc
  have := List.find?_eq_none.1 h c hc
  simpa using this

/-- The body of the row loop as scatter, elimination up to the diagonal, the
diagonal block when a column `c ≥ i` was found, and clear. -/
theorem processRow_eq {A : CSR K} (hwf : A.WellFormed) {i : Nat} (hi : i < A.nrows)
    (s : Build K) :
    processRow A i s =
      scatter A i (A.ptr.getD i 0) (A.ptr.getD (i + 1) 0 - A.ptr.getD i 0) s >>= fun s1 =>
        (elimUntilDiag A i (A.ptr.getD i 0) (A.ptr.getD (i + 1) 0 - A.ptr.getD i 0)
          { s1 with Lptr := s1.Lptr ++ [s1.Lcol.length], Uptr := s1.Uptr ++ [s1.Ucol.length] }
          >>= fun r =>
            match r.2 with
            | none => .ok r.1
            | some c => diagBlock i c r.1) >>= fun s3 =>
        clear A (A.ptr.getD i 0) (A.ptr.getD (i + 1) 0 - A.ptr.getD i 0) s3 := by
  unfold processRow
  rw [hwf.rd_ptr (Nat.le_of_lt hi), ok_bind, hwf.rd_ptr (i := i + 1) (by omega), ok_bind]
  dsimp only
  congr 1
  funext s1
  rw [eliminate_eq_untilDiag]
  try rfl

end ErrorKinds

/-! ## Where the diagonal check fires -/

section DiagCheck

variable {K : Type} [Field K] [DecidableEq K]

theorem flatUpto_mem {α : Type} (f : Nat → List α) (x : α) :
    ∀ i, x ∈ flatUpto f i → ∃ r < i, x ∈ f r := by
  intro i
  induction i with
  | zero => intro h; simp [flatUpto] at h
  | succ i ih =>
    intro h
    simp only [flatUpto, List.mem_append] at h
    rcases h with h | h
    · obtain ⟨r, hr, hx⟩ := ih h
      exact ⟨r, by omega, hx⟩
    · exact ⟨i, by omega, h⟩

theorem scatter_D (A : CSR K) (i : Nat) (hv : A.val.length = A.col.length) :
    ∀ cnt j (s s1 : Build K), j + cnt ≤ A.col.length → scatter A i j cnt s = .ok s1 →
      s1.D.length = s.D.length
        + (((A.seg j cnt).map Prod.fst).filter fun c => decide (c = i)).length ∧
      s1.Lnz = s.Lnz ∧ s1.Unz = s.Unz := by
  intro cnt
  induction cnt with
  | zero =>
    intro j s s1 _ h
    simp only [scatter] at h
    injection h with h
    subst h
    exact ⟨by simp [CSR.seg_zero], rfl, rfl⟩
  | succ cnt ih =>
    intro j s s1 hj h
    obtain ⟨c, v, hc, hv', hseg⟩ := A.seg_succ j cnt hv (by omega)
    rw [scatter, rd_of_getElem? hc, ok_bind, rd_of_getElem? hv', ok_bind] at h
    rw [hseg]
    by_cases h1 : c < i
    · rw [if_pos h1] at h
      by_cases hcap : s.Lcol.length < s.Lnz
      · rw [if_pos hcap] at h
        obtain ⟨w, -, h⟩ := bind_eq_ok h
        have := ih (j + 1) _ s1 (by omega) h
        refine ⟨?_, this.2.1, this.2.2⟩
        rw [this.1]
        have hne : ¬ c = i := by omega
        simp [List.filter_cons, hne]
      · rw [if_neg hcap] at h
        cases h
    · rw [if_neg h1] at h
      by_cases h2 : c = i
      · rw [if_pos h2] at h
        obtain ⟨w, -, h⟩ := bind_eq_ok h
        have := ih (j + 1) _ s1 (by omega) h
        refine ⟨?_, this.2.1, this.2.2⟩
        rw [this.1]
        simp [List.filter_cons, h2]
        omega
      · rw [if_neg h2] at h
        by_cases hcap : s.Ucol.length < s.Unz
        · rw [if_pos hcap] at h
          obtain ⟨w, -, h⟩ := bind_eq_ok h
          have := ih (j + 1) _ s1 (by omega) h
          refine ⟨?_, this.2.1, this.2.2⟩
          rw [this.1]
          simp [List.filter_cons, h2]
        · rw [if_neg hcap] at h
          cases h

theorem clear_D (A : CSR K) :
    ∀ cnt j (s s1 : Build K), clear A j cnt s = .ok s1 →
      s1.D = s.D ∧ s1.Lnz = s.Lnz ∧ s1.Unz = s.Unz := by
  intro cnt
  induction cnt with
  | zero =>
    intro j s s1 h
    simp only [clear] at h
    injection h with h
    subst h
    exact ⟨rfl, rfl, rfl⟩
  | succ cnt ih =>
    intro j s s1 h
    rw [clear] at h
    obtain ⟨c, -, h⟩ := bind_eq_ok h
    obtain ⟨w, -, h⟩ := bind_eq_ok h
    have := ih (j + 1) _ s1 h
    exact this

theorem count_diag_pos {i : Nat} {cs : List Nat} (h : i ∈ cs) :
    0 < (cs.filter fun c => decide (c = i)).length :=
  List.length_pos_of_mem (List.mem_filter.2 ⟨h, by simp⟩)

/-- A completed row leaves the capacities alone and adds to `D` one cell for
each entry the row stores on the diagonal. -/
theorem processRow_D {A : CSR K} (hwf : A.WellFormed) {i : Nat} (hi : i < A.nrows)
    {s s1 : Build K} (h : processRow A i s = .ok s1) :
    s1.D.length = s.D.length + ((A.cols i).filter fun c => decide (c = i)).length ∧
    s1.Lnz = s.Lnz ∧ s1.Unz = s.Unz := by
  unfold processRow at h
  rw [hwf.rd_ptr (Nat.le_of_lt hi), ok_bind, hwf.rd_ptr (i := i + 1) (by omega), ok_bind] at h
  obtain ⟨s2, hsc, h⟩ := bind_eq_ok h
  dsimp only at h
  obtain ⟨s3, hel, h⟩ := bind_eq_ok h
  have e1 := scatter_D A i hwf.2.1 _ _ s s2 (hwf.row_end hi) hsc
  obtain ⟨-, -, -, -, -, -, -, f1, f2, f3⟩ := frame_fields (eliminate_frame A i hel)
  obtain ⟨c1, c2, c3⟩ := clear_D A _ _ s3 s1 h
  refine ⟨?_, ?_, ?_⟩
  · rw [c1, f1]
    exact e1.1
  · rw [c2, f2]
    exact e1.2.1
  · rw [c3, f3]
    exact e1.2.2

theorem rowLoop_D {A : CSR K} (hwf : A.WellFormed) :
    ∀ r, r ≤ A.nrows → ∀ s : Build K,
      rowLoop A 0 r (Build.init A.nrows A.lowerCount A.upperCount) = .ok s →
      s.Lnz = A.lowerCount ∧ s.Unz = A.upperCount ∧
      ((∀ q < r, q ∈ A.cols q) → r ≤ s.D.length) := by
  intro r
  induction r with
  | zero =>
    intro _ s h
    simp only [rowLoop] at h
    injection h with h
    subst h
    exact ⟨rfl, rfl, fun _ => Nat.zero_le _⟩
  | succ r ih =>
    intro hr s h
    rw [rowLoop_snoc] at h
    obtain ⟨s0, h0, h⟩ := bind_eq_ok h
    rw [Nat.zero_add] at h
    obtain ⟨a1, a2, a3⟩ := ih (by omega) s0 h0
    obtain ⟨b1, b2, b3⟩ := processRow_D hwf (show r < A.nrows by omega) h
    refine ⟨by rw [b2, a1], by rw [b3, a2], ?_⟩
    intro hd
    have := a3 (fun q hq => hd q (by omega))
    have := count_diag_pos (hd r (by omega))
    omega

/-- After the scatter of row `i` and the update of the offsets the state
satisfies what the elimination of row `i` needs, when the columns are in
range and every earlier row stores its diagonal. -/
theorem elimSafe_scattered {A : CSR K} (hwf : A.WellFormed) (hr : A.InRange) {i : Nat}
    (hi : i < A.nrows) (hd : ∀ q < i, q ∈ A.cols q) {s s1 : Build K}
    (hs : rowLoop A 0 i (Build.init A.nrows A.lowerCount A.upperCount) = .ok s)
    (hsc : scatter A i (A.ptr.getD i 0) (A.ptr.getD (i + 1) 0 - A.ptr.getD i 0) s = .ok s1) :
    ElimSafe A.nrows i
      { s1 with Lptr := s1.Lptr ++ [s1.Lcol.length], Uptr := s1.Uptr ++ [s1.Ucol.length] } ∧
    s1.D.length = s.D.length + ((A.cols i).filter fun c => decide (c = i)).length := by
  have hsh := rowLoop_shape hwf i (Nat.le_of_lt hi) s hs
  have hw := rowLoop_work hwf i (Nat.le_of_lt hi) s hs
  obtain ⟨-, -, hD⟩ := rowLoop_D hwf i (Nat.le_of_lt hi) s hs
  simp only [Build.shape, Prod.mk.injEq] at hsh
  obtain ⟨g1, g2, g3, g4, g5, g6⟩ := hsh
  have e1 := scatter_shape A i hwf.2.1 _ _ s s1 (hwf.row_end hi) hsc
  simp only [Build.shape, Prod.mk.injEq] at e1
  obtain ⟨k1, k2, k3, k4, k5, k6⟩ := e1
  obtain ⟨w1, -⟩ := scatter_work A i hwf.2.1 _ _ s s1 (hwf.row_end hi) hsc
  obtain ⟨v1, v2, -, -⟩ := scatter_valid A i hwf.2.1 _ _ s s1 (hwf.row_end hi) hsc
    (by rw [g5, g1]) (by rw [g6, g2])
    (by
      intro x p hp
      rw [hw] at hp
      by_cases hx : x < A.nrows
      · rw [List.getElem?_eq_getElem (by simpa using hx)] at hp
        simp at hp
      · rw [List.getElem?_eq_none (by simpa using hx)] at hp
        cases hp)
  have hcols : (A.seg (A.ptr.getD i 0) (A.ptr.getD (i + 1) 0 - A.ptr.getD i 0)).map Prod.fst
      = A.cols i := rfl
  rw [hcols] at k1 k2 k5 k6 v2
  refine ⟨⟨?_, ?_, ?_, ?_, ?_, ?_, ?_⟩, v2⟩
  · show s1.work.length = A.nrows
    rw [w1, hw]
    simp
  · intro x p hp
    have := v1 x p hp
    cases p <;> exact this
  · show i ≤ s1.D.length
    have := hD hd
    omega
  · show i + 1 ≤ (s1.Uptr ++ [s1.Ucol.length]).length
    rw [k4, g4]
    simp [ptrUpto_length]
  · intro c hc
    show (s1.Uptr ++ [s1.Ucol.length]).getD c 0
      + ((s1.Uptr ++ [s1.Ucol.length]).getD (c + 1) 0 - (s1.Uptr ++ [s1.Ucol.length]).getD c 0)
      ≤ s1.Ucol.length
    rw [k4, g4, k2, g2]
    have l0 := ptrUpto_length (fun r => upperOf r (A.cols r)) i
    rw [List.getD_append _ _ _ _ (by rw [l0]; omega),
      List.getD_append _ _ _ _ (by rw [l0]; omega),
      ptrUpto_getD _ (show c ≤ i by omega), ptrUpto_getD _ (show c + 1 ≤ i by omega)]
    have m1 := flatUpto_length_mono (fun r => upperOf r (A.cols r)) 1 c
    have m2 := flatUpto_length_mono (fun r => upperOf r (A.cols r)) (i - (c + 1)) (c + 1)
    have e : c + 1 + (i - (c + 1)) = i := by omega
    rw [e] at m2
    rw [List.length_append]
    omega
  · show s1.Uval.length = s1.Ucol.length
    rw [k6, k2, g6, g2, List.length_append]
  · intro u hu
    change u ∈ s1.Ucol at hu
    rw [k2, g2, List.mem_append] at hu
    rcases hu with hu | hu
    · obtain ⟨q, hq, hu⟩ := flatUpto_mem _ u i hu
      exact hr q (by omega) u (mem_upperOf.1 hu).1
    · exact hr i hi u (mem_upperOf.1 hu).1

end DiagCheck

section DiagCheck2

variable {K : Type} [Field K] [DecidableEq K]

theorem diagBlock_of_ne {i c : Nat} (s : Build K) (hc : c ≠ i) :
    diagBlock i c s = .error .noDiagonal := by
  simp [diagBlock, precondition, hc]

/-- Row `i` never runs into an out-of-bounds access when the columns are in
range and every earlier row stores its diagonal entry. -/
theorem processRow_defined {A : CSR K} (hwf : A.WellFormed) (hr : A.InRange) {i : Nat}
    (hi : i < A.nrows) (hd : ∀ q < i, q ∈ A.cols q) {s : Build K}
    (hs : rowLoop A 0 i (Build.init A.nrows A.lowerCount A.upperCount) = .ok s) :
    processRow A i s ≠ .error .undefined := by
  have hsh := rowLoop_shape hwf i (Nat.le_of_lt hi) s hs
  have hw := rowLoop_work hwf i (Nat.le_of_lt hi) s hs
  obtain ⟨hLnz, hUnz, hD⟩ := rowLoop_D hwf i (Nat.le_of_lt hi) s hs
  simp only [Build.shape, Prod.mk.injEq] at hsh
  obtain ⟨g1, g2, -, -, -, -⟩ := hsh
  have hcols : (A.seg (A.ptr.getD i 0) (A.ptr.getD (i + 1) 0 - A.ptr.getD i 0)).map Prod.fst
      = A.cols i := rfl
  have hwl : s.work.length = A.nrows := by rw [hw]; simp
  obtain ⟨s1, hsc⟩ := scatter_ok A i hwf.2.1 _ _ s (hwf.row_end hi)
    (by rw [hcols, hwl]; exact hr i hi)
    (by rw [hcols, g1, hLnz]; exact flatUpto_succ_le _ hi)
    (by rw [hcols, g2, hUnz]; exact flatUpto_succ_le _ hi)
  obtain ⟨hsafe, hDl⟩ := elimSafe_scattered hwf hr hi hd hs hsc
  obtain ⟨w1, w2⟩ := scatter_work A i hwf.2.1 _ _ s s1 (hwf.row_end hi) hsc
  obtain ⟨s3, hel⟩ := elimUntilDiag_ok A hwf.2.1 _ _ _ hsafe (hwf.row_end hi)
    (by
      intro c hc
      exact (w2 c).2 (Or.inl hc))
  have hfr := elimUntilDiag_frame A i _ _ _ _ hel
  obtain ⟨-, -, -, -, -, -, f7, f8, -, -⟩ := frame_fields hfr
  simp only at f7 f8
  have hwl3 : s3.work.length = A.nrows := by rw [f7, w1, hwl]
  rw [processRow_eq hwf hi, hsc, ok_bind, hel, ok_bind]
  dsimp only
  rw [hcols]
  cases hf : firstGE i (A.cols i) with
  | none =>
    dsimp only
    rw [ok_bind]
    obtain ⟨w, hcl, -⟩ := clear_spec A hwf.2.1 _ _ s3 (hwf.row_end hi)
      (by rw [hcols, hwl3]; exact hr i hi)
    rw [hcl]
    intro h
    cases h
  | some c =>
    dsimp only
    obtain ⟨hmem, hic⟩ := firstGE_some hf
    by_cases hci : c = i
    · subst hci
      have hlt : c < s3.D.length := by
        rw [f8]
        show c < s1.D.length
        have := hD hd
        have := count_diag_pos hmem
        omega
      unfold diagBlock
      simp only [precondition, decide_True, if_true, ok_bind]
      rw [rd_getD 0 hlt, ok_bind]
      by_cases hz : s3.D.getD c 0 = 0
      · simp only [hz, ne_eq, not_true_eq_false, decide_False, Bool.false_eq_true, if_false,
          error_bind]
        intro h
        cases h
      · simp only [ne_eq, hz, not_false_eq_true, decide_True, if_true, ok_bind]
        rw [wr_of_lt _ hlt, ok_bind]
        simp only [pure, Except.pure, ok_bind]
        obtain ⟨w, hcl, -⟩ := clear_spec A hwf.2.1 _ _
          { s3 with D := s3.D.set c (s3.D.getD c 0)⁻¹ } (hwf.row_end hi)
          (by rw [hcols]; show ∀ x ∈ A.cols c, x < s3.work.length; rw [hwl3]; exact hr c hi)
        rw [hcl]
        intro h
        cases h
    · rw [diagBlock_of_ne _ hci]
      intro h
      cases h

end DiagCheck2

section DiagCheck3

variable {K : Type} [Field K] [DecidableEq K]

/-- Scenario 5 after its row 0: the state in which row 1, which stores only
column 0, is processed. -/
theorem rowLoop_noDiag2_row0 :
    rowLoop noDiag2 0 1 (Build.init 2 noDiag2.lowerCount noDiag2.upperCount) = .ok
      { Lnz := 1, Unz := 0, Lcol := [], Lval := [], Lptr := [0, 0], Ucol := [], Uval := [],
        Uptr := [0, 0], D := [1], work := [none, none] } := by
  norm_num [noDiag2, rowLoop, processRow, scatter, CSR.lowerCount, CSR.upperCount, flatUpto,
    lowerOf, upperOf, CSR.cols, CSR.row, CSR.seg,
    eliminate, clear, elimEntry, combine, diagBlock, rd, wr, precondition, Build.init,
    Build.load, Build.store, bind, Except.bind, Except.map, pure, Except.pure, List.replicate]

/-- Claim C19 (where the diagonal check fires).  Rows `0 … i - 1` were
processed without error, leaving the state `s`.  The body of row `i` stays
within bounds when the columns are in range and the earlier rows store their
diagonal; whenever it stays within bounds, it fails with the missing-diagonal
error exactly when the first stored column `c ≥ i` of row `i` exists and has
`c > i`.  When row `i` stores no column `≥ i` (`firstGE` finds none, i.e. all
its columns are `< i`), the elimination loop ends without entering the
diagonal block, so neither precondition is evaluated, the row completes and
the row loop has processed rows `0 … i`. -/
theorem diagonal_check_location (A : CSR K) (hwf : A.WellFormed) (i : Nat) (hi : i < A.nrows)
    (s : Build K)
    (hs : rowLoop A 0 i (Build.init A.nrows A.lowerCount A.upperCount) = .ok s) :
    (A.InRange → (∀ q < i, q ∈ A.cols q) → processRow A i s ≠ .error .undefined) ∧
    (firstGE i (A.cols i) = none ↔ ∀ c ∈ A.cols i, c < i) ∧
    (processRow A i s ≠ .error .undefined →
      (processRow A i s = .error .noDiagonal ↔
        ∃ c, firstGE i (A.cols i) = some c ∧ i < c) ∧
      (firstGE i (A.cols i) = none →
        ∃ s1 s3 s4,
          scatter A i (A.ptr.getD i 0) (A.ptr.getD (i + 1) 0 - A.ptr.getD i 0) s = .ok s1 ∧
          elimUntilDiag A i (A.ptr.getD i 0) (A.ptr.getD (i + 1) 0 - A.ptr.getD i 0)
            { s1 with Lptr := s1.Lptr ++ [s1.Lcol.length],
                      Uptr := s1.Uptr ++ [s1.Ucol.length] } = .ok (s3, none) ∧
          eliminate A i (A.ptr.getD i 0) (A.ptr.getD (i + 1) 0 - A.ptr.getD i 0)
            { s1 with Lptr := s1.Lptr ++ [s1.Lcol.length],
                      Uptr := s1.Uptr ++ [s1.Ucol.length] } = .ok s3 ∧
          processRow A i s = .ok s4 ∧
          rowLoop A 0 (i + 1) (Build.init A.nrows A.lowerCount A.upperCount) = .ok s4)) := by
  refine ⟨fun hr hd => processRow_defined hwf hr hi hd hs, ?_, ?_⟩
  · constructor
    · exact firstGE_none
    · intro h
      unfold firstGE
      rw [List.find?_eq_none]
      intro c hc
      have := h c hc
      simp only [decide_eq_true_eq]
      omega
  intro hdef
  have hcols : (A.seg (A.ptr.getD i 0) (A.ptr.getD (i + 1) 0 - A.ptr.getD i 0)).map Prod.fst
      = A.cols i := rfl
  cases hsc : scatter A i (A.ptr.getD i 0) (A.ptr.getD (i + 1) 0 - A.ptr.getD i 0) s with
  | error e =>
    exfalso
    apply hdef
    rw [processRow_eq hwf hi, hsc]
    have := scatter_error A i _ _ _ _ hsc
    subst this
    rfl
  | ok s1 =>
    cases hel : elimUntilDiag A i (A.ptr.getD i 0) (A.ptr.getD (i + 1) 0 - A.ptr.getD i 0)
        { s1 with Lptr := s1.Lptr ++ [s1.Lcol.length],
                  Uptr := s1.Uptr ++ [s1.Ucol.length] } with
    | error e =>
      exfalso
      apply hdef
      rw [processRow_eq hwf hi, hsc, ok_bind, hel]
      have := elimUntilDiag_error A i _ _ _ _ hel
      subst this
      rfl
    | ok r =>
      have hr2 := elimUntilDiag_result A i hwf.2.1 _ _ _ r (hwf.row_end hi) hel
      rw [hcols] at hr2
      have hP : processRow A i s =
          (match r.2 with
            | none => .ok r.1
            | some c => diagBlock i c r.1) >>= fun s3 =>
            clear A (A.ptr.getD i 0) (A.ptr.getD (i + 1) 0 - A.ptr.getD i 0) s3 := by
        rw [processRow_eq hwf hi, hsc, ok_bind, hel, ok_bind]
        try rfl
      obtain ⟨s3, o⟩ := r
      dsimp only at hr2 hP
      subst hr2
      cases hf : firstGE i (A.cols i) with
      | none =>
        rw [hf] at hP hel
        dsimp only at hP
        rw [ok_bind] at hP
        cases hcl : clear A (A.ptr.getD i 0) (A.ptr.getD (i + 1) 0 - A.ptr.getD i 0) s3 with
        | error e =>
          exfalso
          apply hdef
          rw [hP, hcl]
          have := clear_error A _ _ _ _ hcl
          subst this
          rfl
        | ok s4 =>
          rw [hcl] at hP
          refine ⟨⟨fun h => ?_, fun h => ?_⟩, fun _ => ⟨s1, s3, s4, rfl, hel, ?_, hP, ?_⟩⟩
          · rw [hP] at h
            cases h
          · obtain ⟨c, hc, -⟩ := h
            cases hc
          · rw [eliminate_eq_untilDiag, hel]
            rfl
          · rw [rowLoop_snoc, hs, ok_bind, Nat.zero_add]
            exact hP
      | some c =>
        rw [hf] at hP
        dsimp only at hP
        obtain ⟨-, hic⟩ := firstGE_some hf
        refine ⟨?_, fun h => by cases h⟩
        by_cases hci : c = i
        · subst hci
          constructor
          · intro h
            exfalso
            rw [hP] at h
            rcases bind_eq_error h with hdb | ⟨s5, -, hcl⟩
            · rcases diagBlock_error_cases hdb with ⟨-, hne⟩ | ⟨h1, -⟩ | h1
              · exact hne rfl
              · cases h1
              · cases h1
            · have := clear_error A _ _ _ _ hcl
              cases this
          · rintro ⟨c2, hc2, hlt⟩
            injection hc2 with hc2
            omega
        · constructor
          · intro _
            exact ⟨c, rfl, by omega⟩
          · intro _
            rw [hP, diagBlock_of_ne _ hci]
            rfl

theorem diagonal_check_location_witness :
    ((processRow noDiagRow0 0 (Build.init 2 noDiagRow0.lowerCount noDiagRow0.upperCount)
        = .error .noDiagonal ↔
      ∃ c, firstGE 0 (noDiagRow0.cols 0) = some c ∧ 0 < c) ∧
      firstGE 0 (noDiagRow0.cols 0) = some 1) ∧
    (firstGE 1 (noDiag2.cols 1) = none ∧
      ∃ s4, processRow noDiag2 1
          { Lnz := 1, Unz := 0, Lcol := [], Lval := [], Lptr := [0, 0], Ucol := [], Uval := [],
            Uptr := [0, 0], D := [1], work := [none, none] } = .ok s4 ∧
        rowLoop noDiag2 0 2 (Build.init 2 noDiag2.lowerCount noDiag2.upperCount) = .ok s4) := by
  refine ⟨⟨((diagonal_check_location noDiagRow0 (by decide) 0 (by decide) _ rfl).2.2
      ((diagonal_check_location noDiagRow0 (by decide) 0 (by decide) _ rfl).1 (by decide)
        (by intro q hq; omega))).1, by decide⟩, by decide, ?_⟩
  obtain ⟨s1, s3, s4, -, -, -, h1, h2⟩ :=
    ((diagonal_check_location noDiag2 (by decide) 1 (by decide) _ rowLoop_noDiag2_row0).2.2
      ((diagonal_check_location noDiag2 (by decide) 1 (by decide) _ rowLoop_noDiag2_row0).1
        (by decide) (by decide))).2 (by decide)
  exact ⟨s4, h1, h2⟩

end DiagCheck3

/-! ## The work table across the row loop -/

section WorkTable3

variable {K : Type} [Field K] [DecidableEq K]

/-- Claim C20 (scratch-table invariant): for a well-formed matrix with
columns in `[0, n)` the work table is all `NULL` before the first row; when
row `i` starts (rows `0 … i - 1` completed) the scatter pass completes and
leaves exactly the columns stored in row `i` present; from any all-`NULL`
table the scatter pass leaves exactly those columns present, the elimination
pass leaves the table untouched, and a completed row leaves it all `NULL`
again; so it is all `NULL` after any number of completed rows. -/
theorem work_table_invariant (A : CSR K) (hwf : A.WellFormed) (hr : A.InRange) :
    (∀ Lnz Unz, (Build.init A.nrows Lnz Unz : Build K).work = List.replicate A.nrows none) ∧
    (∀ i < A.nrows, ∀ s : Build K,
      rowLoop A 0 i (Build.init A.nrows A.lowerCount A.upperCount) = .ok s →
      ∃ s1, scatter A i (A.ptr.getD i 0) (A.ptr.getD (i + 1) 0 - A.ptr.getD i 0) s = .ok s1 ∧
        s1.work.length = A.nrows ∧ ∀ x, present s1.work x ↔ x ∈ A.cols i) ∧
    (∀ i < A.nrows, ∀ s : Build K, s.work = List.replicate A.nrows none →
      (∀ s1, scatter A i (A.ptr.getD i 0) (A.ptr.getD (i + 1) 0 - A.ptr.getD i 0) s = .ok s1 →
        s1.work.length = A.nrows ∧ ∀ x, present s1.work x ↔ x ∈ A.cols i) ∧
      (∀ j cnt (s2 s3 : Build K), eliminate A i j cnt s2 = .ok s3 → s3.work = s2.work) ∧
      (∀ c (s2 s3 : Build K), elimEntry c s2 = .ok s3 → s3.work = s2.work) ∧
      (∀ s1, processRow A i s = .ok s1 → s1.work = List.replicate A.nrows none)) ∧
    (∀ r ≤ A.nrows, ∀ s : Build K,
      rowLoop A 0 r (Build.init A.nrows A.lowerCount A.upperCount) = .ok s →
      s.work = List.replicate A.nrows none) := by
  have hscat : ∀ i < A.nrows, ∀ s : Build K, s.work = List.replicate A.nrows none →
      ∀ s1, scatter A i (A.ptr.getD i 0) (A.ptr.getD (i + 1) 0 - A.ptr.getD i 0) s = .ok s1 →
        s1.work.length = A.nrows ∧ ∀ x, present s1.work x ↔ x ∈ A.cols i := by
    intro i hi s hs s1 hsc
    have hlen : s.work.length = A.nrows := by rw [hs]; simp
    obtain ⟨a1, a2⟩ := scatter_work A i hwf.2.1 _ _ s s1 (hwf.row_end hi) hsc
    refine ⟨by rw [a1, hlen], ?_⟩
    intro x
    rw [a2 x]
    constructor
    · rintro (h | h)
      · exact h
      · exact absurd h ((all_absent_iff hlen).1 hs x)
    · intro h
      exact Or.inl h
  refine ⟨fun _ _ => rfl, ?_, ?_, rowLoop_work hwf⟩
  · intro i hi s hs
    have hsh := rowLoop_shape hwf i (Nat.le_of_lt hi) s hs
    have hw := rowLoop_work hwf i (Nat.le_of_lt hi) s hs
    obtain ⟨hLnz, hUnz, -⟩ := rowLoop_D hwf i (Nat.le_of_lt hi) s hs
    simp only [Build.shape, Prod.mk.injEq] at hsh
    obtain ⟨g1, g2, -, -, -, -⟩ := hsh
    have hcols : (A.seg (A.ptr.getD i 0) (A.ptr.getD (i + 1) 0 - A.ptr.getD i 0)).map Prod.fst
        = A.cols i := rfl
    have hwl : s.work.length = A.nrows := by rw [hw]; simp
    obtain ⟨s1, hsc⟩ := scatter_ok A i hwf.2.1 _ _ s (hwf.row_end hi)
      (by rw [hcols, hwl]; exact hr i hi)
      (by rw [hcols, g1, hLnz]; exact flatUpto_succ_le _ hi)
      (by rw [hcols, g2, hUnz]; exact flatUpto_succ_le _ hi)
    exact ⟨s1, hsc, hscat i hi s hw s1 hsc⟩
  · intro i hi s hs
    exact ⟨hscat i hi s hs, fun j cnt s2 s3 h => frame_work (eliminate_frame A i h),
      fun c s2 s3 h => frame_work (elimEntry_frame h),
      fun s1 h => processRow_work hwf hi hs h⟩

/-- Instance of C20 on `tridiag(-1, 2, -1)`: the table after the three rows. -/
theorem work_table_invariant_witness :
    (tridiag3.WellFormed ∧ tridiag3.InRange) ∧
    ∀ s : Build ℚ,
      rowLoop tridiag3 0 3
        (Build.init tridiag3.nrows tridiag3.lowerCount tridiag3.upperCount) = .ok s →
      s.work = List.replicate tridiag3.nrows none :=
  ⟨⟨by decide, by decide⟩,
    (work_table_invariant tridiag3 (by decide) (by decide)).2.2.2 3 (by decide)⟩

end WorkTable3

/-! ## The smoother contract -/

section SmootherContract

variable {K : Type} [Field K] [DecidableEq K]

/-- For triangular factors with nonzero `D` the serial solve multiplies by
the inverse of `M = (L + I)·(U + diag(1/D))`. -/
theorem serial_solve_eq_inv (L U : CSR K) (D r : List K)
    (hL : ∀ i < L.nrows, ∀ e ∈ L.row i, e.1 < i)
    (hU : ∀ i < L.nrows, ∀ e ∈ U.row i, i < e.1 ∧ e.1 < L.nrows)
    (hD : ∀ i < L.nrows, D.getD i 0 ≠ 0) (hr : r.length = L.nrows) :
    toVec L.nrows (serial_ilu_solve L U D r) =
      ((L.toMatrix L.nrows + 1) *
        (U.toMatrix L.nrows + Matrix.diagonal fun k : Fin L.nrows => (D.getD k 0)⁻¹))⁻¹.mulVec
        (toVec L.nrows r) := by
  have hsurj : Function.Surjective ((L.toMatrix L.nrows + 1) *
      (U.toMatrix L.nrows + Matrix.diagonal fun k : Fin L.nrows => (D.getD k 0)⁻¹)).mulVec := by
    intro w
    refine ⟨toVec L.nrows (serial_ilu_solve L U D (List.ofFn w)), ?_⟩
    rw [serial_round_trip L U D (List.ofFn w) hL hU hD (by simp), toVec_ofFn]
  have hdet := (Matrix.isUnit_iff_isUnit_det _).1 (Matrix.mulVec_surjective_iff_isUnit.1 hsurj)
  have h := serial_round_trip L U D r hL hU hD hr
  rw [← h, Matrix.mulVec_mulVec, Matrix.nonsing_inv_mul _ hdet, Matrix.one_mulVec]

theorem parallel_zero_sweeps (L U : CSR K) (D r : List K) :
    parallel_ilu_solve L U D 0 r = r := rfl

theorem parallel_one_sweep (L U : CSR K) (D r : List K) :
    parallel_ilu_solve L U D 1 r = sweepU L.nrows U D (sweepL L r r) (sweepL L r r) := rfl

theorem toVec_residual (A : CSR K) {n : Nat} (hn : A.nrows = n) (hA : A.InRange)
    (b x : List K) :
    toVec n (residual b A x) = toVec n b - (A.toMatrix n).mulVec (toVec n x) := by
  subst hn
  funext k
  rw [Pi.sub_apply, mulVec_toMatrix A x k (fun e he => hA k k.2 e.1 (List.mem_map_of_mem _ he))]
  simp only [toVec, residual]
  exact getD_map_range A.nrows _ k.2

/-- Claim C7 (smoother contract).  With `parallel_ilu_solve` for the parallel
strategy: `apply_pre` leaves `x + ω·z`, `z` being the serial substitution
(serial instance) or `jacobi_iters` Jacobi sweeps (parallel instance) applied
to the residual `b − A·x`; `apply_post` returns the same; `apply` returns the
strategy's solve of `b`, whatever `ω` and the previous `x` are.  For
triangular factors with nonzero `D`, with `M = (L + I)·(U + diag(1/D))`, the
serial strategy, and the parallel one from `n` sweeps on, give
`x + ω·M⁻¹(b − A·x)` and `M⁻¹·b`; with no sweep the parallel strategy returns
its argument and with one sweep one `L`-sweep followed by one `U`-sweep. -/
theorem smoother_contract (S : Instance K) (A : CSR K) (b x : List K) (prm : params K)
    (hA : A.InRange) :
    apply_pre parallel_ilu_solve S A b x prm =
      (List.range x.length).map (fun i =>
        x.getD i 0 + prm.damping *
          (if S.serial then serial_ilu_solve S.fac.L S.fac.U S.fac.D (residual b A x)
            else parallel_ilu_solve S.fac.L S.fac.U S.fac.D prm.jacobi_iters
              (residual b A x)).getD i 0) ∧
    toVec A.nrows (residual b A x)
      = toVec A.nrows b - (A.toMatrix A.nrows).mulVec (toVec A.nrows x) ∧
    apply_post parallel_ilu_solve S A b x prm = apply_pre parallel_ilu_solve S A b x prm ∧
    apply parallel_ilu_solve S b x prm =
      (if S.serial then serial_ilu_solve S.fac.L S.fac.U S.fac.D b
        else parallel_ilu_solve S.fac.L S.fac.U S.fac.D prm.jacobi_iters b) ∧
    (∀ (x2 : List K) (w : K),
      apply parallel_ilu_solve S b x2 { prm with damping := w }
        = apply parallel_ilu_solve S b x prm) ∧
    ((∀ i < S.fac.L.nrows, ∀ e ∈ S.fac.L.row i, e.1 < i) →
      (∀ i < S.fac.L.nrows, ∀ e ∈ S.fac.U.row i, i < e.1 ∧ e.1 < S.fac.L.nrows) →
      (∀ i < S.fac.L.nrows, S.fac.D.getD i 0 ≠ 0) →
      A.nrows = S.fac.L.nrows → x.length = S.fac.L.nrows →
      (S.serial = true ∨ S.fac.L.nrows ≤ prm.jacobi_iters) →
      toVec S.fac.L.nrows (apply_pre parallel_ilu_solve S A b x prm)
        = toVec S.fac.L.nrows x + prm.damping •
          ((S.fac.L.toMatrix S.fac.L.nrows + 1) *
            (S.fac.U.toMatrix S.fac.L.nrows
              + Matrix.diagonal fun k : Fin S.fac.L.nrows => (S.fac.D.getD k 0)⁻¹))⁻¹.mulVec
            (toVec S.fac.L.nrows b
              - (A.toMatrix S.fac.L.nrows).mulVec (toVec S.fac.L.nrows x)) ∧
      (b.length = S.fac.L.nrows →
        toVec S.fac.L.nrows (apply parallel_ilu_solve S b x prm)
          = ((S.fac.L.toMatrix S.fac.L.nrows + 1) *
            (S.fac.U.toMatrix S.fac.L.nrows
              + Matrix.diagonal fun k : Fin S.fac.L.nrows => (S.fac.D.getD k 0)⁻¹))⁻¹.mulVec
            (toVec S.fac.L.nrows b))) ∧
    (S.serial = false →
      (prm.jacobi_iters = 0 → apply parallel_ilu_solve S b x prm = b) ∧
      (prm.jacobi_iters = 1 → apply parallel_ilu_solve S b x prm
        = sweepU S.fac.L.nrows S.fac.U S.fac.D (sweepL S.fac.L b b) (sweepL S.fac.L b b))) := by
  have hsolve : ∀ r : List K, solve parallel_ilu_solve S prm r =
      (if S.serial then serial_ilu_solve S.fac.L S.fac.U S.fac.D r
        else parallel_ilu_solve S.fac.L S.fac.U S.fac.D prm.jacobi_iters r) := by
    intro r
    unfold solve
    split <;> rfl
  refine ⟨?_, toVec_residual A rfl hA b x, rfl, hsolve b, ?_, ?_, ?_⟩
  · simp only [apply_pre, axpby]
    rw [hsolve]
    apply List.map_congr_left
    intro i _
    ring
  · intro x2 w
    simp only [apply, copy, solve]
  · intro hL hU hD hn hx hstr
    have hser : ∀ r : List K, r.length = S.fac.L.nrows →
        solve parallel_ilu_solve S prm r = serial_ilu_solve S.fac.L S.fac.U S.fac.D r := by
      intro r hr
      rw [hsolve]
      rcases hstr with h | h
      · rw [if_pos h]
      · split
        · rfl
        · exact parallel_eq_serial _ _ _ r hL hU hr _ h
    have hres : (residual b A x).length = S.fac.L.nrows := by simp [residual, hn]
    refine ⟨?_, ?_⟩
    · rw [← toVec_residual A hn hA b x,
        ← serial_solve_eq_inv _ _ _ (residual b A x) hL hU hD hres]
      funext k
      show (axpby prm.damping (solve parallel_ilu_solve S prm (residual b A x)) 1 x).getD k 0 = _
      rw [hser _ hres]
      unfold axpby
      rw [getD_map_range _ _ (by rw [hx]; exact k.2)]
      simp only [toVec, Pi.add_apply, Pi.smul_apply, smul_eq_mul]
      ring
    · intro hb
      rw [← serial_solve_eq_inv _ _ _ b hL hU hD hb]
      show toVec _ (solve parallel_ilu_solve S prm b) = _
      rw [hser b hb]
  · intro hpar
    have hap : apply parallel_ilu_solve S b x prm
        = parallel_ilu_solve S.fac.L S.fac.U S.fac.D prm.jacobi_iters b := by
      show solve parallel_ilu_solve S prm b = _
      rw [hsolve b, hpar]
      rfl
    refine ⟨fun h0 => ?_, fun h1 => ?_⟩
    · rw [hap, h0]
      rfl
    · rw [hap, h1]
      rfl

end SmootherContract

section SmootherContractInstance

/-- Instance of C7 on `tridiag(-1, 2, -1)` with its factors, `b = [1, 0, 0]`,
`x = [1, 1, 1]` and `ω = 1/2`: the serial strategy, and the parallel one with
the default two sweeps. -/
theorem smoother_contract_witness :
    (apply_pre parallel_ilu_solve { fac := tridiag3Factors, serial := true } tridiag3
        [1, 0, 0] [1, 1, 1] { damping := 1 / 2 } = [7 / 8, 3 / 4, 5 / 8] ∧
      apply parallel_ilu_solve { fac := tridiag3Factors, serial := true }
        [1, 0, 0] [1, 1, 1] { damping := 1 / 2 } = [3 / 4, 1 / 2, 1 / 4]) ∧
    (apply_pre parallel_ilu_solve { fac := tridiag3Factors, serial := false } tridiag3
        [1, 0, 0] [1, 1, 1] { damping := 1 / 2 } = [5 / 6, 3 / 4, 5 / 8] ∧
      apply parallel_ilu_solve { fac := tridiag3Factors, serial := false }
        [1, 0, 0] [1, 1, 1] { damping := 1 / 2 } = [7 / 9, 1 / 2, 1 / 4]) ∧
    toVec 3 (apply_pre parallel_ilu_solve { fac := tridiag3Factors, serial := true } tridiag3
        [1, 0, 0] [1, 1, 1] { damping := 1 / 2 })
      = toVec 3 [1, 1, 1] + (1 / 2 : ℚ) •
        ((tridiag3Factors.L.toMatrix 3 + 1) *
          (tridiag3Factors.U.toMatrix 3
            + Matrix.diagonal fun k : Fin 3 => (tridiag3Factors.D.getD k 0)⁻¹))⁻¹.mulVec
          (toVec 3 [1, 0, 0] - (tridiag3.toMatrix 3).mulVec (toVec 3 [1, 1, 1])) := by
  refine ⟨⟨?_, ?_⟩, ⟨?_, ?_⟩, ?_⟩
  · rw [(smoother_contract { fac := tridiag3Factors, serial := true } tridiag3
      [1, 0, 0] [1, 1, 1] { damping := 1 / 2 } (by decide)).1]
    norm_num [serial_ilu_solve, forwardPass, backwardPass, residual, rowDot, CSR.row, CSR.seg,
      tridiag3Factors, tridiag3, List.getD, List.range, List.range.loop]
  · rw [(smoother_contract { fac := tridiag3Factors, serial := true } tridiag3
      [1, 0, 0] [1, 1, 1] { damping := 1 / 2 } (by decide)).2.2.2.1]
    norm_num [serial_ilu_solve, forwardPass, backwardPass, rowDot, CSR.row, CSR.seg,
      tridiag3Factors, List.getD]
  · rw [(smoother_contract { fac := tridiag3Factors, serial := false } tridiag3
      [1, 0, 0] [1, 1, 1] { damping := 1 / 2 } (by decide)).1]
    norm_num [parallel_ilu_solve, jacobiL, jacobiU, sweepL, sweepU, residual, rowDot, CSR.row,
      CSR.seg, tridiag3Factors, tridiag3, List.getD, List.range, List.range.loop]
  · rw [(smoother_contract { fac := tridiag3Factors, serial := false } tridiag3
      [1, 0, 0] [1, 1, 1] { damping := 1 / 2 } (by decide)).2.2.2.1]
    norm_num [parallel_ilu_solve, jacobiL, jacobiU, sweepL, sweepU, rowDot, CSR.row,
      CSR.seg, tridiag3Factors, List.getD, List.range, List.range.loop]
  · exact ((smoother_contract { fac := tridiag3Factors, serial := true } tridiag3
      [1, 0, 0] [1, 1, 1] { damping := 1 / 2 } (by decide)).2.2.2.2.2.1
        (by decide) (by decide)
        (by
          intro i hi
          have h3 : i < 3 := hi
          interval_cases i <;> norm_num [tridiag3Factors])
        rfl rfl (Or.inl rfl)).1

end SmootherContractInstance

end amgcl
